import Mathlib

/-!
# calc-lib: the expression evaluator of `calc/calculator.go`

A shallow embedding of `Evaluate`, `tokenize`, `isOperator`, `precedence`,
`applyOperator` and `evaluateTokens`, followed by theorems about them.

Modelling conventions.

* A Go `string` is a `List Char` (the runes that `range` yields).  The byte
  look-back `expression[i-1]` of `tokenize` is the previous rune: the scan only
  continues past digits, `.`, operators and parentheses, and when the previous
  rune is a multi-byte digit its last byte is neither an operator nor `(`,
  exactly like the rune itself.  The inputs are the texts, the strings that
  are valid UTF-8: on them deleting the byte 0x20, as `strings.ReplaceAll`
  does, and deleting the rune U+0020 give the same string.
* `float64`, its arithmetic, `strconv.ParseFloat` and the digit table of
  `unicode.IsDigit` are not code of the package: they are the fields of the
  parameter `Runtime`, and every theorem with a variable `rt` holds for
  whatever these library parts do.  The closed examples are computed in the
  instance `go`, binary64 with round to nearest even and the Unicode 15 table.
* A Go `error` is its sentinel kind (`CalcError`); the message text is dropped.
* The two stacks of `evaluateTokens` are lists whose head is the top of stack.
-/

namespace Calc

/-- Calculator errors: the four sentinel values of the package. -/
inductive CalcError
  | ErrInvalidExpression
  | ErrDivisionByZero
  | ErrInvalidOperator
  | ErrInvalidToken
  deriving DecidableEq, Repr

deriving instance DecidableEq for Except

/-- Token types. -/
inductive tokenType
  | numberToken
  | operatorToken
  | leftParenToken
  | rightParenToken
  deriving DecidableEq, Repr

/-- Token represents a token in the expression. -/
structure token where
  tokenType : tokenType
  value : List Char
  deriving DecidableEq, Repr

/-- The parts of the Go standard library that the package calls, taken as a
parameter: the decimal-digit table that `unicode.IsDigit` consults for runes
beyond `unicode.MaxLatin1` (it differs between Go releases), the type `float64`
with its four operations and the comparison with zero, and
`strconv.ParseFloat(s, 64)`, which is `none` when the library returns an error.
The one fact about the library that the proofs use is that the text `-`, a sign
without digits, does not parse. -/
structure Runtime where
  digitTable : Char → Bool
  F : Type
  add : F → F → F
  sub : F → F → F
  mul : F → F → F
  div : F → F → F
  isZero : F → Bool
  parseFloat : List Char → Option F
  parseFloat_minus : parseFloat ['-'] = none

variable (rt : Runtime)

/-- The library predicate `unicode.IsDigit`: for Latin-1 runes the ASCII digits,
beyond Latin-1 the decimal-digit table. -/
def unicodeIsDigit (char : Char) : Bool :=
  if char.toNat ≤ 255 then decide (48 ≤ char.toNat ∧ char.toNat ≤ 57)
  else rt.digitTable char

/-- Check if a character is a valid operator. -/
def isOperator (char : Char) : Bool :=
  char == '+' || char == '-' || char == '*' || char == '/'

/-- Get operator precedence. -/
def precedence (op : List Char) : Nat :=
  if op = ['+'] ∨ op = ['-'] then 1
  else if op = ['*'] ∨ op = ['/'] then 2
  else 0

/-- Evaluate an operation; the parameters come in the source's order `(op, b, a)`
and the result is `a op b`.  The test `b == 0` is the comparison of the runtime. -/
def applyOperator (op : List Char) (b a : rt.F) : Except CalcError rt.F :=
  if op = ['+'] then .ok (rt.add a b)
  else if op = ['-'] then .ok (rt.sub a b)
  else if op = ['*'] then .ok (rt.mul a b)
  else if op = ['/'] then
    if rt.isZero b then .error .ErrDivisionByZero else .ok (rt.div a b)
  else .error .ErrInvalidOperator

/-- The local variables of `tokenize`: the tokens emitted so far, the numeral
buffer `currentNumber` and the flag `hasDecimal`. -/
structure scanState where
  tokens : List token
  currentNumber : List Char
  hasDecimal : Bool
  deriving DecidableEq, Repr

/-- Flush any accumulated number: the block repeated in the operator and
parenthesis cases of `tokenize`. -/
def flushNumber (st : scanState) : scanState :=
  if st.currentNumber.length > 0 then
    { tokens := st.tokens ++ [⟨.numberToken, st.currentNumber⟩],
      currentNumber := [], hasDecimal := false }
  else st

/-- One iteration of the loop of `tokenize` on the rune `char`; `prev` is
`expression[i-1]`, and `none` when `i = 0`. -/
def tokenizeStep (prev : Option Char) (st : scanState) (char : Char) :
    Except CalcError scanState :=
  if unicodeIsDigit rt char then
    .ok { st with currentNumber := st.currentNumber ++ [char] }
  else if char = '.' then
    if st.hasDecimal then .error .ErrInvalidToken
    else .ok { st with hasDecimal := true, currentNumber := st.currentNumber ++ [char] }
  else if isOperator char then
    let st1 := flushNumber st
    if char = '-' ∧ (prev = none ∨ (∃ p, prev = some p ∧ isOperator p = true)
        ∨ prev = some '(') then
      .ok { st1 with currentNumber := st1.currentNumber ++ [char] }
    else
      .ok { st1 with tokens := st1.tokens ++ [⟨.operatorToken, [char]⟩] }
  else if char = '(' then
    let st1 := flushNumber st
    .ok { st1 with tokens := st1.tokens ++ [⟨.leftParenToken, ['(']⟩] }
  else if char = ')' then
    let st1 := flushNumber st
    .ok { st1 with tokens := st1.tokens ++ [⟨.rightParenToken, [')']⟩] }
  else .error .ErrInvalidToken

/-- The loop of `tokenize` over the remaining runes. -/
def tokenizeLoop (prev : Option Char) (st : scanState) :
    List Char → Except CalcError scanState
  | [] => .ok st
  | char :: rest =>
    match tokenizeStep rt prev st char with
    | .error e => .error e
    | .ok st1 => tokenizeLoop (some char) st1 rest

/-- Tokenize the expression into numbers and operators. -/
def tokenize (expression : List Char) : Except CalcError (List token) :=
  match tokenizeLoop rt none ⟨[], [], false⟩ expression with
  | .error e => .error e
  | .ok st => .ok (flushNumber st).tokens

/-- One reduction of `evaluateTokens` for the popped operator `op`: fail when
fewer than two operands are available, else pop `b` then `a`, apply the
operator and push the result. -/
def reduceTop (op : List Char) (numbers : List rt.F) : Except CalcError (List rt.F) :=
  match numbers with
  | b :: a :: rest =>
    match applyOperator rt op b a with
    | .error e => .error e
    | .ok result => .ok (result :: rest)
  | _ => .error .ErrInvalidExpression

/-- The reduction loop of the operator case: while the top of the operator stack
is not `(` and has precedence at least `p` (the precedence of the incoming
operator), reduce. -/
def reduceWhile (p : Nat) :
    List rt.F → List (List Char) → Except CalcError (List rt.F × List (List Char))
  | numbers, [] => .ok (numbers, [])
  | numbers, op :: operators =>
    if op ≠ ['('] ∧ precedence op ≥ p then
      match reduceTop rt op numbers with
      | .error e => .error e
      | .ok numbers1 => reduceWhile p numbers1 operators
    else .ok (numbers, op :: operators)

/-- The reduction loop of the right-parenthesis case: reduce while the top of the
operator stack is not `(`. -/
def reduceToParen :
    List rt.F → List (List Char) → Except CalcError (List rt.F × List (List Char))
  | numbers, [] => .ok (numbers, [])
  | numbers, op :: operators =>
    if op ≠ ['('] then
      match reduceTop rt op numbers with
      | .error e => .error e
      | .ok numbers1 => reduceToParen numbers1 operators
    else .ok (numbers, op :: operators)

/-- The final loop of `evaluateTokens`: process any remaining operators, failing
on a left-parenthesis marker. -/
def drainOperators : List rt.F → List (List Char) → Except CalcError (List rt.F)
  | numbers, [] => .ok numbers
  | numbers, op :: operators =>
    if op = ['('] then .error .ErrInvalidExpression
    else
      match reduceTop rt op numbers with
      | .error e => .error e
      | .ok numbers1 => drainOperators numbers1 operators

/-- The body of the token loop of `evaluateTokens` for one token. -/
def evalStep (numbers : List rt.F) (operators : List (List Char)) (t : token) :
    Except CalcError (List rt.F × List (List Char)) :=
  match t.tokenType with
  | .numberToken =>
    match rt.parseFloat t.value with
    | none => .error .ErrInvalidToken
    | some num => .ok (num :: numbers, operators)
  | .operatorToken =>
    match reduceWhile rt (precedence t.value) numbers operators with
    | .error e => .error e
    | .ok r => .ok (r.1, t.value :: r.2)
  | .leftParenToken => .ok (numbers, t.value :: operators)
  | .rightParenToken =>
    match reduceToParen rt numbers operators with
    | .error e => .error e
    | .ok r =>
      match r.2 with
      | [] => .error .ErrInvalidExpression
      | op :: operators1 =>
        if op ≠ ['('] then .error .ErrInvalidExpression else .ok (r.1, operators1)

/-- The token loop of `evaluateTokens`. -/
def evalLoop (numbers : List rt.F) (operators : List (List Char)) :
    List token → Except CalcError (List rt.F × List (List Char))
  | [] => .ok (numbers, operators)
  | t :: rest =>
    match evalStep rt numbers operators t with
    | .error e => .error e
    | .ok r => evalLoop r.1 r.2 rest

/-- Evaluate tokens using the Shunting Yard algorithm. -/
def evaluateTokens (tokens : List token) : Except CalcError rt.F :=
  match evalLoop rt [] [] tokens with
  | .error e => .error e
  | .ok r =>
    match drainOperators rt r.1 r.2 with
    | .error e => .error e
    | .ok numbers =>
      match numbers with
      | [result] => .ok result
      | _ => .error .ErrInvalidExpression

/-- The preprocessing `strings.ReplaceAll(expression, " ", "")`. -/
def removeSpaces (expression : List Char) : List Char :=
  expression.filter (fun c => c ≠ ' ')

/-- Evaluate parses and evaluates a mathematical expression string. -/
def Evaluate (expression : List Char) : Except CalcError rt.F :=
  let expression := removeSpaces expression
  if expression = [] then .error .ErrInvalidExpression
  else
    match tokenize rt expression with
    | .error e => .error e
    | .ok tokens => evaluateTokens rt tokens

/-! ### The reduction loops with an iteration budget

The three reduction loops of `evaluateTokens` are `for` loops with a condition
and no bound.  Here they run with a budget: `fuel` is the number of times the
loop condition may be tested, and `none` means that the budget ran out before
the loop returned or exited.  The token loop `for i := 0; i < len(tokens); i++`
is bounded by its own header. -/

/-- The reduction loop of the operator case, with a budget. -/
def reduceWhileFuel (p : Nat) :
    Nat → List rt.F → List (List Char) → Option (Except CalcError (List rt.F × List (List Char)))
  | 0, _, _ => none
  | _ + 1, numbers, [] => some (.ok (numbers, []))
  | fuel + 1, numbers, op :: operators =>
    if op ≠ ['('] ∧ precedence op ≥ p then
      match reduceTop rt op numbers with
      | .error e => some (.error e)
      | .ok numbers1 => reduceWhileFuel p fuel numbers1 operators
    else some (.ok (numbers, op :: operators))

/-- The reduction loop of the right-parenthesis case, with a budget. -/
def reduceToParenFuel :
    Nat → List rt.F → List (List Char) → Option (Except CalcError (List rt.F × List (List Char)))
  | 0, _, _ => none
  | _ + 1, numbers, [] => some (.ok (numbers, []))
  | fuel + 1, numbers, op :: operators =>
    if op ≠ ['('] then
      match reduceTop rt op numbers with
      | .error e => some (.error e)
      | .ok numbers1 => reduceToParenFuel fuel numbers1 operators
    else some (.ok (numbers, op :: operators))

/-- The final loop of `evaluateTokens`, with a budget. -/
def drainOperatorsFuel : Nat → List rt.F → List (List Char) → Option (Except CalcError (List rt.F))
  | 0, _, _ => none
  | _ + 1, numbers, [] => some (.ok numbers)
  | fuel + 1, numbers, op :: operators =>
    if op = ['('] then some (.error .ErrInvalidExpression)
    else
      match reduceTop rt op numbers with
      | .error e => some (.error e)
      | .ok numbers1 => drainOperatorsFuel fuel numbers1 operators

/-- The body of the token loop, each reduction loop run with the budget `fuel`. -/
def evalStepFuel (fuel : Nat) (numbers : List rt.F) (operators : List (List Char)) (t : token) :
    Option (Except CalcError (List rt.F × List (List Char))) :=
  match t.tokenType with
  | .numberToken =>
    match rt.parseFloat t.value with
    | none => some (.error .ErrInvalidToken)
    | some num => some (.ok (num :: numbers, operators))
  | .operatorToken =>
    match reduceWhileFuel rt (precedence t.value) fuel numbers operators with
    | none => none
    | some (.error e) => some (.error e)
    | some (.ok r) => some (.ok (r.1, t.value :: r.2))
  | .leftParenToken => some (.ok (numbers, t.value :: operators))
  | .rightParenToken =>
    match reduceToParenFuel rt fuel numbers operators with
    | none => none
    | some (.error e) => some (.error e)
    | some (.ok r) =>
      match r.2 with
      | [] => some (.error .ErrInvalidExpression)
      | op :: operators1 =>
        if op ≠ ['('] then some (.error .ErrInvalidExpression) else some (.ok (r.1, operators1))

/-- The token loop, each reduction loop run with the budget `fuel`. -/
def evalLoopFuel (fuel : Nat) (numbers : List rt.F) (operators : List (List Char)) :
    List token → Option (Except CalcError (List rt.F × List (List Char)))
  | [] => some (.ok (numbers, operators))
  | t :: rest =>
    match evalStepFuel rt fuel numbers operators t with
    | none => none
    | some (.error e) => some (.error e)
    | some (.ok r) => evalLoopFuel fuel r.1 r.2 rest

/-- The function `evaluateTokens`, each of its reduction loops run with the budget
`fuel`; `none` when one of them runs out of it. -/
def evaluateTokensFuel (fuel : Nat) (tokens : List token) : Option (Except CalcError rt.F) :=
  match evalLoopFuel rt fuel [] [] tokens with
  | none => none
  | some (.error e) => some (.error e)
  | some (.ok r) =>
    match drainOperatorsFuel rt fuel r.1 r.2 with
    | none => none
    | some (.error e) => some (.error e)
    | some (.ok numbers) =>
      match numbers with
      | [result] => some (.ok result)
      | _ => some (.error .ErrInvalidExpression)

/-! ### The code with its index reads made explicit

Go indexes its slices and its string at run time: `operators[len(operators)-1]`,
`numbers[len(numbers)-1]`, `numbers[0]`, `expression[i-1]`, and the re-slicings
`s[:len(s)-1]`.  Here every such read is a match that can fail, the guards of
the source are tests of their own, and `none` is the run-time fault of a read
out of range.  The read of the top in a loop condition and the read of `op` in
the body of the same iteration are one read, the stack being unchanged between
them.  The index `i` counts runes. -/

/-- The pops of two operands in a reduction: the guard `len(numbers) < 2`, then the
reads of `b` and of `a`. -/
def reduceTopChecked (op : List Char) (numbers : List rt.F) :
    Option (Except CalcError (List rt.F)) :=
  if numbers.length < 2 then some (.error .ErrInvalidExpression)
  else
    match numbers with
    | [] => none
    | b :: numbers1 =>
      match numbers1 with
      | [] => none
      | a :: numbers2 =>
        match applyOperator rt op b a with
        | .error e => some (.error e)
        | .ok result => some (.ok (result :: numbers2))

/-- The reduction loop of the operator case: the guard `len(operators) > 0`, then
the read of the top. -/
def reduceWhileChecked (p : Nat) :
    List rt.F → List (List Char) → Option (Except CalcError (List rt.F × List (List Char)))
  | numbers, operators =>
    if operators.length > 0 then
      match operators with
      | [] => none
      | op :: operators1 =>
        if op ≠ ['('] ∧ precedence op ≥ p then
          match reduceTopChecked rt op numbers with
          | none => none
          | some (.error e) => some (.error e)
          | some (.ok numbers1) => reduceWhileChecked p numbers1 operators1
        else some (.ok (numbers, op :: operators1))
    else some (.ok (numbers, operators))

/-- The reduction loop of the right-parenthesis case: the guard
`len(operators) > 0`, then the read of the top. -/
def reduceToParenChecked :
    List rt.F → List (List Char) → Option (Except CalcError (List rt.F × List (List Char)))
  | numbers, operators =>
    if operators.length > 0 then
      match operators with
      | [] => none
      | op :: operators1 =>
        if op ≠ ['('] then
          match reduceTopChecked rt op numbers with
          | none => none
          | some (.error e) => some (.error e)
          | some (.ok numbers1) => reduceToParenChecked numbers1 operators1
        else some (.ok (numbers, op :: operators1))
    else some (.ok (numbers, operators))

/-- The final loop: the guard `len(operators) > 0`, then the read of the top. -/
def drainOperatorsChecked :
    List rt.F → List (List Char) → Option (Except CalcError (List rt.F))
  | numbers, operators =>
    if operators.length > 0 then
      match operators with
      | [] => none
      | op :: operators1 =>
        if op = ['('] then some (.error .ErrInvalidExpression)
        else
          match reduceTopChecked rt op numbers with
          | none => none
          | some (.error e) => some (.error e)
          | some (.ok numbers1) => drainOperatorsChecked numbers1 operators1
    else some (.ok numbers)

/-- The body of the token loop; after the loop of the right-parenthesis case, the
guard `len(operators) == 0`, then the read of the top and the pop. -/
def evalStepChecked (numbers : List rt.F) (operators : List (List Char)) (t : token) :
    Option (Except CalcError (List rt.F × List (List Char))) :=
  match t.tokenType with
  | .numberToken =>
    match rt.parseFloat t.value with
    | none => some (.error .ErrInvalidToken)
    | some num => some (.ok (num :: numbers, operators))
  | .operatorToken =>
    match reduceWhileChecked rt (precedence t.value) numbers operators with
    | none => none
    | some (.error e) => some (.error e)
    | some (.ok r) => some (.ok (r.1, t.value :: r.2))
  | .leftParenToken => some (.ok (numbers, t.value :: operators))
  | .rightParenToken =>
    match reduceToParenChecked rt numbers operators with
    | none => none
    | some (.error e) => some (.error e)
    | some (.ok r) =>
      if r.2.length = 0 then some (.error .ErrInvalidExpression)
      else
        match r.2 with
        | [] => none
        | op :: operators1 =>
          if op ≠ ['('] then some (.error .ErrInvalidExpression)
          else some (.ok (r.1, operators1))

/-- The token loop over the checked body. -/
def evalLoopChecked (numbers : List rt.F) (operators : List (List Char)) :
    List token → Option (Except CalcError (List rt.F × List (List Char)))
  | [] => some (.ok (numbers, operators))
  | t :: rest =>
    match evalStepChecked rt numbers operators t with
    | none => none
    | some (.error e) => some (.error e)
    | some (.ok r) => evalLoopChecked r.1 r.2 rest

/-- The function `evaluateTokens` with its reads checked; at the end the guard
`len(numbers) != 1`, then the read of `numbers[0]`, the bottom of the stack. -/
def evaluateTokensChecked (tokens : List token) : Option (Except CalcError rt.F) :=
  match evalLoopChecked rt [] [] tokens with
  | none => none
  | some (.error e) => some (.error e)
  | some (.ok r) =>
    match drainOperatorsChecked rt r.1 r.2 with
    | none => none
    | some (.error e) => some (.error e)
    | some (.ok numbers) =>
      if numbers.length ≠ 1 then some (.error .ErrInvalidExpression)
      else
        match numbers.getLast? with
        | none => none
        | some result => some (.ok result)

/-- The test `char == '-' && (i == 0 || isOperator(rune(expression[i-1])) ||
expression[i-1] == '(')` with its short circuits: the look-back is read only
for a `-`, and only when `i == 0` is false. -/
def lookBackChecked (expression : List Char) (i : Nat) (char : Char) : Option Bool :=
  if char = '-' then
    if i = 0 then some true
    else
      match expression.get? (i - 1) with
      | none => none
      | some p => some (isOperator p || p == '(')
  else some false

/-- One iteration of the loop of `tokenize` at index `i`, with the look-back read
from the text. -/
def tokenizeStepChecked (expression : List Char) (i : Nat) (st : scanState) (char : Char) :
    Option (Except CalcError scanState) :=
  if unicodeIsDigit rt char then
    some (.ok { st with currentNumber := st.currentNumber ++ [char] })
  else if char = '.' then
    if st.hasDecimal then some (.error .ErrInvalidToken)
    else some (.ok { st with hasDecimal := true, currentNumber := st.currentNumber ++ [char] })
  else if isOperator char then
    let st1 := flushNumber st
    match lookBackChecked expression i char with
    | none => none
    | some true => some (.ok { st1 with currentNumber := st1.currentNumber ++ [char] })
    | some false => some (.ok { st1 with tokens := st1.tokens ++ [⟨.operatorToken, [char]⟩] })
  else if char = '(' then
    let st1 := flushNumber st
    some (.ok { st1 with tokens := st1.tokens ++ [⟨.leftParenToken, ['(']⟩] })
  else if char = ')' then
    let st1 := flushNumber st
    some (.ok { st1 with tokens := st1.tokens ++ [⟨.rightParenToken, [')']⟩] })
  else some (.error .ErrInvalidToken)

/-- The loop of `tokenize` from index `i` over the runes that remain. -/
def tokenizeLoopChecked (expression : List Char) (i : Nat) (st : scanState) :
    List Char → Option (Except CalcError scanState)
  | [] => some (.ok st)
  | char :: rest =>
    match tokenizeStepChecked rt expression i st char with
    | none => none
    | some (.error e) => some (.error e)
    | some (.ok st1) => tokenizeLoopChecked expression (i + 1) st1 rest

/-- The function `tokenize` with its look-back checked. -/
def tokenizeChecked (expression : List Char) : Option (Except CalcError (List token)) :=
  match tokenizeLoopChecked rt expression 0 ⟨[], [], false⟩ expression with
  | none => none
  | some (.error e) => some (.error e)
  | some (.ok st) => some (.ok (flushNumber st).tokens)

/-- The function `Evaluate` over the checked functions; `none` is a run-time fault. -/
def EvaluateChecked (expression : List Char) : Option (Except CalcError rt.F) :=
  let expression := removeSpaces expression
  if expression = [] then some (.error .ErrInvalidExpression)
  else
    match tokenizeChecked rt expression with
    | none => none
    | some (.error e) => some (.error e)
    | some (.ok tokens) => evaluateTokensChecked rt tokens

/-! ## Definitions used by the statements -/

/-- The value of `expression[i-1]` after the runes `s` have been scanned, when it
was `prev` before them. -/
def lastChar (prev : Option Char) : List Char → Option Char
  | [] => prev
  | c :: cs => lastChar (some c) cs

/-- The characters `tokenize` has a case for, plus the space that `Evaluate`
removes beforehand. -/
def accepted (c : Char) : Bool :=
  unicodeIsDigit rt c || c == '.' || isOperator c || c == '(' || c == ')' || c == ' '

/-- The alphabet as the specification words it: an ASCII digit, `.`, one of the
four operators, a parenthesis or the space. -/
def asciiAlphabet (c : Char) : Bool :=
  (decide ('0' ≤ c) && decide (c ≤ '9')) || c == '.' || c == '+' || c == '-' || c == '*'
    || c == '/' || c == '(' || c == ')' || c == ' '

/-- The runes that end a numeral run: the operators and the parentheses. -/
def isDelimiter (c : Char) : Bool :=
  isOperator c || c == '(' || c == ')'

/-- The flag `hasDecimal` is only ever set together with a write to the numeral
buffer: when it is set, the buffer is not empty. -/
def scanInv (st : scanState) : Prop :=
  st.hasDecimal = true → st.currentNumber ≠ []

/-- An infix expression as a tree: a numeral with an optional minus sign directly
on it, a parenthesised expression, or a binary operation. -/
inductive Expr
  | num (neg : Bool) (body : List Char)
  | paren (e : Expr)
  | bin (op : Char) (l r : Expr)
  deriving DecidableEq, Repr

/-- An ASCII digit `0` to `9`. -/
def asciiDigit (c : Char) : Bool :=
  decide (48 ≤ c.toNat ∧ c.toNat ≤ 57)

/-- An unsigned numeral: ASCII digits with at most one `.`, at least one digit. -/
def validBody (body : List Char) : Bool :=
  body.all (fun c => asciiDigit c || c == '.') && decide (body.count '.' ≤ 1)
    && body.any asciiDigit

/-- The result of a binary operation in the arithmetic of the runtime; `none` for
a division whose right operand compares equal to zero. -/
def binValue (op : Char) (a b : rt.F) : Option rt.F :=
  if op = '+' then some (rt.add a b)
  else if op = '-' then some (rt.sub a b)
  else if op = '*' then some (rt.mul a b)
  else if rt.isZero b then none else some (rt.div a b)

namespace Expr

/-- The text of an expression, without spaces. -/
def render : Expr → List Char
  | num neg body => (if neg then ['-'] else []) ++ body
  | paren e => '(' :: (render e ++ [')'])
  | bin op l r => render l ++ op :: render r

/-- How tightly the outermost construct binds: 1 for `+` and `-`, 2 for `*` and
`/`, 3 for a numeral or a parenthesised expression. -/
def rank : Expr → Nat
  | bin op _ _ => if op = '+' ∨ op = '-' then 1 else 2
  | _ => 3

/-- Well-formedness: numerals are valid, operators are among `+ - * /`, and the
tree is the one that precedence and left associativity give to the text: the
left operand of an operator binds at least as tightly as the operator, the right
operand strictly tighter. -/
def wellFormed : Expr → Bool
  | num _ body => validBody body
  | paren e => wellFormed e
  | bin op l r =>
    isOperator op && wellFormed l && wellFormed r
      && decide (rank (bin op l r) ≤ rank l) && decide (rank (bin op l r) < rank r)

/-- Every numeral of the expression, read with its sign, is a text that
`strconv.ParseFloat` accepts. -/
def numeralsParse : Expr → Bool
  | num neg body => (rt.parseFloat (render (num neg body))).isSome
  | paren e => numeralsParse e
  | bin _ l r => numeralsParse l && numeralsParse r

/-- The reference evaluation, by recursion on the tree in the arithmetic of the
runtime: a numeral has the value `strconv.ParseFloat` gives its text; `none`
when a numeral does not parse or a division has a right operand that compares
equal to zero. -/
def value : Expr → Option rt.F
  | num neg body => rt.parseFloat (render (num neg body))
  | paren e => value e
  | bin op l r =>
    match value l, value r with
    | some a, some b => binValue rt op a b
    | _, _ => none

/-- The outcome of the reference evaluation, from left to right: a numeral that
`strconv.ParseFloat` rejects gives `ErrInvalidToken`, a division whose right
operand compares equal to zero gives `ErrDivisionByZero`, and the first failure
met is the outcome. -/
def outcome : Expr → Except CalcError rt.F
  | num neg body =>
    match rt.parseFloat (render (num neg body)) with
    | some x => .ok x
    | none => .error .ErrInvalidToken
  | paren e => outcome e
  | bin op l r =>
    match outcome l with
    | .error err => .error err
    | .ok a =>
      match outcome r with
      | .error err => .error err
      | .ok b =>
        match binValue rt op a b with
        | some x => .ok x
        | none => .error .ErrDivisionByZero

/-- Some division in the expression has a right operand that evaluates to a number
that compares equal to zero. -/
def zeroDivision : Expr → Bool
  | num _ _ => false
  | paren e => zeroDivision e
  | bin op l r =>
    zeroDivision l || zeroDivision r
      || (op == '/' && match value rt r with
                       | some b => rt.isZero b
                       | none => false)

/-- The token sequence of an expression. -/
def toks : Expr → List token
  | num neg body => [⟨.numberToken, render (num neg body)⟩]
  | paren e => ⟨.leftParenToken, ['(']⟩ :: (toks e ++ [⟨.rightParenToken, [')']⟩])
  | bin op l r => toks l ++ ⟨.operatorToken, [op]⟩ :: toks r

end Expr

/-- The look-back of the unary-minus test succeeds: first position, or right after
an operator or `(`. -/
def unaryPosition (prev : Option Char) : Prop :=
  prev = none ∨ (∃ p, prev = some p ∧ isOperator p = true) ∨ prev = some '('

/-- The previous rune ends an operand: it is neither an operator nor `(`. -/
def operandEnd (prev : Option Char) : Prop :=
  ∃ c, prev = some c ∧ isOperator c = false ∧ c ≠ '('

/-- What the reductions still pending for an operand must give: its value on top
of the operand stack, or the error of its evaluation. -/
def pending (out : Except CalcError rt.F) (numbers : List rt.F)
    (operators : List (List Char)) : Except CalcError (List rt.F × List (List Char)) :=
  match out with
  | .ok x => .ok (x :: numbers, operators)
  | .error err => .error err

/-- The parenthesis tokens of a token sequence, in order: `true` for a left
parenthesis, `false` for a right one. -/
def tokenParens : List token → List Bool
  | [] => []
  | t :: ts =>
    match t.tokenType with
    | .leftParenToken => true :: tokenParens ts
    | .rightParenToken => false :: tokenParens ts
    | _ => tokenParens ts

/-- The nesting depth after a sequence of parentheses read at depth `depth`;
`none` when a closing parenthesis has no open one to match. -/
def depthAfter (depth : Nat) : List Bool → Option Nat
  | [] => some depth
  | true :: bs => depthAfter (depth + 1) bs
  | false :: bs => if depth = 0 then none else depthAfter (depth - 1) bs

/-- Balanced parentheses: no closing parenthesis without an open one, and none
left open at the end. -/
def balanced (bs : List Bool) : Bool :=
  depthAfter 0 bs == some 0

/-- What `tokenize` guarantees of each token it emits: a Number token is not
empty, an Operator token holds one of `+ - * /`, a parenthesis token holds its
parenthesis. -/
def tokenOK (t : token) : Prop :=
  match t.tokenType with
  | .numberToken => t.value ≠ []
  | .operatorToken => ∃ op, isOperator op = true ∧ t.value = [op]
  | .leftParenToken => t.value = ['(']
  | .rightParenToken => t.value = [')']

/-- An entry of the operator stack is one of `+ - * /` or the marker `(`. -/
def stackOK (operators : List (List Char)) : Prop :=
  ∀ o ∈ operators, o = ['('] ∨ ∃ op, isOperator op = true ∧ o = [op]

/-- The number of tokens of one type in a token sequence. -/
def countType (ty : tokenType) (tokens : List token) : Nat :=
  (tokens.filter (fun t => t.tokenType == ty)).length

/-- The concatenation of the value fields of a token sequence, in order. -/
def tokenText : List token → List Char
  | [] => []
  | t :: ts => t.value ++ tokenText ts

/-- The characters `tokenize` has a case for: decimal digits in the sense of
`unicode.IsDigit`, `.`, the operators and the parentheses. -/
def tokenizable (c : Char) : Bool :=
  unicodeIsDigit rt c || c == '.' || isOperator c || c == '(' || c == ')'

/-- The form of the numeral buffer `text` of `tokenize`, with `body` the part after
the optional sign: an optional leading `-`, then digits in the sense of
`unicode.IsDigit` and at most one `.`. -/
def numeralShape (text body : List Char) : Prop :=
  (text = body ∨ text = '-' :: body) ∧ (∀ c ∈ body, unicodeIsDigit rt c = true ∨ c = '.')
    ∧ body.count '.' ≤ 1

/-- The invariant of the scan behind the form of Number tokens: the numeral buffer
has the form of a numeral and holds no `.` while `hasDecimal` is down, and
every Number token emitted has the form of a numeral. -/
structure scanShape (st : scanState) : Prop where
  buffer : ∃ body, numeralShape rt st.currentNumber body
    ∧ (st.hasDecimal = false → body.count '.' = 0)
  emitted : ∀ t ∈ st.tokens, t.tokenType = .numberToken → ∃ body, numeralShape rt t.value body

/-- The tokens `op1 n1 ... opk nk` that follow the first operand of a flat
expression, given as the pairs of an operator character and a numeral text. -/
def chainTokens : List (Char × List Char) → List token
  | [] => []
  | p :: rest => ⟨.operatorToken, [p.1]⟩ :: ⟨.numberToken, p.2⟩ :: chainTokens rest

/-- The left fold `(((acc op1 n1) op2 n2) ... opk nk)` in the arithmetic of the runtime; `none`
when a numeral does not parse or a division by zero occurs. -/
def leftFold (acc : rt.F) : List (Char × List Char) → Option rt.F
  | [] => some acc
  | p :: rest =>
    match rt.parseFloat p.2 with
    | none => none
    | some b =>
      match binValue rt p.1 acc b with
      | none => none
      | some r => leftFold r rest

/-- The rest of `evaluateTokens` from given stacks: the token loop, the final
loop and the check that one operand remains. -/
def evaluateFrom (numbers : List rt.F) (operators : List (List Char)) (tokens : List token) :
    Except CalcError rt.F :=
  match evalLoop rt numbers operators tokens with
  | .error e => .error e
  | .ok r =>
    match drainOperators rt r.1 r.2 with
    | .error e => .error e
    | .ok numbers1 =>
      match numbers1 with
      | [result] => .ok result
      | _ => .error .ErrInvalidExpression

/-- The parentheses of a token sequence match: no prefix holds more right than left
parenthesis tokens, the whole sequence holds equally many, and whenever the
token loop has processed a prefix, the number of `(` markers on the operator
stack is the number of left minus the number of right parenthesis tokens of
that prefix. -/
def parensMatched (tokens : List token) : Prop :=
  (∀ pre post, tokens = pre ++ post →
      countType .rightParenToken pre ≤ countType .leftParenToken pre)
    ∧ countType .leftParenToken tokens = countType .rightParenToken tokens
    ∧ (∀ pre post r, tokens = pre ++ post → evalLoop rt [] [] pre = .ok r →
        r.2.count ['('] + countType .rightParenToken pre = countType .leftParenToken pre)

/-! ## The runtime of the closed examples

The instance `go` of `Runtime`: the digit table of Unicode 15.0.0, which Go 1.21
ships, and binary64 arithmetic with round to nearest, ties to even.
It is used by the closed examples only; the theorems with a variable `rt` do
not depend on it. -/

/-- Ranges of the Unicode 15.0.0 decimal-digit category (Nd) above Latin-1, the
table `unicode.Digit` of Go 1.21. -/
def digitRanges : List (Nat × Nat) :=
  [(1632, 1641), (1776, 1785), (1984, 1993), (2406, 2415), (2534, 2543), (2662, 2671),
   (2790, 2799), (2918, 2927), (3046, 3055), (3174, 3183), (3302, 3311), (3430, 3439),
   (3558, 3567), (3664, 3673), (3792, 3801), (3872, 3881), (4160, 4169), (4240, 4249),
   (6112, 6121), (6160, 6169), (6470, 6479), (6608, 6617), (6784, 6793), (6800, 6809),
   (6992, 7001), (7088, 7097), (7232, 7241), (7248, 7257), (42528, 42537), (43216, 43225),
   (43264, 43273), (43472, 43481), (43504, 43513), (43600, 43609), (44016, 44025),
   (65296, 65305), (66720, 66729), (68912, 68921), (69734, 69743), (69872, 69881),
   (69942, 69951), (70096, 70105), (70384, 70393), (70736, 70745), (70864, 70873),
   (71248, 71257), (71360, 71369), (71472, 71481), (71904, 71913), (72016, 72025),
   (72784, 72793), (73040, 73049), (73120, 73129), (73552, 73561), (92768, 92777), (92864, 92873),
   (93008, 93017), (120782, 120831), (123200, 123209), (123632, 123641), (124144, 124153), (125264, 125273),
   (130032, 130041)]

/-- The decimal-digit table of Unicode 15.0.0 as a predicate. -/
def digitTable15 (char : Char) : Bool :=
  digitRanges.any (fun r => decide (r.1 ≤ char.toNat ∧ char.toNat ≤ r.2))

/-- The values of binary64: the finite numbers (with `finite 0` the positive
zero), the negative zero, the two infinities and NaN.  A finite value is kept
as the rational it denotes. -/
inductive Float64
  | finite (q : ℚ)
  | negZero
  | inf (negative : Bool)
  | nan
  deriving DecidableEq

/-- The number of halvings that bring `n` below 2, at most `fuel` of them. -/
def halvings : Nat → Nat → Nat
  | 0, _ => 0
  | fuel + 1, n => if n < 2 then 0 else halvings fuel (n / 2) + 1

/-- The integer `e` with `2 ^ e ≤ n / d < 2 ^ (e + 1)`, for positive `n` and `d`;
`halvings n n` is the position of the leading bit of `n`. -/
def floorLog2 (n d : Nat) : Int :=
  let e0 : Int := (halvings n n : Int) - (halvings d d : Int)
  let below : Bool :=
    if 0 ≤ e0 then decide (2 ^ e0.toNat * d ≤ n) else decide (d ≤ n * 2 ^ (-e0).toNat)
  if below then e0 else e0 - 1

/-- The quotient `n / d` rounded to the nearest integer, ties to even. -/
def roundHalfEven (n d : Nat) : Nat :=
  let m := n / d
  let r := n % d
  if 2 * r < d then m else if d < 2 * r then m + 1 else m + m % 2

/-- Rounding of a nonzero rational to binary64, round to nearest, ties to even:
the spacing of the results is `2 ^ (e - 52)` with `e` the binary exponent of
the number, and never finer than `2 ^ (-1074)`, the spacing of the subnormal
numbers; a result of `2 ^ 1024` or more is an infinity, a result of zero keeps
the sign of the number. -/
def roundFloat64 (q : ℚ) : Float64 :=
  let negative := decide (q < 0)
  let n := q.num.natAbs
  let d := q.den
  let e := max (floorLog2 n d) (-1022) - 52
  let m := if 0 ≤ e then roundHalfEven n (d * 2 ^ e.toNat)
    else roundHalfEven (n * 2 ^ (-e).toNat) d
  if m = 0 then (if negative then .negZero else .finite 0)
  else if 0 ≤ e ∧ 2 ^ 1024 ≤ m * 2 ^ e.toNat then .inf negative
  else
    let a : ℚ := if 0 ≤ e then ((m * 2 ^ e.toNat : Nat) : ℚ) else (m : ℚ) / ((2 ^ (-e).toNat : Nat) : ℚ)
    .finite (if negative then -a else a)

namespace Float64

/-- The sign bit. -/
def signBit : Float64 → Bool
  | finite q => decide (q < 0)
  | negZero => true
  | inf negative => negative
  | nan => false

/-- A zero of either sign: what the Go comparison `x == 0` tests. -/
def isZero : Float64 → Bool
  | finite q => decide (q = 0)
  | negZero => true
  | _ => false

/-- The zero with the given sign bit. -/
def zero (negative : Bool) : Float64 :=
  if negative then negZero else finite 0

/-- Negation: the sign bit flipped. -/
def neg : Float64 → Float64
  | finite q => if q = 0 then negZero else finite (-q)
  | negZero => finite 0
  | inf negative => inf (!negative)
  | nan => nan

/-- Addition of binary64: the exact sum rounded; an exact sum of zero from
operands that are not both negative zeros is the positive zero; infinities of
opposite sign give NaN. -/
def add : Float64 → Float64 → Float64
  | nan, _ => nan
  | _, nan => nan
  | inf s, inf t => if s = t then inf s else nan
  | inf s, _ => inf s
  | _, inf t => inf t
  | negZero, negZero => negZero
  | negZero, finite b => finite b
  | finite a, negZero => finite a
  | finite a, finite b => if a + b = 0 then finite 0 else roundFloat64 (a + b)

/-- Subtraction of binary64: addition of the negated right operand. -/
def sub (x y : Float64) : Float64 :=
  add x (neg y)

/-- Multiplication of binary64: the exact product rounded; the sign of a zero or
an infinity is the exclusive or of the signs; zero times infinity is NaN. -/
def mul : Float64 → Float64 → Float64
  | nan, _ => nan
  | _, nan => nan
  | inf s, y => if isZero y then nan else inf (xor s (signBit y))
  | x, inf t => if isZero x then nan else inf (xor (signBit x) t)
  | finite a, finite b =>
    if a = 0 ∨ b = 0 then zero (xor (signBit (finite a)) (signBit (finite b)))
    else roundFloat64 (a * b)
  | x, y => zero (xor (signBit x) (signBit y))

/-- Division of binary64: the exact quotient rounded; a nonzero number divided by
zero is an infinity, zero by zero and infinity by infinity are NaN. -/
def div : Float64 → Float64 → Float64
  | nan, _ => nan
  | _, nan => nan
  | inf _, inf _ => nan
  | inf s, y => inf (xor s (signBit y))
  | x, inf t => zero (xor (signBit x) t)
  | finite a, finite b =>
    if b = 0 then (if a = 0 then nan else inf (xor (signBit (finite a)) false))
    else if a = 0 then zero (xor false (signBit (finite b)))
    else roundFloat64 (a / b)
  | finite a, negZero => if a = 0 then nan else inf (xor (signBit (finite a)) true)
  | negZero, finite b => if b = 0 then nan else zero (xor true (signBit (finite b)))
  | negZero, negZero => nan

end Float64

/-- The mantissa scan of `strconv.ParseFloat` on a decimal numeral: digits with
at most one `.`; returns the digits read as a natural number and how many of
them follow the point, or `none` when another character occurs, a second point
occurs, or no digit was seen. -/
def readDecimal (mantissa : Nat) (sawDot sawDigits : Bool) (fracDigits : Nat) :
    List Char → Option (Nat × Nat)
  | [] => if sawDigits then some (mantissa, fracDigits) else none
  | c :: cs =>
    if c = '.' then
      if sawDot then none else readDecimal mantissa true sawDigits fracDigits cs
    else if 48 ≤ c.toNat ∧ c.toNat ≤ 57 then
      readDecimal (10 * mantissa + (c.toNat - 48)) sawDot true
        (if sawDot then fracDigits + 1 else fracDigits) cs
    else none

/-- The library function `strconv.ParseFloat(s, 64)` on the texts made of an
optional sign, ASCII digits and at most one `.`, the only texts the closed
examples parse: the decimal value rounded to binary64, and `none` where the
library returns an error, which is when the text is not a numeral and when the
rounded value is an infinity (the range error).  Exponents, hexadecimal
numerals and the spellings of infinity and NaN are not modelled and read as
failures. -/
def parseFloat64 (s : List Char) : Option Float64 :=
  let negative := decide (s.head? = some '-')
  let body := if s.head? = some '-' ∨ s.head? = some '+' then s.drop 1 else s
  match readDecimal 0 false false 0 body with
  | none => none
  | some r =>
    if r.1 = 0 then some (Float64.zero negative)
    else
      let a : ℚ := (r.1 : ℚ) / ((10 ^ r.2 : Nat) : ℚ)
      match roundFloat64 (if negative then -a else a) with
      | .inf _ => none
      | x => some x

/-- The Go runtime of the closed examples. -/
@[reducible] def go : Runtime where
  digitTable := digitTable15
  F := Float64
  add := Float64.add
  sub := Float64.sub
  mul := Float64.mul
  div := Float64.div
  isZero := Float64.isZero
  parseFloat := parseFloat64
  parseFloat_minus := by decide


variable {rt : Runtime}

/-! ## The tokenizer: general facts -/

theorem unicodeIsDigit_latin1 (c : Char) (h : c.toNat ≤ 255) :
    unicodeIsDigit rt c = decide (48 ≤ c.toNat ∧ c.toNat ≤ 57) := by
  unfold unicodeIsDigit
  rw [if_pos h]

theorem tokenizeStep_error {prev : Option Char} {st : scanState} {c : Char} {e : CalcError}
    (h : tokenizeStep rt prev st c = .error e) : e = .ErrInvalidToken := by
  unfold tokenizeStep at h
  split_ifs at h <;> cases h <;> rfl

theorem tokenizeLoop_error {s : List Char} : ∀ {prev : Option Char} {st : scanState}
    {e : CalcError}, tokenizeLoop rt prev st s = .error e → e = .ErrInvalidToken := by
  induction s with
  | nil => intro prev st e h; cases h
  | cons c cs ih =>
    intro prev st e h
    unfold tokenizeLoop at h
    cases hs : tokenizeStep rt prev st c with
    | error e1 =>
      rw [hs] at h
      injection h with h
      subst h
      exact tokenizeStep_error hs
    | ok st1 =>
      rw [hs] at h
      exact ih h

theorem tokenize_error {s : List Char} {e : CalcError} (h : tokenize rt s = .error e) :
    e = .ErrInvalidToken := by
  unfold tokenize at h
  cases hs : tokenizeLoop rt none ⟨[], [], false⟩ s with
  | error e1 =>
    rw [hs] at h
    injection h with h
    subst h
    exact tokenizeLoop_error hs
  | ok st1 => rw [hs] at h; cases h

theorem tokenizeLoop_append (p q : List Char) : ∀ (prev : Option Char) (st : scanState),
    tokenizeLoop rt prev st (p ++ q) =
      match tokenizeLoop rt prev st p with
      | .error e => .error e
      | .ok st1 => tokenizeLoop rt (lastChar prev p) st1 q := by
  induction p with
  | nil => intro prev st; simp [tokenizeLoop, lastChar]
  | cons c cs ih =>
    intro prev st
    simp only [List.cons_append, tokenizeLoop, lastChar]
    cases hs : tokenizeStep rt prev st c with
    | error e1 => simp
    | ok st1 => simp [ih]

theorem flushNumber_tokens (st : scanState) :
    ∃ l, (flushNumber st).tokens = st.tokens ++ l := by
  unfold flushNumber
  split_ifs
  · exact ⟨_, rfl⟩
  · exact ⟨[], by simp⟩

theorem tokenizeStep_tokens {prev : Option Char} {st st1 : scanState} {c : Char}
    (h : tokenizeStep rt prev st c = .ok st1) : ∃ l, st1.tokens = st.tokens ++ l := by
  obtain ⟨l, hl⟩ := flushNumber_tokens st
  unfold tokenizeStep at h
  split_ifs at h <;> cases h
  · exact ⟨[], by simp⟩
  · exact ⟨[], by simp⟩
  · exact ⟨l, hl⟩
  · exact ⟨l ++ [⟨.operatorToken, [c]⟩], by simp [hl]⟩
  · exact ⟨l ++ [⟨.leftParenToken, ['(']⟩], by simp [hl]⟩
  · exact ⟨l ++ [⟨.rightParenToken, [')']⟩], by simp [hl]⟩

theorem tokenizeLoop_tokens {s : List Char} : ∀ {prev : Option Char} {st st1 : scanState},
    tokenizeLoop rt prev st s = .ok st1 → ∃ l, st1.tokens = st.tokens ++ l := by
  induction s with
  | nil => intro prev st st1 h; cases h; exact ⟨[], by simp⟩
  | cons c cs ih =>
    intro prev st st1 h
    unfold tokenizeLoop at h
    cases hs : tokenizeStep rt prev st c with
    | error e1 => rw [hs] at h; cases h
    | ok st2 =>
      rw [hs] at h
      obtain ⟨l1, hl1⟩ := tokenizeStep_tokens hs
      obtain ⟨l2, hl2⟩ := ih h
      exact ⟨l1 ++ l2, by rw [hl2, hl1, List.append_assoc]⟩

/-- A rune that `tokenize` has no case for stops the scan, whatever came before. -/
theorem tokenizeLoop_unaccepted {s : List Char} (h : ∃ c ∈ s, accepted rt c = false) :
    ∀ (prev : Option Char) (st : scanState), ∃ e, tokenizeLoop rt prev st s = .error e := by
  induction s with
  | nil => obtain ⟨c, hc, _⟩ := h; cases hc
  | cons a cs ih =>
    intro prev st
    unfold tokenizeLoop
    cases hs : tokenizeStep rt prev st a with
    | error e1 => exact ⟨e1, rfl⟩
    | ok st1 =>
      obtain ⟨c, hc, hacc⟩ := h
      rcases List.mem_cons.mp hc with rfl | hmem
      · exfalso
        simp only [accepted, Bool.or_eq_false_iff, beq_eq_false_iff_ne, ne_eq] at hacc
        obtain ⟨⟨⟨⟨⟨h1, h2⟩, h3⟩, h4⟩, h5⟩, _⟩ := hacc
        unfold tokenizeStep at hs
        simp [h1, h2, h3, h4, h5] at hs
      · exact ih ⟨c, hmem, hacc⟩ (some a) st1

theorem removeSpaces_append (a b : List Char) :
    removeSpaces (a ++ b) = removeSpaces a ++ removeSpaces b := by
  simp [removeSpaces]

theorem removeSpaces_cons_of_ne {c : Char} (h : c ≠ ' ') (s : List Char) :
    removeSpaces (c :: s) = c :: removeSpaces s := by
  simp [removeSpaces, h]

theorem mem_removeSpaces {c : Char} {s : List Char} :
    c ∈ removeSpaces s ↔ c ∈ s ∧ c ≠ ' ' := by
  simp [removeSpaces]

/-- When the scan of the space-free text stops, `Evaluate` reports `ErrInvalidToken`. -/
theorem Evaluate_of_scan_error {s : List Char} (hne : removeSpaces s ≠ [])
    (h : ∃ e, tokenizeLoop rt none ⟨[], [], false⟩ (removeSpaces s) = .error e) :
    Evaluate rt s = .error .ErrInvalidToken := by
  obtain ⟨e, he⟩ := h
  have he2 := tokenizeLoop_error he
  subst he2
  simp [Evaluate, hne, tokenize, he]

/-! ### Decimal points -/

theorem tokenizeStep_keeps_decimal {prev : Option Char} {st st1 : scanState} {c : Char}
    (hd : st.hasDecimal = true) (hc : isDelimiter c = false)
    (h : tokenizeStep rt prev st c = .ok st1) : st1.hasDecimal = true := by
  simp only [isDelimiter, Bool.or_eq_false_iff, beq_eq_false_iff_ne, ne_eq] at hc
  obtain ⟨⟨h1, h2⟩, h3⟩ := hc
  unfold tokenizeStep at h
  simp only [h1, h2, h3, hd] at h
  split_ifs at h <;> cases h <;> first | rfl | exact hd | contradiction

theorem tokenizeLoop_second_point (m q : List Char) : ∀ (prev : Option Char) (st : scanState),
    st.hasDecimal = true → (∀ c ∈ m, isDelimiter c = false) →
    ∃ e, tokenizeLoop rt prev st (m ++ '.' :: q) = .error e := by
  induction m with
  | nil =>
    intro prev st hd _
    refine ⟨.ErrInvalidToken, ?_⟩
    have h0 : unicodeIsDigit rt '.' = false := by rw [unicodeIsDigit_latin1 '.' (by decide)]; decide
    simp [tokenizeLoop, tokenizeStep, hd, h0]
  | cons a m ih =>
    intro prev st hd hm
    simp only [List.cons_append, tokenizeLoop]
    cases hs : tokenizeStep rt prev st a with
    | error e1 => exact ⟨e1, rfl⟩
    | ok st1 =>
      have hd1 := tokenizeStep_keeps_decimal hd (hm a (List.mem_cons_self _ _)) hs
      exact ih (some a) st1 hd1 (fun c hc => hm c (List.mem_cons_of_mem _ hc))

theorem tokenizeLoop_two_points (m q : List Char) (hm : ∀ c ∈ m, isDelimiter c = false)
    (prev : Option Char) (st : scanState) :
    ∃ e, tokenizeLoop rt prev st ('.' :: (m ++ '.' :: q)) = .error e := by
  unfold tokenizeLoop
  cases hs : tokenizeStep rt prev st '.' with
  | error e1 => exact ⟨e1, rfl⟩
  | ok st1 =>
    have hd1 : st1.hasDecimal = true := by
      have h0 : unicodeIsDigit rt '.' = false := by rw [unicodeIsDigit_latin1 '.' (by decide)]; decide
      unfold tokenizeStep at hs
      simp only [h0] at hs
      split_ifs at hs <;> cases hs <;> first | rfl | contradiction
    exact tokenizeLoop_second_point m q _ st1 hd1 hm

theorem tokenizeLoop_error_append {p : List Char} (q : List Char) {prev : Option Char}
    {st : scanState} (h : ∀ (prev1 : Option Char) (st1 : scanState),
      ∃ e, tokenizeLoop rt prev1 st1 q = .error e) :
    ∃ e, tokenizeLoop rt prev st (p ++ q) = .error e := by
  rw [tokenizeLoop_append]
  cases hs : tokenizeLoop rt prev st p with
  | error e1 => exact ⟨e1, rfl⟩
  | ok st1 => exact h _ st1

theorem flushNumber_currentNumber (st : scanState) : (flushNumber st).currentNumber = [] := by
  unfold flushNumber
  split_ifs with h
  · rfl
  · simpa using h

theorem flushNumber_hasDecimal {st : scanState} (h : scanInv st) :
    (flushNumber st).hasDecimal = false := by
  unfold flushNumber
  split_ifs with h1
  · rfl
  · have h2 : st.currentNumber = [] := by simpa using h1
    cases hd : st.hasDecimal with
    | false => rfl
    | true => exact absurd h2 (h hd)

theorem tokenizeStep_inv {prev : Option Char} {st st1 : scanState} {c : Char}
    (hinv : scanInv st) (h : tokenizeStep rt prev st c = .ok st1) : scanInv st1 := by
  have hf := flushNumber_hasDecimal hinv
  unfold tokenizeStep at h
  split_ifs at h <;> cases h <;> intro hd <;> simp_all [scanInv]

theorem tokenizeLoop_inv {s : List Char} : ∀ {prev : Option Char} {st st1 : scanState},
    scanInv st → tokenizeLoop rt prev st s = .ok st1 → scanInv st1 := by
  induction s with
  | nil => intro prev st st1 hinv h; cases h; exact hinv
  | cons c cs ih =>
    intro prev st st1 hinv h
    unfold tokenizeLoop at h
    cases hs : tokenizeStep rt prev st c with
    | error e1 => rw [hs] at h; cases h
    | ok st2 =>
      rw [hs] at h
      exact ih (tokenizeStep_inv hinv hs) h

/-- After an operator or a parenthesis the decimal flag is down. -/
theorem tokenizeStep_delimiter_resets {prev : Option Char} {st st1 : scanState} {c : Char}
    (hinv : scanInv st) (hc : isDelimiter c = true) (h : tokenizeStep rt prev st c = .ok st1) :
    st1.hasDecimal = false := by
  have hf := flushNumber_hasDecimal hinv
  unfold tokenizeStep at h
  split_ifs at h with h1 h2 h3 h4 h5 h6 <;> cases h
  · exfalso
    revert hc h1
    unfold isDelimiter isOperator unicodeIsDigit
    intro hc h1
    split_ifs at h1 with h7
    · have h8 : 48 ≤ c.toNat ∧ c.toNat ≤ 57 := by simpa using h1
      have : c.toNat ≠ 43 ∧ c.toNat ≠ 45 ∧ c.toNat ≠ 42 ∧ c.toNat ≠ 47 ∧ c.toNat ≠ 40
          ∧ c.toNat ≠ 41 := by omega
      obtain ⟨g1, g2, g3, g4, g5, g6⟩ := this
      simp only [Bool.or_eq_true, beq_iff_eq] at hc
      rcases hc with ((((hc | hc) | hc) | hc) | hc) | hc <;> subst hc <;> simp at g1 g2 g3 g4 g5 g6
    · have h9 : 255 < c.toNat := by omega
      simp only [Bool.or_eq_true, beq_iff_eq] at hc
      rcases hc with ((((hc | hc) | hc) | hc) | hc) | hc <;> subst hc <;> simp at h9
  · exfalso
    revert hc
    simp [isDelimiter, isOperator, h2]
  · exact hf
  · exact hf
  · exact hf
  · exact hf

/-! ### A sign that no numeral follows -/

theorem parseFloat_lone_minus : rt.parseFloat ['-'] = none :=
  rt.parseFloat_minus

theorem evalLoop_lone_minus (numbers : List rt.F) (operators : List (List Char))
    (rest : List token) :
    evalLoop rt numbers operators (⟨.numberToken, ['-']⟩ :: rest) = .error .ErrInvalidToken := by
  simp [evalLoop, evalStep, parseFloat_lone_minus]

theorem tokenizeLoop_minus_paren (tokens : List token) (prev : Option Char)
    (hprev : prev = none ∨ (∃ p, prev = some p ∧ isOperator p = true) ∨ prev = some '(')
    (rest : List Char) :
    tokenizeLoop rt prev ⟨tokens, [], false⟩ ('-' :: '(' :: rest) =
      tokenizeLoop rt (some '(')
        ⟨tokens ++ [⟨.numberToken, ['-']⟩, ⟨.leftParenToken, ['(']⟩], [], false⟩ rest := by
  have h1 : unicodeIsDigit rt '-' = false := by rw [unicodeIsDigit_latin1 '-' (by decide)]; decide
  have h2 : unicodeIsDigit rt '(' = false := by rw [unicodeIsDigit_latin1 '(' (by decide)]; decide
  have h3 : isOperator '-' = true := by decide
  have h4 : isOperator '(' = false := by decide
  simp [tokenizeLoop, tokenizeStep, flushNumber, h1, h2, h3, h4, hprev]

/-! ### Numerals -/

theorem asciiDigit_iff {c : Char} : asciiDigit c = true ↔ 48 ≤ c.toNat ∧ c.toNat ≤ 57 := by
  simp [asciiDigit]

theorem asciiDigit_ne_point {c : Char} (h : asciiDigit c = true) : c ≠ '.' := by
  intro hc
  subst hc
  revert h
  decide

theorem validBody_iff {body : List Char} : validBody body = true ↔
    (∀ c ∈ body, asciiDigit c = true ∨ c = '.') ∧ body.count '.' ≤ 1
      ∧ body.any asciiDigit = true := by
  simp [validBody, and_assoc]

/-! ### The scan of a well-formed expression -/

theorem lastChar_append (p q : List Char) : ∀ prev : Option Char,
    lastChar prev (p ++ q) = lastChar (lastChar prev p) q := by
  induction p with
  | nil => intro prev; rfl
  | cons c cs ih => intro prev; simp [lastChar, ih]

theorem lastChar_mem {s : List Char} (hne : s ≠ []) : ∀ prev : Option Char,
    ∃ c ∈ s, lastChar prev s = some c := by
  induction s with
  | nil => exact absurd rfl hne
  | cons a cs ih =>
    intro prev
    cases cs with
    | nil => exact ⟨a, List.mem_cons_self _ _, rfl⟩
    | cons b bs =>
      obtain ⟨c, hc, hl⟩ := ih (by simp) (some a)
      exact ⟨c, List.mem_cons_of_mem _ hc, hl⟩

theorem unicodeIsDigit_of_ascii (rt : Runtime) {c : Char} (h : asciiDigit c = true) :
    unicodeIsDigit rt c = true := by
  have hr := asciiDigit_iff.mp h
  have h1 : c.toNat ≤ 255 := by omega
  simp [unicodeIsDigit, h1, hr]

theorem isOperator_iff {c : Char} :
    isOperator c = true ↔ c = '+' ∨ c = '-' ∨ c = '*' ∨ c = '/' := by
  simp [isOperator, or_assoc]

theorem isOperator_chars {c : Char} (h : isOperator c = true) :
    asciiDigit c = false ∧ c ≠ '.' ∧ c ≠ '(' ∧ c ≠ ')' ∧ c ≠ ' ' := by
  rcases isOperator_iff.mp h with rfl | rfl | rfl | rfl <;> decide

theorem isOperator_facts (rt : Runtime) {c : Char} (h : isOperator c = true) :
    unicodeIsDigit rt c = false ∧ asciiDigit c = false ∧ c ≠ '.' ∧ c ≠ '(' ∧ c ≠ ')'
      ∧ c ≠ ' ' := by
  rcases isOperator_iff.mp h with rfl | rfl | rfl | rfl <;>
    exact ⟨by rw [unicodeIsDigit_latin1 _ (by decide)]; decide, by decide⟩

theorem operandEnd_not_unary {prev : Option Char} (h : operandEnd prev) :
    ¬ unaryPosition prev := by
  obtain ⟨c, hc, hop, hpar⟩ := h
  subst hc
  intro hu
  rcases hu with hu | ⟨p, hp, hpo⟩ | hu
  · cases hu
  · cases hp
    rw [hop] at hpo
    cases hpo
  · cases hu
    exact hpar rfl

/-- A binary operator: it comes right after an operand and becomes an Operator
token, the pending numeral being flushed first. -/
theorem tokenizeStep_binary {prev : Option Char} (st : scanState) {op : Char}
    (hop : isOperator op = true) (hprev : operandEnd prev) :
    tokenizeStep rt prev st op = .ok { flushNumber st with
      tokens := (flushNumber st).tokens ++ [⟨.operatorToken, [op]⟩] } := by
  obtain ⟨h1, _, h2, _, _, _⟩ := isOperator_facts rt hop
  have h3 : ¬ (op = '-' ∧ (prev = none ∨ (∃ p, prev = some p ∧ isOperator p = true)
      ∨ prev = some '(')) := fun h => operandEnd_not_unary hprev h.2
  simp only [tokenizeStep, h1, h2, hop, if_true, if_false, Bool.false_eq_true]
  rw [if_neg h3]

theorem tokenizeStep_lparen (prev : Option Char) (st : scanState) :
    tokenizeStep rt prev st '(' = .ok { flushNumber st with
      tokens := (flushNumber st).tokens ++ [⟨.leftParenToken, ['(']⟩] } := by
  have h1 : unicodeIsDigit rt '(' = false := by rw [unicodeIsDigit_latin1 '(' (by decide)]; decide
  have h2 : isOperator '(' = false := by decide
  simp [tokenizeStep, h1, h2]

theorem tokenizeStep_rparen (prev : Option Char) (st : scanState) :
    tokenizeStep rt prev st ')' = .ok { flushNumber st with
      tokens := (flushNumber st).tokens ++ [⟨.rightParenToken, [')']⟩] } := by
  have h1 : unicodeIsDigit rt ')' = false := by rw [unicodeIsDigit_latin1 ')' (by decide)]; decide
  have h2 : isOperator ')' = false := by decide
  simp [tokenizeStep, h1, h2]

theorem tokenizeStep_sign {prev : Option Char} (tokens : List token)
    (hprev : unaryPosition prev) :
    tokenizeStep rt prev ⟨tokens, [], false⟩ '-' = .ok ⟨tokens, ['-'], false⟩ := by
  have h1 : unicodeIsDigit rt '-' = false := by rw [unicodeIsDigit_latin1 '-' (by decide)]; decide
  have h2 : isOperator '-' = true := by decide
  have h3 : (prev = none ∨ (∃ p, prev = some p ∧ isOperator p = true)
      ∨ prev = some '(') := hprev
  simp [tokenizeStep, flushNumber, h1, h2, h3]

/-- The scan of the digits and the point of a numeral only extends the buffer. -/
theorem tokenizeLoop_body (body : List Char) : ∀ (prev : Option Char) (tokens : List token)
    (cur : List Char) (hd : Bool),
    (∀ c ∈ body, asciiDigit c = true ∨ c = '.') →
    (hd = true → body.count '.' = 0) → body.count '.' ≤ 1 →
    ∃ hd1, tokenizeLoop rt prev ⟨tokens, cur, hd⟩ body = .ok ⟨tokens, cur ++ body, hd1⟩ := by
  induction body with
  | nil => intro prev tokens cur hd _ _ _; exact ⟨hd, by simp [tokenizeLoop]⟩
  | cons c body ih =>
    intro prev tokens cur hd h hhd hcount
    by_cases hc : c = '.'
    · subst hc
      have hcnt : body.count '.' = 0 := by
        simp only [List.count_cons_self] at hcount
        omega
      have hdf : hd = false := by
        cases hd with
        | false => rfl
        | true =>
          have := hhd rfl
          simp at this
      subst hdf
      have h0 : unicodeIsDigit rt '.' = false := by rw [unicodeIsDigit_latin1 '.' (by decide)]; decide
      obtain ⟨hd1, ih2⟩ := ih (some '.') tokens (cur ++ ['.']) true
        (fun x hx => h x (List.mem_cons_of_mem _ hx)) (fun _ => hcnt) (by omega)
      refine ⟨hd1, ?_⟩
      simp [tokenizeLoop, tokenizeStep, h0, ih2]
    · have hdg : asciiDigit c = true := by
        rcases h c (List.mem_cons_self _ _) with hd2 | hd2
        · exact hd2
        · exact absurd hd2 hc
      have hu := unicodeIsDigit_of_ascii rt hdg
      have hcount2 : body.count '.' = (c :: body).count '.' := by
        rw [List.count_cons_of_ne (fun h => hc h.symm)]
      obtain ⟨hd1, ih2⟩ := ih (some c) tokens (cur ++ [c]) hd
        (fun x hx => h x (List.mem_cons_of_mem _ hx))
        (fun hh => by rw [hcount2]; exact hhd hh) (by omega)
      refine ⟨hd1, ?_⟩
      simp [tokenizeLoop, tokenizeStep, hu, ih2]

theorem flushNumber_empty (tokens : List token) (hd : Bool) :
    flushNumber ⟨tokens, [], hd⟩ = ⟨tokens, [], hd⟩ := by
  simp [flushNumber]

theorem flushNumber_cons (tokens : List token) (c : Char) (cs : List Char) (hd : Bool) :
    flushNumber ⟨tokens, c :: cs, hd⟩ = ⟨tokens ++ [⟨.numberToken, c :: cs⟩], [], false⟩ := by
  simp [flushNumber]

theorem validBody_ne_nil {body : List Char} (h : validBody body = true) : body ≠ [] := by
  intro hb
  subst hb
  simp [validBody] at h

theorem validBody_lastChar {body : List Char} (h : validBody body = true)
    (prev : Option Char) : operandEnd (lastChar prev body) := by
  obtain ⟨c, hc, hl⟩ := lastChar_mem (validBody_ne_nil h) prev
  refine ⟨c, hl, ?_⟩
  rcases (validBody_iff.mp h).1 c hc with hd | hd
  · constructor
    · cases hop : isOperator c with
      | false => rfl
      | true =>
        have := (isOperator_chars hop).1
        rw [hd] at this
        cases this
    · intro hp
      subst hp
      revert hd
      decide
  · subst hd
    decide

theorem tokenizeLoop_render (rt : Runtime) (e : Expr) : e.wellFormed = true →
    ∀ (prev : Option Char) (tokens : List token), unaryPosition prev →
    ∃ st1, tokenizeLoop rt prev ⟨tokens, [], false⟩ e.render = .ok st1
      ∧ flushNumber st1 = ⟨tokens ++ e.toks, [], false⟩
      ∧ operandEnd (lastChar prev e.render) := by
  induction e with
  | num neg body =>
    intro hwf prev tokens hprev
    have hv : validBody body = true := hwf
    obtain ⟨h1, h2, _⟩ := validBody_iff.mp hv
    cases neg with
    | true =>
      obtain ⟨hd1, hb⟩ := tokenizeLoop_body body (some '-') tokens ['-'] false h1
        (fun h => by cases h) h2
      refine ⟨⟨tokens, ['-'] ++ body, hd1⟩, ?_, ?_, ?_⟩
      · simp only [Expr.render, if_true, List.singleton_append, tokenizeLoop,
          tokenizeStep_sign tokens hprev]
        exact hb
      · simp [Expr.toks, Expr.render, flushNumber_cons]
      · simp only [Expr.render, if_true, List.singleton_append, lastChar]
        exact validBody_lastChar hv _
    | false =>
      obtain ⟨hd1, hb⟩ := tokenizeLoop_body body prev tokens [] false h1
        (fun h => by cases h) h2
      refine ⟨⟨tokens, [] ++ body, hd1⟩, ?_, ?_, ?_⟩
      · simpa [Expr.render] using hb
      · cases body with
        | nil => exact absurd rfl (validBody_ne_nil hv)
        | cons c cs => simp [Expr.toks, Expr.render, flushNumber_cons]
      · simpa [Expr.render] using validBody_lastChar hv prev
  | paren e ih =>
    intro hwf prev tokens _
    have hwe : e.wellFormed = true := hwf
    obtain ⟨st1, hs1, hf1, _⟩ := ih hwe (some '(') (tokens ++ [⟨.leftParenToken, ['(']⟩])
      (Or.inr (Or.inr rfl))
    refine ⟨⟨tokens ++ Expr.toks (.paren e), [], false⟩, ?_, ?_, ?_⟩
    · simp only [Expr.render, tokenizeLoop, tokenizeStep_lparen, flushNumber_empty]
      rw [tokenizeLoop_append, hs1]
      simp only [tokenizeLoop, tokenizeStep_rparen, hf1]
      simp [Expr.toks]
    · exact flushNumber_empty _ _
    · refine ⟨')', ?_, by decide, by decide⟩
      simp [Expr.render, lastChar, lastChar_append]
  | bin op l r ihl ihr =>
    intro hwf prev tokens hprev
    simp only [Expr.wellFormed, Bool.and_eq_true, decide_eq_true_eq] at hwf
    obtain ⟨⟨⟨⟨hop, hwl⟩, hwr⟩, _⟩, _⟩ := hwf
    obtain ⟨st1, hs1, hf1, hend1⟩ := ihl hwl prev tokens hprev
    obtain ⟨st2, hs2, hf2, hend2⟩ := ihr hwr (some op)
      (tokens ++ l.toks ++ [⟨.operatorToken, [op]⟩]) (Or.inr (Or.inl ⟨op, rfl, hop⟩))
    refine ⟨st2, ?_, ?_, ?_⟩
    · simp only [Expr.render]
      rw [tokenizeLoop_append, hs1]
      simp only [tokenizeLoop, tokenizeStep_binary st1 hop hend1, hf1]
      exact hs2
    · rw [hf2]
      simp [Expr.toks]
    · simpa [Expr.render, lastChar, lastChar_append] using hend2

theorem render_ne_nil (e : Expr) (hwf : e.wellFormed = true) : e.render ≠ [] := by
  cases e with
  | num neg body =>
    have hb := validBody_ne_nil (show validBody body = true from hwf)
    cases neg <;> simp [Expr.render, hb]
  | paren e => simp [Expr.render]
  | bin op l r => simp [Expr.render]

theorem render_no_space (e : Expr) : e.wellFormed = true → ∀ c ∈ e.render, c ≠ ' ' := by
  induction e with
  | num neg body =>
    intro hwf c hc
    have hv : validBody body = true := hwf
    have hb : ∀ x ∈ body, x ≠ ' ' := by
      intro x hx
      rcases (validBody_iff.mp hv).1 x hx with hd | hd
      · intro h; subst h; revert hd; decide
      · subst hd; decide
    cases neg with
    | true =>
      simp only [Expr.render, if_true, List.singleton_append, List.mem_cons] at hc
      rcases hc with rfl | hc
      · decide
      · exact hb c hc
    | false =>
      simp only [Expr.render, List.nil_append] at hc
      exact hb c (by simpa using hc)
  | paren e ih =>
    intro hwf c hc
    have hwe : e.wellFormed = true := hwf
    simp only [Expr.render, List.mem_cons, List.mem_append, List.not_mem_nil, or_false] at hc
    rcases hc with rfl | hc | rfl
    · decide
    · exact ih hwe c hc
    · decide
  | bin op l r ihl ihr =>
    intro hwf c hc
    simp only [Expr.wellFormed, Bool.and_eq_true, decide_eq_true_eq] at hwf
    obtain ⟨⟨⟨⟨hop, hwl⟩, hwr⟩, _⟩, _⟩ := hwf
    simp only [Expr.render, List.mem_append, List.mem_cons] at hc
    rcases hc with hc | rfl | hc
    · exact ihl hwl c hc
    · exact (isOperator_chars hop).2.2.2.2
    · exact ihr hwr c hc

theorem removeSpaces_render (e : Expr) (hwf : e.wellFormed = true) :
    removeSpaces e.render = e.render := by
  simp only [removeSpaces, List.filter_eq_self]
  intro c hc
  simpa using render_no_space e hwf c hc

/-- The tokenizer turns the text of a well-formed expression into its token
sequence. -/
theorem tokenize_render (e : Expr) (hwf : e.wellFormed = true) :
    tokenize rt e.render = .ok e.toks := by
  obtain ⟨st1, hs1, hf1, _⟩ := tokenizeLoop_render rt e hwf none [] (Or.inl rfl)
  simp [tokenize, hs1, hf1]

/-! ### The evaluator on the tokens of a well-formed expression -/

theorem precedence_le_two (o : List Char) : precedence o ≤ 2 := by
  unfold precedence
  split_ifs <;> omega

theorem precedence_lparen : precedence ['('] = 0 := by decide

theorem precedence_operator {op : Char} (h : isOperator op = true) :
    precedence [op] = (if op = '+' ∨ op = '-' then 1 else 2) ∧ [op] ≠ ['('] := by
  rcases isOperator_iff.mp h with rfl | rfl | rfl | rfl <;> decide

theorem reduceWhile_stop (p : Nat) (numbers : List rt.F) (operators : List (List Char))
    (h : ∀ o, operators.head? = some o → precedence o < p) :
    reduceWhile rt p numbers operators = .ok (numbers, operators) := by
  cases operators with
  | nil => rfl
  | cons o os =>
    have := h o rfl
    have h2 : ¬ (o ≠ ['('] ∧ precedence o ≥ p) := by
      intro hh
      omega
    simp only [reduceWhile]
    rw [if_neg h2]

theorem reduceWhile_mono {p q : Nat} (hpq : p ≤ q) (operators : List (List Char)) :
    ∀ numbers : List rt.F, reduceWhile rt p numbers operators =
      match reduceWhile rt q numbers operators with
      | .error e => .error e
      | .ok r => reduceWhile rt p r.1 r.2 := by
  induction operators with
  | nil => intro numbers; simp [reduceWhile]
  | cons o os ih =>
    intro numbers
    by_cases hq : o ≠ ['('] ∧ precedence o ≥ q
    · have hp : o ≠ ['('] ∧ precedence o ≥ p := ⟨hq.1, by omega⟩
      simp only [reduceWhile]
      rw [if_pos hq, if_pos hp]
      cases hr : reduceTop rt o numbers with
      | error e => rfl
      | ok n1 => exact ih n1
    · conv_rhs => simp only [reduceWhile]
      rw [if_neg hq]

theorem reduceToParen_after (q : Nat) (operators : List (List Char)) :
    ∀ numbers : List rt.F, reduceToParen rt numbers operators =
      match reduceWhile rt q numbers operators with
      | .error e => .error e
      | .ok r => reduceToParen rt r.1 r.2 := by
  induction operators with
  | nil => intro numbers; simp [reduceWhile, reduceToParen]
  | cons o os ih =>
    intro numbers
    by_cases hq : o ≠ ['('] ∧ precedence o ≥ q
    · simp only [reduceWhile, reduceToParen]
      rw [if_pos hq, if_pos hq.1]
      cases hr : reduceTop rt o numbers with
      | error e => rfl
      | ok n1 => exact ih n1
    · conv_rhs => simp only [reduceWhile]
      rw [if_neg hq]

theorem drainOperators_after (q : Nat) (operators : List (List Char)) :
    ∀ numbers : List rt.F, drainOperators rt numbers operators =
      match reduceWhile rt q numbers operators with
      | .error e => .error e
      | .ok r => drainOperators rt r.1 r.2 := by
  induction operators with
  | nil => intro numbers; simp [reduceWhile, drainOperators]
  | cons o os ih =>
    intro numbers
    by_cases hq : o ≠ ['('] ∧ precedence o ≥ q
    · have hne : ¬ o = ['('] := hq.1
      simp only [reduceWhile, drainOperators]
      rw [if_pos hq, if_neg hne]
      cases hr : reduceTop rt o numbers with
      | error e => rfl
      | ok n1 => exact ih n1
    · conv_rhs => simp only [reduceWhile]
      rw [if_neg hq]

theorem applyOperator_operator {op : Char} (h : isOperator op = true) (b a : rt.F) :
    applyOperator rt [op] b a =
      match binValue rt op a b with
      | some x => .ok x
      | none => .error .ErrDivisionByZero := by
  rcases isOperator_iff.mp h with rfl | rfl | rfl | rfl
  · simp [applyOperator, binValue]
  · simp [applyOperator, binValue]
  · simp [applyOperator, binValue]
  · cases hb : rt.isZero b <;> simp [applyOperator, binValue, hb]

theorem evalLoop_append (p q : List token) : ∀ (numbers : List rt.F)
    (operators : List (List Char)),
    evalLoop rt numbers operators (p ++ q) =
      match evalLoop rt numbers operators p with
      | .error e => .error e
      | .ok r => evalLoop rt r.1 r.2 q := by
  induction p with
  | nil => intro numbers operators; simp [evalLoop]
  | cons t ts ih =>
    intro numbers operators
    simp only [List.cons_append, evalLoop]
    cases hs : evalStep rt numbers operators t with
    | error e => rfl
    | ok r => exact ih r.1 r.2

theorem rank_pos (e : Expr) : 1 ≤ e.rank := by
  cases e with
  | num neg body => simp [Expr.rank]
  | paren e => simp [Expr.rank]
  | bin op l r =>
    simp only [Expr.rank]
    split_ifs <;> omega

theorem reduceWhile_atom (numbers : List rt.F) (operators : List (List Char)) :
    reduceWhile rt 3 numbers operators = .ok (numbers, operators) := by
  apply reduceWhile_stop
  intro o _
  have := precedence_le_two o
  omega

/-- The token loop on the tokens of a well-formed expression, started on stacks
whose top operator binds less tightly than the expression: either the loop
fails with the error of the reference evaluation, or it ends in a state whose
pending reductions give the outcome of the reference evaluation, the value on
top of the operand stack it started from or the error. -/
theorem evalLoop_toks (e : Expr) : e.wellFormed = true →
    ∀ (numbers : List rt.F) (operators : List (List Char)),
    (∀ o, operators.head? = some o → precedence o < e.rank) →
    (∃ err, evalLoop rt numbers operators e.toks = .error err ∧ e.outcome rt = .error err)
      ∨ ∃ n1 o1, evalLoop rt numbers operators e.toks = .ok (n1, o1)
          ∧ reduceWhile rt e.rank n1 o1 = pending rt (e.outcome rt) numbers operators := by
  induction e with
  | num neg body =>
    intro _ numbers operators _
    cases hx : rt.parseFloat (Expr.render (.num neg body)) with
    | none =>
      left
      refine ⟨.ErrInvalidToken, ?_, ?_⟩
      · simp only [Expr.toks, evalLoop, evalStep, hx]
      · simp only [Expr.outcome, hx]
    | some x =>
      right
      refine ⟨x :: numbers, operators, ?_, ?_⟩
      · simp only [Expr.toks, evalLoop, evalStep, hx]
      · simp only [Expr.rank, Expr.outcome, hx, pending]
        exact reduceWhile_atom _ _
  | paren e ih =>
    intro hwf numbers operators _
    have hwe : e.wellFormed = true := hwf
    have htoks : evalLoop rt numbers operators (Expr.toks (.paren e)) =
        match evalLoop rt numbers (['('] :: operators) e.toks with
        | .error err => .error err
        | .ok r => evalLoop rt r.1 r.2 [⟨.rightParenToken, [')']⟩] := by
      conv_lhs => simp only [Expr.toks, evalLoop, evalStep]
      rw [evalLoop_append]
    have hcond : ∀ o, (['('] :: operators).head? = some o → precedence o < e.rank := by
      intro o ho
      simp only [List.head?_cons, Option.some.injEq] at ho
      subst ho
      rw [precedence_lparen]
      exact rank_pos e
    rcases ih hwe numbers (['('] :: operators) hcond with
      ⟨err, herr, hval⟩ | ⟨n1, o1, hok, hred⟩
    · left
      rw [htoks, herr]
      exact ⟨err, rfl, hval⟩
    · rw [htoks, hok]
      have hrp := reduceToParen_after e.rank o1 n1
      rw [hred] at hrp
      cases hv : e.outcome rt with
      | error err =>
        left
        rw [hv] at hrp
        simp only [pending] at hrp
        refine ⟨err, ?_, ?_⟩
        · simp only [evalLoop, evalStep, hrp]
        · simp only [Expr.outcome, hv]
      | ok v =>
        right
        rw [hv] at hrp
        simp only [pending, reduceToParen, ne_eq, not_true_eq_false, if_false] at hrp
        refine ⟨v :: numbers, operators, ?_, ?_⟩
        · simp only [evalLoop, evalStep, hrp, ne_eq, not_true_eq_false, if_false]
        · simp only [Expr.rank, Expr.outcome, hv, pending]
          exact reduceWhile_atom _ _
  | bin op l r ihl ihr =>
    intro hwf numbers operators hcond
    simp only [Expr.wellFormed, Bool.and_eq_true, decide_eq_true_eq] at hwf
    obtain ⟨⟨⟨⟨hop, hwl⟩, hwr⟩, hrl⟩, hrr⟩ := hwf
    obtain ⟨hprec, hnp⟩ := precedence_operator hop
    have hk : (Expr.bin op l r).rank = precedence [op] := by
      rw [hprec]; rfl
    rw [hk] at hrl hrr hcond ⊢
    have htoks : evalLoop rt numbers operators (Expr.toks (.bin op l r)) =
        match evalLoop rt numbers operators l.toks with
        | .error err => .error err
        | .ok r1 =>
          match reduceWhile rt (precedence [op]) r1.1 r1.2 with
          | .error err => .error err
          | .ok r2 => evalLoop rt r2.1 ([op] :: r2.2) r.toks := by
      simp only [Expr.toks]
      rw [evalLoop_append]
      cases evalLoop rt numbers operators l.toks with
      | error err => rfl
      | ok r1 =>
        simp only [evalLoop, evalStep]
        cases reduceWhile rt (precedence [op]) r1.1 r1.2 with
        | error err => rfl
        | ok r2 => rfl
    have hcl : ∀ o, operators.head? = some o → precedence o < l.rank := by
      intro o ho
      have := hcond o ho
      omega
    rcases ihl hwl numbers operators hcl with ⟨err, herr, hval⟩ | ⟨n1, o1, hok, hred⟩
    · left
      rw [htoks, herr]
      refine ⟨err, rfl, ?_⟩
      simp only [Expr.outcome, hval]
    · rw [htoks, hok]
      have hm := reduceWhile_mono hrl o1 n1
      rw [hred] at hm
      cases hvl : l.outcome rt with
      | error err =>
        left
        rw [hvl] at hm
        simp only [pending] at hm
        refine ⟨err, ?_, ?_⟩
        · simp only [hm]
        · simp only [Expr.outcome, hvl]
      | ok a =>
        rw [hvl] at hm
        simp only [pending, reduceWhile_stop _ _ _ hcond] at hm
        simp only [hm]
        have hcr : ∀ o, ([op] :: operators).head? = some o → precedence o < r.rank := by
          intro o ho
          simp only [List.head?_cons, Option.some.injEq] at ho
          subst ho
          exact hrr
        rcases ihr hwr (a :: numbers) ([op] :: operators) hcr with
          ⟨err, herr2, hval2⟩ | ⟨n2, o2, hok2, hred2⟩
        · left
          refine ⟨err, herr2, ?_⟩
          simp only [Expr.outcome, hvl, hval2]
        · right
          refine ⟨n2, o2, hok2, ?_⟩
          have hm2 := reduceWhile_mono (Nat.le_of_lt hrr) o2 n2
          rw [hred2] at hm2
          rw [hm2]
          cases hvr : r.outcome rt with
          | error err => simp only [pending, Expr.outcome, hvl, hvr]
          | ok b =>
            have hcond2 : [op] ≠ ['('] ∧ precedence [op] ≥ precedence [op] :=
              ⟨hnp, Nat.le_refl _⟩
            simp only [pending, Expr.outcome, hvl, hvr, reduceWhile, reduceTop]
            rw [if_pos hcond2, applyOperator_operator hop]
            cases hbv : binValue rt op a b with
            | none => rfl
            | some x => exact reduceWhile_stop _ _ _ hcond

/-- On the tokens of a well-formed expression the evaluator returns the outcome of
the reference evaluation. -/
theorem evaluateTokens_outcome (e : Expr) (hwf : e.wellFormed = true) :
    evaluateTokens rt e.toks = e.outcome rt := by
  have hcond : ∀ o, ([] : List (List Char)).head? = some o → precedence o < e.rank := by
    intro o ho
    cases ho
  rcases evalLoop_toks e hwf ([] : List rt.F) [] hcond with
    ⟨err, herr, hval⟩ | ⟨n1, o1, hok, hred⟩
  · simp only [evaluateTokens, herr, hval]
  · have hd := drainOperators_after e.rank o1 n1
    rw [hred] at hd
    cases hv : e.outcome rt with
    | error err =>
      rw [hv] at hd
      simp only [pending] at hd
      simp only [evaluateTokens, hok, hd]
    | ok v =>
      rw [hv] at hd
      simp only [pending, drainOperators] at hd
      simp only [evaluateTokens, hok, hd]

/-- On the text of a well-formed expression `Evaluate` returns the outcome of the
reference evaluation. -/
theorem Evaluate_outcome (e : Expr) (hwf : e.wellFormed = true) :
    Evaluate rt e.render = e.outcome rt := by
  simp only [Evaluate, removeSpaces_render e hwf, render_ne_nil e hwf, if_false,
    tokenize_render e hwf, evaluateTokens_outcome e hwf]

/-- When the numerals parse, the outcome is the value, or `ErrDivisionByZero` when
there is none. -/
theorem outcome_of_numeralsParse (e : Expr) : e.numeralsParse rt = true →
    e.outcome rt = match e.value rt with
      | some v => .ok v
      | none => .error .ErrDivisionByZero := by
  induction e with
  | num neg body =>
    intro hpar
    simp only [Expr.numeralsParse, Option.isSome_iff_exists] at hpar
    obtain ⟨x, hx⟩ := hpar
    simp only [Expr.outcome, Expr.value, hx]
  | paren e ih => intro hpar; exact ih hpar
  | bin op l r ihl ihr =>
    intro hpar
    simp only [Expr.numeralsParse, Bool.and_eq_true] at hpar
    simp only [Expr.outcome, Expr.value, ihl hpar.1, ihr hpar.2]
    cases l.value rt with
    | none => rfl
    | some a =>
      cases r.value rt with
      | none => rfl
      | some b => cases binValue rt op a b <;> rfl

/-- The outcome the reference evaluation prescribes when the numerals parse: the
value, or `ErrDivisionByZero` when there is none. -/
theorem evaluateTokens_toks (e : Expr) (hwf : e.wellFormed = true)
    (hpar : e.numeralsParse rt = true) :
    evaluateTokens rt e.toks =
      match e.value rt with
      | some v => .ok v
      | none => .error .ErrDivisionByZero := by
  rw [evaluateTokens_outcome e hwf, outcome_of_numeralsParse e hpar]

theorem Evaluate_render (e : Expr) (hwf : e.wellFormed = true)
    (hpar : e.numeralsParse rt = true) :
    Evaluate rt e.render =
      match e.value rt with
      | some v => .ok v
      | none => .error .ErrDivisionByZero := by
  rw [Evaluate_outcome e hwf, outcome_of_numeralsParse e hpar]

theorem value_none_of_zeroDivision (e : Expr) :
    e.zeroDivision rt = true → e.value rt = none := by
  induction e with
  | num neg body => intro h; cases h
  | paren e ih => intro h; exact ih h
  | bin op l r ihl ihr =>
    intro h
    simp only [Expr.zeroDivision, Bool.or_eq_true, Bool.and_eq_true, beq_iff_eq] at h
    rcases h with (h | h) | ⟨hop, hr⟩
    · simp only [Expr.value, ihl h]
    · simp only [Expr.value, ihr h]
      cases l.value rt <;> rfl
    · subst hop
      cases hvr : r.value rt with
      | none =>
        simp only [Expr.value, hvr]
        cases l.value rt <;> rfl
      | some b =>
        rw [hvr] at hr
        simp only [Expr.value, hvr]
        cases l.value rt with
        | none => rfl
        | some a => exact (by simpa [binValue] using hr)

theorem value_some_of_no_zeroDivision (e : Expr) : e.wellFormed = true →
    e.numeralsParse rt = true → e.zeroDivision rt = false → ∃ v, e.value rt = some v := by
  induction e with
  | num neg body =>
    intro _ hpar _
    simp only [Expr.numeralsParse, Option.isSome_iff_exists] at hpar
    exact hpar
  | paren e ih => intro hwf hpar hz; exact ih hwf hpar hz
  | bin op l r ihl ihr =>
    intro hwf hpar hz
    simp only [Expr.wellFormed, Bool.and_eq_true, decide_eq_true_eq] at hwf
    obtain ⟨⟨⟨⟨hop, hwl⟩, hwr⟩, _⟩, _⟩ := hwf
    simp only [Expr.numeralsParse, Bool.and_eq_true] at hpar
    simp only [Expr.zeroDivision, Bool.or_eq_false_iff] at hz
    obtain ⟨⟨hzl, hzr⟩, hdiv⟩ := hz
    obtain ⟨a, ha⟩ := ihl hwl hpar.1 hzl
    obtain ⟨b, hb⟩ := ihr hwr hpar.2 hzr
    rw [hb] at hdiv
    simp only [Expr.value, ha, hb]
    rcases isOperator_iff.mp hop with rfl | rfl | rfl | rfl
    · exact ⟨rt.add a b, by simp [binValue]⟩
    · exact ⟨rt.sub a b, by simp [binValue]⟩
    · exact ⟨rt.mul a b, by simp [binValue]⟩
    · have hb0 : rt.isZero b = false := by simpa using hdiv
      exact ⟨rt.div a b, by simp [binValue, hb0]⟩

theorem numeralsParse_of_value (e : Expr) :
    ∀ {v : rt.F}, e.value rt = some v → e.numeralsParse rt = true := by
  induction e with
  | num neg body =>
    intro v h
    simp only [Expr.value] at h
    simp only [Expr.numeralsParse, h, Option.isSome_some]
  | paren e ih => intro v h; exact ih h
  | bin op l r ihl ihr =>
    intro v h
    simp only [Expr.value] at h
    cases hl : l.value rt with
    | none => rw [hl] at h; cases h
    | some a =>
      cases hr : r.value rt with
      | none => rw [hl, hr] at h; cases h
      | some b => simp only [Expr.numeralsParse, ihl hl, ihr hr, Bool.and_self]

theorem outcome_of_value (e : Expr) {v : rt.F} (hv : e.value rt = some v) :
    e.outcome rt = .ok v := by
  rw [outcome_of_numeralsParse e (numeralsParse_of_value e hv), hv]

/-- The reference evaluation fails with `ErrDivisionByZero`, or with
`ErrInvalidToken` on an expression with a numeral that does not parse. -/
theorem outcome_error (e : Expr) : ∀ {err : CalcError}, e.outcome rt = .error err →
    err = .ErrDivisionByZero ∨ (err = .ErrInvalidToken ∧ e.numeralsParse rt = false) := by
  induction e with
  | num neg body =>
    intro err h
    simp only [Expr.outcome] at h
    cases hx : rt.parseFloat (Expr.render (.num neg body)) with
    | none =>
      simp only [hx] at h
      cases h
      exact Or.inr ⟨rfl, by simp [Expr.numeralsParse, hx]⟩
    | some x => simp [hx] at h
  | paren e ih => intro err h; exact ih h
  | bin op l r ihl ihr =>
    intro err h
    simp only [Expr.outcome] at h
    cases hl : l.outcome rt with
    | error e1 =>
      simp only [hl] at h
      cases h
      rcases ihl hl with h1 | ⟨h1, h2⟩
      · exact Or.inl h1
      · exact Or.inr ⟨h1, by simp [Expr.numeralsParse, h2]⟩
    | ok a =>
      simp only [hl] at h
      cases hr : r.outcome rt with
      | error e1 =>
        simp only [hr] at h
        cases h
        rcases ihr hr with h1 | ⟨h1, h2⟩
        · exact Or.inl h1
        · exact Or.inr ⟨h1, by simp [Expr.numeralsParse, h2]⟩
      | ok b =>
        simp only [hr] at h
        cases hb : binValue rt op a b with
        | none =>
          simp only [hb] at h
          cases h
          exact Or.inl rfl
        | some x => simp [hb] at h

/-- With a division by zero somewhere, the reference evaluation fails. -/
theorem outcome_of_zeroDivision (e : Expr) : e.zeroDivision rt = true →
    ∃ err, e.outcome rt = .error err := by
  induction e with
  | num neg body => intro h; cases h
  | paren e ih => intro h; exact ih h
  | bin op l r ihl ihr =>
    intro h
    simp only [Expr.zeroDivision, Bool.or_eq_true, Bool.and_eq_true, beq_iff_eq] at h
    cases hl : l.outcome rt with
    | error e1 => exact ⟨e1, by simp only [Expr.outcome, hl]⟩
    | ok a =>
      cases hr : r.outcome rt with
      | error e1 => exact ⟨e1, by simp only [Expr.outcome, hl, hr]⟩
      | ok b =>
        rcases h with (h | h) | ⟨hop, hz⟩
        · obtain ⟨e1, he1⟩ := ihl h
          rw [hl] at he1
          cases he1
        · obtain ⟨e1, he1⟩ := ihr h
          rw [hr] at he1
          cases he1
        · subst hop
          cases hvr : r.value rt with
          | none => rw [hvr] at hz; cases hz
          | some b1 =>
            rw [hvr] at hz
            have hb1 := outcome_of_value r hvr
            rw [hr] at hb1
            cases hb1
            refine ⟨.ErrDivisionByZero, ?_⟩
            have hz2 : rt.isZero b = true := hz
            simp [Expr.outcome, hl, hr, binValue, hz2]

/-- After a well-formed expression that has a value and a binary operator, a lone
sign stops the evaluation with `ErrInvalidToken`. -/
theorem evaluateTokens_lone_minus_after (P : Expr) (hwf : P.wellFormed = true) {v : rt.F}
    (hv : (P.value rt) = some v) (op : Char) (rest : List token) :
    evaluateTokens rt (P.toks ++ ⟨.operatorToken, [op]⟩ :: ⟨.numberToken, ['-']⟩ :: rest)
      = .error .ErrInvalidToken := by
  have hcond : ∀ o, ([] : List (List Char)).head? = some o → precedence o < P.rank := by
    intro o ho
    cases ho
  unfold evaluateTokens
  rw [evalLoop_append]
  have hout : P.outcome rt = .ok v := by
    rw [outcome_of_numeralsParse P (numeralsParse_of_value P hv), hv]
  rcases evalLoop_toks P hwf ([] : List rt.F) [] hcond with
    ⟨err, _, hnone⟩ | ⟨n1, o1, hok, hred⟩
  · rw [hout] at hnone
    cases hnone
  · rw [hok]
    rw [hout] at hred
    simp only [pending] at hred
    have hr2 : ∃ r2, reduceWhile rt (precedence [op]) n1 o1 = .ok r2 := by
      rcases Nat.le_total (precedence [op]) P.rank with hle | hle
      · have hm := reduceWhile_mono hle o1 n1
        rw [hred] at hm
        exact ⟨_, hm⟩
      · have hm := reduceWhile_mono hle o1 n1
        rw [hred] at hm
        cases hq : reduceWhile rt (precedence [op]) n1 o1 with
        | error e => rw [hq] at hm; cases hm
        | ok r2 => exact ⟨r2, rfl⟩
    obtain ⟨r2, hr2⟩ := hr2
    simp only [evalLoop, evalStep, hr2, parseFloat_lone_minus]

/-! ### What the tokenizer guarantees of its tokens -/

theorem unicodeIsDigit_not_delimiter {c : Char} (h : unicodeIsDigit rt c = true) :
    isOperator c = false ∧ c ≠ '(' ∧ c ≠ ')' ∧ c ≠ '.' := by
  have hn : c.toNat ≠ 43 ∧ c.toNat ≠ 45 ∧ c.toNat ≠ 42 ∧ c.toNat ≠ 47 ∧ c.toNat ≠ 40
      ∧ c.toNat ≠ 41 ∧ c.toNat ≠ 46 := by
    unfold unicodeIsDigit at h
    split_ifs at h with h7
    · have h8 : 48 ≤ c.toNat ∧ c.toNat ≤ 57 := by simpa using h
      omega
    · omega
  obtain ⟨g1, g2, g3, g4, g5, g6, g7⟩ := hn
  refine ⟨?_, ?_, ?_, ?_⟩
  · cases hop : isOperator c with
    | false => rfl
    | true =>
      exfalso
      rcases isOperator_iff.mp hop with rfl | rfl | rfl | rfl <;> simp at g1 g2 g3 g4
  · intro hc; subst hc; simp at g5
  · intro hc; subst hc; simp at g6
  · intro hc; subst hc; simp at g7

theorem tokenParens_append (a b : List token) :
    tokenParens (a ++ b) = tokenParens a ++ tokenParens b := by
  induction a with
  | nil => rfl
  | cons t ts ih =>
    simp only [List.cons_append, tokenParens]
    cases t.tokenType <;> simp [ih]

theorem flushNumber_tokenOK {st : scanState} (h : ∀ t ∈ st.tokens, tokenOK t) :
    ∀ t ∈ (flushNumber st).tokens, tokenOK t := by
  unfold flushNumber
  split_ifs with hlen
  · intro t ht
    rcases List.mem_append.mp ht with ht | ht
    · exact h t ht
    · simp only [List.mem_singleton] at ht
      subst ht
      show st.currentNumber ≠ []
      intro hnil
      rw [hnil] at hlen
      simp at hlen
  · exact h

theorem tokenizeStep_tokenOK {prev : Option Char} {st st1 : scanState} {c : Char}
    (hok : ∀ t ∈ st.tokens, tokenOK t) (h : tokenizeStep rt prev st c = .ok st1) :
    ∀ t ∈ st1.tokens, tokenOK t := by
  have hf := flushNumber_tokenOK hok
  unfold tokenizeStep at h
  split_ifs at h with h1 h2 h3 h4 h5 h6 h7 <;> cases h
  · exact hok
  · exact hok
  · exact hf
  · intro t ht
    rcases List.mem_append.mp ht with ht | ht
    · exact hf t ht
    · simp only [List.mem_singleton] at ht
      subst ht
      exact ⟨c, h4, rfl⟩
  · intro t ht
    rcases List.mem_append.mp ht with ht | ht
    · exact hf t ht
    · simp only [List.mem_singleton] at ht
      subst ht
      rfl
  · intro t ht
    rcases List.mem_append.mp ht with ht | ht
    · exact hf t ht
    · simp only [List.mem_singleton] at ht
      subst ht
      rfl

theorem tokenizeLoop_tokenOK {s : List Char} : ∀ {prev : Option Char} {st st1 : scanState},
    (∀ t ∈ st.tokens, tokenOK t) → tokenizeLoop rt prev st s = .ok st1 →
    ∀ t ∈ st1.tokens, tokenOK t := by
  induction s with
  | nil => intro prev st st1 hok h; cases h; exact hok
  | cons c cs ih =>
    intro prev st st1 hok h
    unfold tokenizeLoop at h
    cases hs : tokenizeStep rt prev st c with
    | error e1 => rw [hs] at h; cases h
    | ok st2 =>
      rw [hs] at h
      exact ih (tokenizeStep_tokenOK hok hs) h

theorem tokenize_tokenOK {s : List Char} {tokens : List token} (h : tokenize rt s = .ok tokens) :
    ∀ t ∈ tokens, tokenOK t := by
  unfold tokenize at h
  cases hs : tokenizeLoop rt none ⟨[], [], false⟩ s with
  | error e => rw [hs] at h; cases h
  | ok st =>
    rw [hs] at h
    cases h
    exact flushNumber_tokenOK (tokenizeLoop_tokenOK (by intro t ht; cases ht) hs)

theorem reduceTop_cons_cons (o : List Char) (b a : rt.F) (rest : List rt.F) :
    reduceTop rt o (b :: a :: rest) =
      match applyOperator rt o b a with
      | .error e => .error e
      | .ok result => .ok (result :: rest) := rfl

theorem reduceTop_ok {o : List Char} {numbers n1 : List rt.F}
    (h : reduceTop rt o numbers = .ok n1) : n1.length + 1 = numbers.length := by
  match numbers, h with
  | [], h => cases h
  | [_], h => cases h
  | b :: a :: rest, h =>
    rw [reduceTop_cons_cons] at h
    cases ha : applyOperator rt o b a with
    | error e => simp [ha] at h
    | ok x =>
      simp only [ha] at h
      cases h
      simp

theorem reduceTop_error {o : List Char} {numbers : List rt.F} {e : CalcError}
    (ho : ∃ op, isOperator op = true ∧ o = [op]) (h : reduceTop rt o numbers = .error e) :
    e = .ErrInvalidExpression ∨ e = .ErrDivisionByZero := by
  obtain ⟨op, hop, rfl⟩ := ho
  match numbers, h with
  | [], h => cases h; exact Or.inl rfl
  | [_], h => cases h; exact Or.inl rfl
  | b :: a :: rest, h =>
    rw [reduceTop_cons_cons, applyOperator_operator hop] at h
    cases hb : binValue rt op a b with
    | none =>
      simp only [hb] at h
      cases h
      exact Or.inr rfl
    | some x => simp [hb] at h

theorem stackOK_cons {o : List Char} {operators : List (List Char)}
    (h : stackOK (o :: operators)) :
    (o = ['('] ∨ ∃ op, isOperator op = true ∧ o = [op]) ∧ stackOK operators :=
  ⟨h o (List.mem_cons_self _ _), fun x hx => h x (List.mem_cons_of_mem _ hx)⟩

theorem reduceWhile_ok (p : Nat) (operators : List (List Char)) :
    ∀ {numbers : List rt.F} {r : List rt.F × List (List Char)},
    reduceWhile rt p numbers operators = .ok r →
    ∃ popped, operators = popped ++ r.2 ∧ (∀ o ∈ popped, o ≠ ['('])
      ∧ r.1.length + popped.length = numbers.length := by
  induction operators with
  | nil =>
    intro numbers r h
    cases h
    exact ⟨[], rfl, by simp, rfl⟩
  | cons o os ih =>
    intro numbers r h
    simp only [reduceWhile] at h
    split_ifs at h with hc
    · cases ht : reduceTop rt o numbers with
      | error e => simp [ht] at h
      | ok n1 =>
        simp only [ht] at h
        obtain ⟨popped, h1, h2, h3⟩ := ih h
        have h4 := reduceTop_ok ht
        refine ⟨o :: popped, by rw [h1]; rfl, ?_, by simp; omega⟩
        intro x hx
        rcases List.mem_cons.mp hx with rfl | hx
        · exact hc.1
        · exact h2 x hx
    · cases h
      exact ⟨[], rfl, by simp, rfl⟩

theorem reduceWhile_error (p : Nat) (operators : List (List Char)) :
    ∀ {numbers : List rt.F} {e : CalcError}, stackOK operators →
    reduceWhile rt p numbers operators = .error e →
    e = .ErrInvalidExpression ∨ e = .ErrDivisionByZero := by
  induction operators with
  | nil => intro numbers e _ h; cases h
  | cons o os ih =>
    intro numbers e hst h
    obtain ⟨ho, hos⟩ := stackOK_cons hst
    simp only [reduceWhile] at h
    split_ifs at h with hc
    cases ht : reduceTop rt o numbers with
    | error e1 =>
      simp only [ht] at h
      cases h
      rcases ho with ho | ho
      · exact absurd ho hc.1
      · exact reduceTop_error ho ht
    | ok n1 =>
      simp only [ht] at h
      exact ih hos h

theorem reduceToParen_ok (operators : List (List Char)) :
    ∀ {numbers : List rt.F} {r : List rt.F × List (List Char)},
    reduceToParen rt numbers operators = .ok r →
    ∃ popped, operators = popped ++ r.2 ∧ (∀ o ∈ popped, o ≠ ['('])
      ∧ r.1.length + popped.length = numbers.length := by
  induction operators with
  | nil =>
    intro numbers r h
    cases h
    exact ⟨[], rfl, by simp, rfl⟩
  | cons o os ih =>
    intro numbers r h
    simp only [reduceToParen] at h
    split_ifs at h with hc
    · cases ht : reduceTop rt o numbers with
      | error e => simp [ht] at h
      | ok n1 =>
        simp only [ht] at h
        obtain ⟨popped, h1, h2, h3⟩ := ih h
        have h4 := reduceTop_ok ht
        refine ⟨o :: popped, by rw [h1]; rfl, ?_, by simp; omega⟩
        intro x hx
        rcases List.mem_cons.mp hx with rfl | hx
        · exact hc
        · exact h2 x hx
    · cases h
      exact ⟨[], rfl, by simp, rfl⟩

theorem reduceToParen_error (operators : List (List Char)) :
    ∀ {numbers : List rt.F} {e : CalcError}, stackOK operators →
    reduceToParen rt numbers operators = .error e →
    e = .ErrInvalidExpression ∨ e = .ErrDivisionByZero := by
  induction operators with
  | nil => intro numbers e _ h; cases h
  | cons o os ih =>
    intro numbers e hst h
    obtain ⟨ho, hos⟩ := stackOK_cons hst
    simp only [reduceToParen] at h
    split_ifs at h with hc
    cases ht : reduceTop rt o numbers with
    | error e1 =>
      simp only [ht] at h
      cases h
      rcases ho with ho | ho
      · exact absurd ho hc
      · exact reduceTop_error ho ht
    | ok n1 =>
      simp only [ht] at h
      exact ih hos h

theorem drainOperators_ok (operators : List (List Char)) :
    ∀ {numbers n1 : List rt.F}, drainOperators rt numbers operators = .ok n1 →
    (∀ o ∈ operators, o ≠ ['(']) ∧ n1.length + operators.length = numbers.length := by
  induction operators with
  | nil =>
    intro numbers n1 h
    cases h
    exact ⟨by simp, rfl⟩
  | cons o os ih =>
    intro numbers n1 h
    simp only [drainOperators] at h
    split_ifs at h with hc
    cases ht : reduceTop rt o numbers with
    | error e => simp [ht] at h
    | ok n2 =>
      simp only [ht] at h
      obtain ⟨h1, h2⟩ := ih h
      have h4 := reduceTop_ok ht
      refine ⟨?_, by simp; omega⟩
      intro x hx
      rcases List.mem_cons.mp hx with rfl | hx
      · exact hc
      · exact h1 x hx

theorem drainOperators_error (operators : List (List Char)) :
    ∀ {numbers : List rt.F} {e : CalcError}, stackOK operators →
    drainOperators rt numbers operators = .error e →
    e = .ErrInvalidExpression ∨ e = .ErrDivisionByZero := by
  induction operators with
  | nil => intro numbers e _ h; cases h
  | cons o os ih =>
    intro numbers e hst h
    obtain ⟨ho, hos⟩ := stackOK_cons hst
    simp only [drainOperators] at h
    split_ifs at h with hc
    · cases h
      exact Or.inl rfl
    · cases ht : reduceTop rt o numbers with
      | error e1 =>
        simp only [ht] at h
        cases h
        rcases ho with ho | ho
        · exact absurd ho hc
        · exact reduceTop_error ho ht
      | ok n1 =>
        simp only [ht] at h
        exact ih hos h

/-! ### The token loop: depth of nesting and stack heights -/

theorem countType_cons (ty : tokenType) (t : token) (ts : List token) :
    countType ty (t :: ts) = countType ty [t] + countType ty ts := by
  unfold countType
  by_cases h : (t.tokenType == ty) = true
  · simp [List.filter_cons, h]
    omega
  · simp [List.filter_cons, h]

theorem depthAfter_append (a b : List Bool) : ∀ d : Nat,
    depthAfter d (a ++ b) = (depthAfter d a).bind (fun d1 => depthAfter d1 b) := by
  induction a with
  | nil => intro d; rfl
  | cons x xs ih =>
    intro d
    cases x with
    | true => exact ih (d + 1)
    | false =>
      simp only [List.cons_append, depthAfter]
      split_ifs
      · rfl
      · exact ih _

theorem count_paren_append_of_none {popped rest : List (List Char)}
    (h : ∀ o ∈ popped, o ≠ ['(']) :
    (popped ++ rest).count ['('] = rest.count ['('] := by
  rw [List.count_append]
  have : popped.count ['('] = 0 := List.count_eq_zero.mpr (fun hm => h _ hm rfl)
  omega

theorem stackOK_of_append {popped rest : List (List Char)} (h : stackOK (popped ++ rest)) :
    stackOK rest :=
  fun o ho => h o (List.mem_append_right _ ho)

theorem evalStep_ok {numbers : List rt.F} {operators : List (List Char)} {t : token}
    {r : List rt.F × List (List Char)} (ht : tokenOK t) (hst : stackOK operators)
    (h : evalStep rt numbers operators t = .ok r) :
    stackOK r.2
      ∧ depthAfter (operators.count ['(']) (tokenParens [t]) = some (r.2.count ['('])
      ∧ r.1.length + operators.length + countType .operatorToken [t]
            + countType .leftParenToken [t]
          = numbers.length + countType .numberToken [t] + r.2.length
            + countType .rightParenToken [t] := by
  obtain ⟨ty, val⟩ := t
  cases ty with
  | numberToken =>
    simp only [evalStep] at h
    cases hp : rt.parseFloat val with
    | none => simp [hp] at h
    | some x =>
      simp only [hp] at h
      cases h
      refine ⟨hst, by simp [tokenParens, depthAfter], ?_⟩
      simp [countType]
  | operatorToken =>
    simp only [evalStep] at h
    cases hr : reduceWhile rt (precedence val) numbers operators with
    | error e => simp [hr] at h
    | ok r1 =>
      simp only [hr] at h
      cases h
      obtain ⟨popped, h1, h2, h3⟩ := reduceWhile_ok _ _ hr
      obtain ⟨op, hop, hval⟩ : ∃ op, isOperator op = true ∧ val = [op] := ht
      have hne : val ≠ ['('] := by
        rw [hval]
        exact (precedence_operator hop).2
      rw [h1] at hst
      refine ⟨?_, ?_, ?_⟩
      · intro o ho
        rcases List.mem_cons.mp ho with rfl | ho
        · exact Or.inr ⟨op, hop, hval⟩
        · exact stackOK_of_append hst o ho
      · simp only [tokenParens, depthAfter, h1, count_paren_append_of_none h2]
        rw [List.count_cons_of_ne hne.symm]
      · simp [countType, h1]
        omega
  | leftParenToken =>
    simp only [evalStep] at h
    cases h
    have hval : val = ['('] := ht
    subst hval
    refine ⟨?_, ?_, ?_⟩
    · intro o ho
      rcases List.mem_cons.mp ho with rfl | ho
      · exact Or.inl rfl
      · exact hst o ho
    · simp [tokenParens, depthAfter]
    · simp [countType]
      omega
  | rightParenToken =>
    simp only [evalStep] at h
    cases hr : reduceToParen rt numbers operators with
    | error e => simp [hr] at h
    | ok r1 =>
      simp only [hr] at h
      obtain ⟨popped, h1, h2, h3⟩ := reduceToParen_ok _ hr
      cases hr2 : r1.2 with
      | nil => simp [hr2] at h
      | cons o os =>
        simp only [hr2] at h
        split_ifs at h with hc
        cases h
        have ho : o = ['('] := by
          by_contra hne
          exact hc hne
        subst ho
        rw [hr2] at h1
        rw [h1] at hst
        refine ⟨?_, ?_, ?_⟩
        · intro o ho
          exact stackOK_of_append hst o (List.mem_cons_of_mem _ ho)
        · simp [tokenParens, depthAfter, h1, count_paren_append_of_none h2]
        · simp [countType, h1]
          omega

theorem evalStep_error {numbers : List rt.F} {operators : List (List Char)} {t : token}
    {e : CalcError} (hst : stackOK operators) (h : evalStep rt numbers operators t = .error e) :
    e = .ErrInvalidExpression ∨ e = .ErrDivisionByZero
      ∨ (e = .ErrInvalidToken ∧ t.tokenType = .numberToken ∧ rt.parseFloat t.value = none) := by
  obtain ⟨ty, val⟩ := t
  cases ty with
  | numberToken =>
    simp only [evalStep] at h
    cases hp : rt.parseFloat val with
    | none =>
      simp only [hp] at h
      cases h
      exact Or.inr (Or.inr ⟨rfl, rfl, rfl⟩)
    | some x => simp [hp] at h
  | operatorToken =>
    simp only [evalStep] at h
    cases hr : reduceWhile rt (precedence val) numbers operators with
    | error e1 =>
      simp only [hr] at h
      cases h
      rcases reduceWhile_error _ _ hst hr with h1 | h1
      · exact Or.inl h1
      · exact Or.inr (Or.inl h1)
    | ok r1 => simp [hr] at h
  | leftParenToken => simp [evalStep] at h
  | rightParenToken =>
    simp only [evalStep] at h
    cases hr : reduceToParen rt numbers operators with
    | error e1 =>
      simp only [hr] at h
      cases h
      rcases reduceToParen_error _ hst hr with h1 | h1
      · exact Or.inl h1
      · exact Or.inr (Or.inl h1)
    | ok r1 =>
      simp only [hr] at h
      cases hr2 : r1.2 with
      | nil =>
        simp only [hr2] at h
        cases h
        exact Or.inl rfl
      | cons o os =>
        simp only [hr2] at h
        split_ifs at h
        cases h
        exact Or.inl rfl

theorem evalLoop_ok (tokens : List token) : ∀ {numbers : List rt.F}
    {operators : List (List Char)} {r : List rt.F × List (List Char)},
    (∀ t ∈ tokens, tokenOK t) → stackOK operators →
    evalLoop rt numbers operators tokens = .ok r →
    stackOK r.2
      ∧ depthAfter (operators.count ['(']) (tokenParens tokens) = some (r.2.count ['('])
      ∧ r.1.length + operators.length + countType .operatorToken tokens
            + countType .leftParenToken tokens
          = numbers.length + countType .numberToken tokens + r.2.length
            + countType .rightParenToken tokens := by
  induction tokens with
  | nil =>
    intro numbers operators r _ hst h
    cases h
    exact ⟨hst, rfl, by simp [countType]⟩
  | cons t ts ih =>
    intro numbers operators r hok hst h
    simp only [evalLoop] at h
    cases hs : evalStep rt numbers operators t with
    | error e => simp [hs] at h
    | ok r1 =>
      simp only [hs] at h
      obtain ⟨a1, a2, a3⟩ := evalStep_ok (hok t (List.mem_cons_self _ _)) hst hs
      obtain ⟨b1, b2, b3⟩ := ih (fun x hx => hok x (List.mem_cons_of_mem _ hx)) a1 h
      refine ⟨b1, ?_, ?_⟩
      · have hsplit : tokenParens (t :: ts) = tokenParens [t] ++ tokenParens ts := by
          rw [← tokenParens_append]
          rfl
        rw [hsplit, depthAfter_append, a2]
        exact b2
      · rw [countType_cons .operatorToken, countType_cons .leftParenToken,
          countType_cons .numberToken, countType_cons .rightParenToken]
        omega

theorem evalLoop_error (tokens : List token) : ∀ {numbers : List rt.F}
    {operators : List (List Char)} {e : CalcError},
    (∀ t ∈ tokens, tokenOK t) → stackOK operators →
    evalLoop rt numbers operators tokens = .error e →
    e = .ErrInvalidExpression ∨ e = .ErrDivisionByZero
      ∨ (e = .ErrInvalidToken
          ∧ ∃ t ∈ tokens, t.tokenType = .numberToken ∧ rt.parseFloat t.value = none) := by
  induction tokens with
  | nil => intro numbers operators e _ _ h; cases h
  | cons t ts ih =>
    intro numbers operators e hok hst h
    simp only [evalLoop] at h
    cases hs : evalStep rt numbers operators t with
    | error e1 =>
      simp only [hs] at h
      cases h
      rcases evalStep_error hst hs with h1 | h1 | ⟨h1, h2, h3⟩
      · exact Or.inl h1
      · exact Or.inr (Or.inl h1)
      · exact Or.inr (Or.inr ⟨h1, t, List.mem_cons_self _ _, h2, h3⟩)
    | ok r1 =>
      simp only [hs] at h
      obtain ⟨a1, _, _⟩ := evalStep_ok (hok t (List.mem_cons_self _ _)) hst hs
      rcases ih (fun x hx => hok x (List.mem_cons_of_mem _ hx)) a1 h with
        h1 | h1 | ⟨h1, x, hx, h2, h3⟩
      · exact Or.inl h1
      · exact Or.inr (Or.inl h1)
      · exact Or.inr (Or.inr ⟨h1, x, List.mem_cons_of_mem _ hx, h2, h3⟩)

theorem stackOK_nil : stackOK [] := by
  intro o ho
  cases ho

/-- A token sequence that evaluates to a number has balanced parentheses, and its
operands outnumber its operators by one, parentheses counted along. -/
theorem evaluateTokens_ok {tokens : List token} {v : rt.F} (hok : ∀ t ∈ tokens, tokenOK t)
    (h : evaluateTokens rt tokens = .ok v) :
    balanced (tokenParens tokens) = true
      ∧ countType .numberToken tokens + countType .rightParenToken tokens
          = countType .operatorToken tokens + countType .leftParenToken tokens + 1 := by
  unfold evaluateTokens at h
  cases hl : evalLoop rt [] [] tokens with
  | error e => simp [hl] at h
  | ok r =>
    simp only [hl] at h
    obtain ⟨a1, a2, a3⟩ := evalLoop_ok tokens hok stackOK_nil hl
    cases hd : drainOperators rt r.1 r.2 with
    | error e => simp [hd] at h
    | ok n2 =>
      simp only [hd] at h
      obtain ⟨d1, d2⟩ := drainOperators_ok _ hd
      have hcount : r.2.count ['('] = 0 := List.count_eq_zero.mpr (fun hm => d1 _ hm rfl)
      have hlen : n2.length = 1 := by
        match n2, h with
        | [x], _ => rfl
      constructor
      · simp only [List.count_nil, hcount] at a2
        simp [balanced, a2]
      · simp only [List.length_nil] at a3
        omega

theorem evaluateTokens_error {tokens : List token} {e : CalcError}
    (hok : ∀ t ∈ tokens, tokenOK t) (h : evaluateTokens rt tokens = .error e) :
    e = .ErrInvalidExpression ∨ e = .ErrDivisionByZero
      ∨ (e = .ErrInvalidToken
          ∧ ∃ t ∈ tokens, t.tokenType = .numberToken ∧ rt.parseFloat t.value = none) := by
  unfold evaluateTokens at h
  cases hl : evalLoop rt [] [] tokens with
  | error e1 =>
    simp only [hl] at h
    cases h
    exact evalLoop_error tokens hok stackOK_nil hl
  | ok r =>
    simp only [hl] at h
    obtain ⟨a1, _, _⟩ := evalLoop_ok tokens hok stackOK_nil hl
    cases hd : drainOperators rt r.1 r.2 with
    | error e1 =>
      simp only [hd] at h
      cases h
      rcases drainOperators_error _ a1 hd with h1 | h1
      · exact Or.inl h1
      · exact Or.inr (Or.inl h1)
    | ok n2 =>
      simp only [hd] at h
      match n2, h with
      | [], h => cases h; exact Or.inl rfl
      | [x], h => cases h
      | _ :: _ :: _, h => cases h; exact Or.inl rfl

/-! ### Flat token sequences: counting operands and operators -/

theorem countType_single (ty : tokenType) (t : token) :
    countType ty [t] = if t.tokenType = ty then 1 else 0 := by
  unfold countType
  by_cases h : t.tokenType = ty <;> simp [List.filter_cons, h]

theorem countType_flat {tokens : List token}
    (h : ∀ t ∈ tokens, t.tokenType = .numberToken ∨ t.tokenType = .operatorToken) :
    countType .leftParenToken tokens = 0 ∧ countType .rightParenToken tokens = 0 := by
  unfold countType
  constructor
  · simp only [List.length_eq_zero, List.filter_eq_nil_iff]
    intro t ht
    rcases h t ht with h1 | h1 <;> simp [h1]
  · simp only [List.length_eq_zero, List.filter_eq_nil_iff]
    intro t ht
    rcases h t ht with h1 | h1 <;> simp [h1]

theorem tokenText_append (a b : List token) : tokenText (a ++ b) = tokenText a ++ tokenText b := by
  induction a with
  | nil => rfl
  | cons t ts ih => simp [tokenText, ih]

theorem flushNumber_text (st : scanState) :
    tokenText (flushNumber st).tokens ++ (flushNumber st).currentNumber
      = tokenText st.tokens ++ st.currentNumber := by
  unfold flushNumber
  split_ifs
  · simp [tokenText_append, tokenText]
  · rfl

theorem tokenizeStep_text {prev : Option Char} {st st1 : scanState} {c : Char}
    (h : tokenizeStep rt prev st c = .ok st1) :
    tokenText st1.tokens ++ st1.currentNumber
      = tokenText st.tokens ++ st.currentNumber ++ [c] := by
  have hf := flushNumber_text st
  unfold tokenizeStep at h
  split_ifs at h with h1 h2 h3 h4 h5 h6 h7 <;> cases h
  · simp
  · simp
  · simp only [← hf, List.append_assoc]
  · rw [← hf]
    simp [tokenText_append, tokenText, flushNumber_currentNumber]
  · subst h6
    rw [← hf]
    simp [tokenText_append, tokenText, flushNumber_currentNumber]
  · subst h7
    rw [← hf]
    simp [tokenText_append, tokenText, flushNumber_currentNumber]

theorem tokenizeLoop_text {s : List Char} : ∀ {prev : Option Char} {st st1 : scanState},
    tokenizeLoop rt prev st s = .ok st1 →
    tokenText st1.tokens ++ st1.currentNumber = tokenText st.tokens ++ st.currentNumber ++ s := by
  induction s with
  | nil => intro prev st st1 h; cases h; simp
  | cons c cs ih =>
    intro prev st st1 h
    unfold tokenizeLoop at h
    cases hs : tokenizeStep rt prev st c with
    | error e1 => rw [hs] at h; cases h
    | ok st2 =>
      rw [hs] at h
      rw [ih h, tokenizeStep_text hs]
      simp

theorem tokenize_text {s : List Char} {tokens : List token} (h : tokenize rt s = .ok tokens) :
    tokenText tokens = s := by
  unfold tokenize at h
  cases hs : tokenizeLoop rt none ⟨[], [], false⟩ s with
  | error e => rw [hs] at h; cases h
  | ok st =>
    rw [hs] at h
    cases h
    have h1 := flushNumber_text st
    rw [flushNumber_currentNumber, List.append_nil] at h1
    rw [h1, tokenizeLoop_text hs]
    simp [tokenText]

theorem mem_tokenText {tokens : List token} {t : token} {c : Char} (ht : t ∈ tokens)
    (hc : c ∈ t.value) : c ∈ tokenText tokens := by
  induction tokens with
  | nil => cases ht
  | cons x xs ih =>
    simp only [tokenText, List.mem_append]
    rcases List.mem_cons.mp ht with rfl | hx
    · exact Or.inl hc
    · exact Or.inr (ih hx)

theorem tokenizeStep_tokenizable {prev : Option Char} {st st1 : scanState} {c : Char}
    (h : tokenizeStep rt prev st c = .ok st1) : tokenizable rt c = true := by
  unfold tokenizeStep at h
  split_ifs at h with h1 h2 h3 h4 h5 h6 h7 <;> cases h <;> simp_all [tokenizable]

theorem tokenizeLoop_tokenizable {s : List Char} : ∀ {prev : Option Char} {st st1 : scanState},
    tokenizeLoop rt prev st s = .ok st1 → ∀ c ∈ s, tokenizable rt c = true := by
  induction s with
  | nil => intro prev st st1 _ c hc; cases hc
  | cons a cs ih =>
    intro prev st st1 h c hc
    unfold tokenizeLoop at h
    cases hs : tokenizeStep rt prev st a with
    | error e1 => rw [hs] at h; cases h
    | ok st2 =>
      rw [hs] at h
      rcases List.mem_cons.mp hc with rfl | hm
      · exact tokenizeStep_tokenizable hs
      · exact ih h c hm

theorem tokenize_tokenizable {s : List Char} {tokens : List token}
    (h : tokenize rt s = .ok tokens) : ∀ c ∈ s, tokenizable rt c = true := by
  unfold tokenize at h
  cases hs : tokenizeLoop rt none ⟨[], [], false⟩ s with
  | error e => rw [hs] at h; cases h
  | ok st => exact tokenizeLoop_tokenizable hs

/-! ### The form of Number tokens -/

theorem scanShape_flushed {st : scanState} (h : scanShape rt st) :
    scanShape rt (flushNumber st) := by
  unfold flushNumber
  split_ifs
  · constructor
    · exact ⟨[], ⟨Or.inl rfl, by simp, by simp⟩, by simp⟩
    · intro t ht hnum
      rcases List.mem_append.mp ht with ht | ht
      · exact h.emitted t ht hnum
      · simp only [List.mem_singleton] at ht
        subst ht
        obtain ⟨body, hb, _⟩ := h.buffer
        exact ⟨body, hb⟩
  · exact h

theorem scanShape_append_other {st : scanState} {t : token} (h : scanShape rt st)
    (ht : t.tokenType ≠ .numberToken) :
    scanShape rt { st with tokens := st.tokens ++ [t] } := by
  constructor
  · exact h.buffer
  · intro x hx hnum
    rcases List.mem_append.mp hx with hx | hx
    · exact h.emitted x hx hnum
    · simp only [List.mem_singleton] at hx
      subst hx
      exact absurd hnum ht

theorem tokenizeStep_shape {prev : Option Char} {st st1 : scanState} {c : Char}
    (hinv : scanShape rt st) (h : tokenizeStep rt prev st c = .ok st1) : scanShape rt st1 := by
  have hf := scanShape_flushed hinv
  have hcur := flushNumber_currentNumber st
  unfold tokenizeStep at h
  split_ifs at h with h1 h2 h3 h4 h5 h6 h7 <;> cases h
  · obtain ⟨g1, g2, g3, g4⟩ := unicodeIsDigit_not_delimiter h1
    obtain ⟨body, ⟨hb1, hb2, hb3⟩, hb4⟩ := hinv.buffer
    have hcount : (body ++ [c]).count '.' = body.count '.' := by
      rw [List.count_append, List.count_singleton]
      simp [g4]
    constructor
    · refine ⟨body ++ [c], ⟨?_, ?_, ?_⟩, ?_⟩
      · rcases hb1 with hb1 | hb1
        · exact Or.inl (by simp [hb1])
        · exact Or.inr (by simp [hb1])
      · intro x hx
        rcases List.mem_append.mp hx with hx | hx
        · exact hb2 x hx
        · simp only [List.mem_singleton] at hx
          subst hx
          exact Or.inl h1
      · rw [hcount]; exact hb3
      · intro hd
        rw [hcount]
        exact hb4 hd
    · exact hinv.emitted
  · subst h2
    obtain ⟨body, ⟨hb1, hb2, hb3⟩, hb4⟩ := hinv.buffer
    have hd0 : st.hasDecimal = false := by
      cases hd : st.hasDecimal with
      | false => rfl
      | true => exact absurd hd h3
    have hcount : (body ++ ['.']).count '.' = 1 := by
      rw [List.count_append, List.count_singleton, hb4 hd0]
      simp
    constructor
    · refine ⟨body ++ ['.'], ⟨?_, ?_, ?_⟩, ?_⟩
      · rcases hb1 with hb1 | hb1
        · exact Or.inl (by simp [hb1])
        · exact Or.inr (by simp [hb1])
      · intro x hx
        rcases List.mem_append.mp hx with hx | hx
        · exact hb2 x hx
        · simp only [List.mem_singleton] at hx
          exact Or.inr hx
      · rw [hcount]
      · intro hd
        cases hd
    · exact hinv.emitted
  · obtain ⟨hminus, _⟩ := h5
    subst hminus
    constructor
    · refine ⟨[], ⟨Or.inr ?_, by simp, by simp⟩, by simp⟩
      simp [hcur]
    · exact hf.emitted
  · exact scanShape_append_other hf (by simp)
  · exact scanShape_append_other hf (by simp)
  · exact scanShape_append_other hf (by simp)

theorem tokenizeLoop_shape {s : List Char} : ∀ {prev : Option Char} {st st1 : scanState},
    scanShape rt st → tokenizeLoop rt prev st s = .ok st1 → scanShape rt st1 := by
  induction s with
  | nil => intro prev st st1 hinv h; cases h; exact hinv
  | cons c cs ih =>
    intro prev st st1 hinv h
    unfold tokenizeLoop at h
    cases hs : tokenizeStep rt prev st c with
    | error e1 => rw [hs] at h; cases h
    | ok st2 =>
      rw [hs] at h
      exact ih (tokenizeStep_shape hinv hs) h

theorem tokenize_shape {s : List Char} {tokens : List token} (h : tokenize rt s = .ok tokens) :
    ∀ t ∈ tokens, t.tokenType = .numberToken → ∃ body, numeralShape rt t.value body := by
  unfold tokenize at h
  cases hs : tokenizeLoop rt none ⟨[], [], false⟩ s with
  | error e => rw [hs] at h; cases h
  | ok st =>
    rw [hs] at h
    cases h
    have hinit : scanShape rt ⟨[], [], false⟩ := by
      constructor
      · exact ⟨[], ⟨Or.inl rfl, by simp, by simp⟩, by simp⟩
      · intro t ht; cases ht
    exact (scanShape_flushed (tokenizeLoop_shape hinit hs)).emitted

/-! ### The token of an operator character -/

theorem tokenize_split {p q : List Char} {c : Char} {tokens : List token}
    (h : tokenize rt (p ++ c :: q) = .ok tokens) :
    ∃ st st1 st2, tokenizeLoop rt none ⟨[], [], false⟩ p = .ok st
      ∧ tokenizeStep rt (lastChar none p) st c = .ok st1
      ∧ tokenizeLoop rt (some c) st1 q = .ok st2
      ∧ tokens = (flushNumber st2).tokens := by
  unfold tokenize at h
  rw [tokenizeLoop_append] at h
  cases hp : tokenizeLoop rt none ⟨[], [], false⟩ p with
  | error e => rw [hp] at h; cases h
  | ok st =>
    rw [hp] at h
    simp only [tokenizeLoop] at h
    cases hs : tokenizeStep rt (lastChar none p) st c with
    | error e => rw [hs] at h; cases h
    | ok st1 =>
      rw [hs] at h
      simp only [] at h
      cases hq : tokenizeLoop rt (some c) st1 q with
      | error e => rw [hq] at h; cases h
      | ok st2 =>
        rw [hq] at h
        cases h
        exact ⟨st, st1, st2, rfl, hs, hq, rfl⟩

theorem tokenizeStep_operator {prev : Option Char} {st st1 : scanState} {c : Char}
    (hc : isOperator c = true) (h : tokenizeStep rt prev st c = .ok st1) :
    ((c = '-' ∧ unaryPosition prev) →
        st1.tokens = (flushNumber st).tokens ∧ st1.currentNumber = ['-'])
      ∧ (¬ (c = '-' ∧ unaryPosition prev) →
        st1.tokens = (flushNumber st).tokens ++ [⟨.operatorToken, [c]⟩]) := by
  obtain ⟨h1, _, h2, _, _, _⟩ := isOperator_facts rt hc
  have hcur := flushNumber_currentNumber st
  unfold tokenizeStep at h
  simp only [h1, h2, hc, if_true, if_false, Bool.false_eq_true] at h
  split_ifs at h with h5
  · cases h
    refine ⟨fun hu => ⟨rfl, ?_⟩, fun hn => absurd h5 hn⟩
    simp [hcur, hu.1]
  · cases h
    exact ⟨fun hu => absurd hu h5, fun _ => rfl⟩

theorem tokenizeStep_buffer {prev : Option Char} {st st1 : scanState} {a : Char}
    (h : tokenizeStep rt prev st a = .ok st1) :
    (st1.tokens = st.tokens ∧ st1.currentNumber = st.currentNumber ++ [a])
      ∨ ∃ more, st1.tokens = (flushNumber st).tokens ++ more := by
  unfold tokenizeStep at h
  split_ifs at h with h1 h2 h3 h4 h5 h6 h7 <;> cases h
  · exact Or.inl ⟨rfl, rfl⟩
  · exact Or.inl ⟨rfl, rfl⟩
  · exact Or.inr ⟨[], by simp⟩
  · exact Or.inr ⟨_, rfl⟩
  · exact Or.inr ⟨_, rfl⟩
  · exact Or.inr ⟨_, rfl⟩

/-- A numeral buffer that starts with a sign ends up as a Number token that starts
with that sign, right after the tokens emitted so far. -/
theorem tokenizeLoop_signed (q : List Char) : ∀ (prev : Option Char) (st st2 : scanState)
    (t : List Char), st.currentNumber = '-' :: t → tokenizeLoop rt prev st q = .ok st2 →
    ∃ text rest, (flushNumber st2).tokens = st.tokens ++ ⟨.numberToken, '-' :: text⟩ :: rest := by
  induction q with
  | nil =>
    intro prev st st2 t hcur h
    cases h
    obtain ⟨tokens, cur, hd⟩ := st
    simp only at hcur
    subst hcur
    exact ⟨t, [], by rw [flushNumber_cons]⟩
  | cons a q ih =>
    intro prev st st2 t hcur h
    unfold tokenizeLoop at h
    cases hs : tokenizeStep rt prev st a with
    | error e => rw [hs] at h; cases h
    | ok st1 =>
      rw [hs] at h
      rcases tokenizeStep_buffer hs with ⟨ht, hc⟩ | ⟨more, hm⟩
      · obtain ⟨text, rest, hres⟩ := ih (some a) st1 st2 (t ++ [a]) (by rw [hc, hcur]; rfl) h
        exact ⟨text, rest, by rw [hres, ht]⟩
      · obtain ⟨l1, hl1⟩ := tokenizeLoop_tokens h
        obtain ⟨l2, hl2⟩ := flushNumber_tokens st2
        obtain ⟨tokens, cur, hd⟩ := st
        simp only at hcur
        subst hcur
        rw [flushNumber_cons] at hm
        exact ⟨t, more ++ l1 ++ l2, by rw [hl2, hl1, hm]; simp⟩

theorem tokenize_of_loop {p : List Char} {st : scanState}
    (h : tokenizeLoop rt none ⟨[], [], false⟩ p = .ok st) :
    tokenize rt p = .ok (flushNumber st).tokens := by
  simp [tokenize, h]

/-! ### Operators of one precedence -/

theorem evaluateTokens_eq_from (tokens : List token) :
    evaluateTokens rt tokens = evaluateFrom rt [] [] tokens := rfl

theorem evaluateFrom_cons (numbers : List rt.F) (operators : List (List Char)) (t : token)
    (ts : List token) :
    evaluateFrom rt numbers operators (t :: ts) =
      match evalStep rt numbers operators t with
      | .error e => .error e
      | .ok r => evaluateFrom rt r.1 r.2 ts := by
  unfold evaluateFrom
  simp only [evalLoop]
  cases evalStep rt numbers operators t with
  | error e => rfl
  | ok r => rfl

/-- With one operator pending and the operators to come of its precedence, every
incoming operator first reduces the pending one: the result is the left fold. -/
theorem evaluateFrom_chain (rest : List (Char × List Char)) : ∀ (op : Char) (acc b r v : rt.F),
    isOperator op = true →
    (∀ p ∈ rest, isOperator p.1 = true ∧ precedence [p.1] = precedence [op]) →
    binValue rt op acc b = some r → leftFold rt r rest = some v →
    evaluateFrom rt [b, acc] [[op]] (chainTokens rest) = .ok v := by
  induction rest with
  | nil =>
    intro op acc b r v hop _ hr hv
    obtain ⟨_, hnp⟩ := precedence_operator hop
    simp only [leftFold, Option.some.injEq] at hv
    subst hv
    simp [evaluateFrom, chainTokens, evalLoop, drainOperators, hnp, reduceTop,
      applyOperator_operator hop, hr]
  | cons p rest ih =>
    intro op acc b r v hop hsame hr hv
    obtain ⟨_, hnp⟩ := precedence_operator hop
    obtain ⟨hop1, hprec1⟩ := hsame p (List.mem_cons_self _ _)
    simp only [leftFold] at hv
    cases hp : rt.parseFloat p.2 with
    | none => simp [hp] at hv
    | some b1 =>
      simp only [hp] at hv
      cases hb : binValue rt p.1 r b1 with
      | none => simp [hb] at hv
      | some r1 =>
        simp only [hb] at hv
        have hcond : [op] ≠ ['('] ∧ precedence [op] ≥ precedence [p.1] :=
          ⟨hnp, by omega⟩
        have hstep1 : evalStep rt [b, acc] [[op]] ⟨.operatorToken, [p.1]⟩
            = .ok ([r], [[p.1]]) := by
          simp only [evalStep, reduceWhile]
          rw [if_pos hcond]
          simp [reduceTop, applyOperator_operator hop, hr, reduceWhile]
        have hstep2 : evalStep rt [r] [[p.1]] ⟨.numberToken, p.2⟩ = .ok ([b1, r], [[p.1]]) := by
          simp [evalStep, hp]
        simp only [chainTokens]
        rw [evaluateFrom_cons, hstep1]
        simp only []
        rw [evaluateFrom_cons, hstep2]
        simp only []
        refine ih p.1 r b1 r1 v hop1 ?_ hb hv
        intro x hx
        obtain ⟨hx1, hx2⟩ := hsame x (List.mem_cons_of_mem _ hx)
        exact ⟨hx1, by omega⟩

/-! ### Matching parentheses -/

theorem depthAfter_counts (tokens : List token) : ∀ {d d1 : Nat},
    depthAfter d (tokenParens tokens) = some d1 →
    d1 + countType .rightParenToken tokens = d + countType .leftParenToken tokens := by
  induction tokens with
  | nil =>
    intro d d1 h
    simp only [tokenParens, depthAfter, Option.some.injEq] at h
    simp [countType, h]
  | cons t ts ih =>
    intro d d1 h
    rw [countType_cons .rightParenToken, countType_cons .leftParenToken,
      countType_single, countType_single]
    obtain ⟨ty, val⟩ := t
    cases ty with
    | numberToken =>
      simp only [tokenParens] at h
      have := ih h
      simp
      omega
    | operatorToken =>
      simp only [tokenParens] at h
      have := ih h
      simp
      omega
    | leftParenToken =>
      simp only [tokenParens, depthAfter] at h
      have := ih h
      simp
      omega
    | rightParenToken =>
      simp only [tokenParens, depthAfter] at h
      split_ifs at h with hd
      have := ih h
      simp
      omega

theorem depthAfter_prefix (a b : List Bool) {d d1 : Nat}
    (h : depthAfter d (a ++ b) = some d1) : ∃ d2, depthAfter d a = some d2 := by
  rw [depthAfter_append] at h
  cases ha : depthAfter d a with
  | none => rw [ha] at h; cases h
  | some d2 => exact ⟨d2, rfl⟩

/-- For tokens as `tokenize` emits them, a token sequence that evaluates to a number
has matching parentheses. -/
theorem parensMatched_of_ok {tokens : List token} {v : rt.F} (hok : ∀ t ∈ tokens, tokenOK t)
    (h : evaluateTokens rt tokens = .ok v) : parensMatched rt tokens := by
  have hb := (evaluateTokens_ok hok h).1
  have hd : depthAfter 0 (tokenParens tokens) = some 0 := by
    simpa [balanced] using hb
  refine ⟨?_, ?_, ?_⟩
  · intro pre post hsplit
    rw [hsplit, tokenParens_append] at hd
    obtain ⟨d2, hd2⟩ := depthAfter_prefix _ _ hd
    have := depthAfter_counts pre hd2
    omega
  · have := depthAfter_counts tokens hd
    omega
  · intro pre post r hsplit hl
    have hpre : ∀ t ∈ pre, tokenOK t := by
      intro t hm
      apply hok
      rw [hsplit]
      exact List.mem_append_left _ hm
    obtain ⟨_, a2, _⟩ := evalLoop_ok pre hpre stackOK_nil hl
    simp only [List.count_nil] at a2
    have := depthAfter_counts pre a2
    omega

/-! ### Termination: the budget that suffices -/

theorem reduceWhileFuel_eq (p : Nat) (operators : List (List Char)) :
    ∀ (fuel : Nat) (numbers : List rt.F), operators.length < fuel →
    reduceWhileFuel rt p fuel numbers operators = some (reduceWhile rt p numbers operators) := by
  induction operators with
  | nil =>
    intro fuel numbers h
    cases fuel with
    | zero => cases h
    | succ n => rfl
  | cons o os ih =>
    intro fuel numbers h
    cases fuel with
    | zero => cases h
    | succ n =>
      have hn : os.length < n := by simpa using h
      simp only [reduceWhileFuel, reduceWhile]
      split_ifs
      · cases reduceTop rt o numbers with
        | error e => rfl
        | ok n1 => exact ih n n1 hn
      · rfl

theorem reduceToParenFuel_eq (operators : List (List Char)) :
    ∀ (fuel : Nat) (numbers : List rt.F), operators.length < fuel →
    reduceToParenFuel rt fuel numbers operators = some (reduceToParen rt numbers operators) := by
  induction operators with
  | nil =>
    intro fuel numbers h
    cases fuel with
    | zero => cases h
    | succ n => rfl
  | cons o os ih =>
    intro fuel numbers h
    cases fuel with
    | zero => cases h
    | succ n =>
      have hn : os.length < n := by simpa using h
      simp only [reduceToParenFuel, reduceToParen]
      split_ifs
      · cases reduceTop rt o numbers with
        | error e => rfl
        | ok n1 => exact ih n n1 hn
      · rfl

theorem drainOperatorsFuel_eq (operators : List (List Char)) :
    ∀ (fuel : Nat) (numbers : List rt.F), operators.length < fuel →
    drainOperatorsFuel rt fuel numbers operators = some (drainOperators rt numbers operators) := by
  induction operators with
  | nil =>
    intro fuel numbers h
    cases fuel with
    | zero => cases h
    | succ n => rfl
  | cons o os ih =>
    intro fuel numbers h
    cases fuel with
    | zero => cases h
    | succ n =>
      have hn : os.length < n := by simpa using h
      simp only [drainOperatorsFuel, drainOperators]
      split_ifs
      · rfl
      · cases reduceTop rt o numbers with
        | error e => rfl
        | ok n1 => exact ih n n1 hn

theorem evalStepFuel_eq {fuel : Nat} (numbers : List rt.F) {operators : List (List Char)}
    (t : token) (h : operators.length < fuel) :
    evalStepFuel rt fuel numbers operators t = some (evalStep rt numbers operators t) := by
  obtain ⟨ty, val⟩ := t
  cases ty with
  | numberToken =>
    simp only [evalStepFuel, evalStep]
    cases rt.parseFloat val <;> rfl
  | operatorToken =>
    simp only [evalStepFuel, evalStep, reduceWhileFuel_eq _ _ _ _ h]
    cases reduceWhile rt (precedence val) numbers operators <;> rfl
  | leftParenToken => rfl
  | rightParenToken =>
    simp only [evalStepFuel, evalStep, reduceToParenFuel_eq _ _ _ h]
    cases hr : reduceToParen rt numbers operators with
    | error e => rfl
    | ok r =>
      simp only []
      cases r.2 with
      | nil => rfl
      | cons o os =>
        simp only []
        split_ifs <;> rfl

/-- The operator stack receives at most one push per token. -/
theorem evalStep_length {numbers : List rt.F} {operators : List (List Char)} {t : token}
    {r : List rt.F × List (List Char)} (h : evalStep rt numbers operators t = .ok r) :
    r.2.length ≤ operators.length + 1 := by
  obtain ⟨ty, val⟩ := t
  cases ty with
  | numberToken =>
    simp only [evalStep] at h
    cases hp : rt.parseFloat val with
    | none => simp [hp] at h
    | some x =>
      simp only [hp] at h
      cases h
      simp
  | operatorToken =>
    simp only [evalStep] at h
    cases hr : reduceWhile rt (precedence val) numbers operators with
    | error e => simp [hr] at h
    | ok r1 =>
      simp only [hr] at h
      cases h
      obtain ⟨popped, h1, _, _⟩ := reduceWhile_ok _ _ hr
      simp [h1]
  | leftParenToken =>
    simp only [evalStep] at h
    cases h
    simp
  | rightParenToken =>
    simp only [evalStep] at h
    cases hr : reduceToParen rt numbers operators with
    | error e => simp [hr] at h
    | ok r1 =>
      simp only [hr] at h
      obtain ⟨popped, h1, _, _⟩ := reduceToParen_ok _ hr
      cases hr2 : r1.2 with
      | nil => simp [hr2] at h
      | cons o os =>
        simp only [hr2] at h
        split_ifs at h
        cases h
        rw [hr2] at h1
        simp [h1]
        omega

theorem evalLoopFuel_eq {fuel : Nat} (tokens : List token) : ∀ (numbers : List rt.F)
    (operators : List (List Char)), operators.length + tokens.length < fuel →
    evalLoopFuel rt fuel numbers operators tokens = some (evalLoop rt numbers operators tokens) := by
  induction tokens with
  | nil => intro numbers operators _; rfl
  | cons t ts ih =>
    intro numbers operators h
    simp only [List.length_cons] at h
    simp only [evalLoopFuel, evalLoop, evalStepFuel_eq numbers t (by omega : operators.length < fuel)]
    cases hs : evalStep rt numbers operators t with
    | error e => rfl
    | ok r =>
      have := evalStep_length hs
      exact ih r.1 r.2 (by omega)

theorem evalLoop_length (tokens : List token) : ∀ {numbers : List rt.F}
    {operators : List (List Char)} {r : List rt.F × List (List Char)},
    evalLoop rt numbers operators tokens = .ok r →
    r.2.length ≤ operators.length + tokens.length := by
  induction tokens with
  | nil => intro numbers operators r h; cases h; simp
  | cons t ts ih =>
    intro numbers operators r h
    simp only [evalLoop] at h
    cases hs : evalStep rt numbers operators t with
    | error e => simp [hs] at h
    | ok r1 =>
      simp only [hs] at h
      have h1 := evalStep_length hs
      have h2 := ih h
      simp only [List.length_cons]
      omega

theorem evaluateTokensFuel_eq {fuel : Nat} (tokens : List token) (h : tokens.length < fuel) :
    evaluateTokensFuel rt fuel tokens = some (evaluateTokens rt tokens) := by
  unfold evaluateTokensFuel evaluateTokens
  rw [evalLoopFuel_eq tokens [] [] (by simpa using h)]
  cases hl : evalLoop rt [] [] tokens with
  | error e => rfl
  | ok r =>
    have hlen := evalLoop_length tokens hl
    simp only [List.length_nil, Nat.zero_add] at hlen
    simp only [drainOperatorsFuel_eq r.2 fuel r.1 (by omega)]
    cases drainOperators rt r.1 r.2 with
    | error e => rfl
    | ok ns =>
      match ns with
      | [] => rfl
      | [x] => rfl
      | _ :: _ :: _ => rfl

/-! ### No read out of range -/

theorem reduceTopChecked_eq (op : List Char) (numbers : List rt.F) :
    reduceTopChecked rt op numbers = some (reduceTop rt op numbers) := by
  match numbers with
  | [] => rfl
  | [_] => rfl
  | b :: a :: rest =>
    have h : ¬ (b :: a :: rest).length < 2 := by simp
    simp only [reduceTopChecked, reduceTop]
    rw [if_neg h]
    cases applyOperator rt op b a <;> rfl

theorem reduceWhileChecked_eq (p : Nat) (operators : List (List Char)) :
    ∀ numbers : List rt.F,
    reduceWhileChecked rt p numbers operators = some (reduceWhile rt p numbers operators) := by
  induction operators with
  | nil => intro numbers; rfl
  | cons o os ih =>
    intro numbers
    have hlen : (o :: os).length > 0 := by simp
    simp only [reduceWhileChecked, reduceWhile]
    rw [if_pos hlen]
    split_ifs
    · simp only [reduceTopChecked_eq]
      cases reduceTop rt o numbers with
      | error e => rfl
      | ok n1 => exact ih n1
    · rfl

theorem reduceToParenChecked_eq (operators : List (List Char)) :
    ∀ numbers : List rt.F,
    reduceToParenChecked rt numbers operators = some (reduceToParen rt numbers operators) := by
  induction operators with
  | nil => intro numbers; rfl
  | cons o os ih =>
    intro numbers
    have hlen : (o :: os).length > 0 := by simp
    simp only [reduceToParenChecked, reduceToParen]
    rw [if_pos hlen]
    split_ifs
    · simp only [reduceTopChecked_eq]
      cases reduceTop rt o numbers with
      | error e => rfl
      | ok n1 => exact ih n1
    · rfl

theorem drainOperatorsChecked_eq (operators : List (List Char)) :
    ∀ numbers : List rt.F,
    drainOperatorsChecked rt numbers operators = some (drainOperators rt numbers operators) := by
  induction operators with
  | nil => intro numbers; rfl
  | cons o os ih =>
    intro numbers
    have hlen : (o :: os).length > 0 := by simp
    simp only [drainOperatorsChecked, drainOperators]
    rw [if_pos hlen]
    split_ifs
    · rfl
    · simp only [reduceTopChecked_eq]
      cases reduceTop rt o numbers with
      | error e => rfl
      | ok n1 => exact ih n1

theorem evalStepChecked_eq (numbers : List rt.F) (operators : List (List Char)) (t : token) :
    evalStepChecked rt numbers operators t = some (evalStep rt numbers operators t) := by
  obtain ⟨ty, val⟩ := t
  cases ty with
  | numberToken =>
    simp only [evalStepChecked, evalStep]
    cases rt.parseFloat val <;> rfl
  | operatorToken =>
    simp only [evalStepChecked, evalStep, reduceWhileChecked_eq]
    cases reduceWhile rt (precedence val) numbers operators <;> rfl
  | leftParenToken => rfl
  | rightParenToken =>
    simp only [evalStepChecked, evalStep, reduceToParenChecked_eq]
    cases hr : reduceToParen rt numbers operators with
    | error e => rfl
    | ok r =>
      simp only []
      cases hr2 : r.2 with
      | nil => rfl
      | cons o os =>
        have hlen : ¬ (o :: os).length = 0 := by simp
        simp only []
        rw [if_neg hlen]
        split_ifs <;> rfl

theorem evalLoopChecked_eq (tokens : List token) : ∀ (numbers : List rt.F)
    (operators : List (List Char)),
    evalLoopChecked rt numbers operators tokens = some (evalLoop rt numbers operators tokens) := by
  induction tokens with
  | nil => intro numbers operators; rfl
  | cons t ts ih =>
    intro numbers operators
    simp only [evalLoopChecked, evalLoop, evalStepChecked_eq]
    cases evalStep rt numbers operators t with
    | error e => rfl
    | ok r => exact ih r.1 r.2

theorem evaluateTokensChecked_eq (tokens : List token) :
    evaluateTokensChecked rt tokens = some (evaluateTokens rt tokens) := by
  simp only [evaluateTokensChecked, evaluateTokens, evalLoopChecked_eq]
  cases evalLoop rt [] [] tokens with
  | error e => rfl
  | ok r =>
    simp only [drainOperatorsChecked_eq]
    cases drainOperators rt r.1 r.2 with
    | error e => rfl
    | ok ns =>
      match ns with
      | [] => rfl
      | [x] => rfl
      | _ :: _ :: _ => rfl

theorem get?_before_end {pre : List Char} (rest : List Char) (hne : pre ≠ []) :
    (pre ++ rest).get? (pre.length - 1) = pre.getLast? := by
  have hlt : pre.length - 1 < pre.length := by
    cases pre with
    | nil => exact absurd rfl hne
    | cons a as => simp
  rw [List.get?_eq_getElem?, List.getElem?_append_left hlt, List.getLast?_eq_getElem?]

theorem lookBackChecked_eq (expression : List Char) (i : Nat) (prev : Option Char)
    (c : Char) (h0 : i = 0 → prev = none)
    (h1 : i ≠ 0 → ∃ p, prev = some p ∧ expression.get? (i - 1) = some p) :
    ((c = '-' ∧ (prev = none ∨ (∃ p, prev = some p ∧ isOperator p = true)
          ∨ prev = some '(')) → lookBackChecked expression i c = some true)
      ∧ (¬ (c = '-' ∧ (prev = none ∨ (∃ p, prev = some p ∧ isOperator p = true)
          ∨ prev = some '(')) → lookBackChecked expression i c = some false) := by
  unfold lookBackChecked
  by_cases hm : c = '-'
  · rw [if_pos hm]
    by_cases hi : i = 0
    · rw [if_pos hi]
      exact ⟨fun _ => rfl, fun hn => absurd ⟨hm, Or.inl (h0 hi)⟩ hn⟩
    · rw [if_neg hi]
      obtain ⟨p, hp, hget⟩ := h1 hi
      subst hp
      rw [hget]
      constructor
      · rintro ⟨_, hun⟩
        rcases hun with hun | ⟨q, hq, hqo⟩ | hun
        · cases hun
        · cases hq
          simp [hqo]
        · cases hun
          simp
      · intro hn
        cases hb : (isOperator p || p == '(') with
        | false => simp only [hb]
        | true =>
          exfalso
          apply hn
          refine ⟨hm, ?_⟩
          simp only [Bool.or_eq_true, beq_iff_eq] at hb
          rcases hb with hb | hb
          · exact Or.inr (Or.inl ⟨p, rfl, hb⟩)
          · exact Or.inr (Or.inr (by rw [hb]))
  · rw [if_neg hm]
    exact ⟨fun hu => absurd hu.1 hm, fun _ => rfl⟩

theorem tokenizeStepChecked_eq (rt : Runtime) (expression : List Char) (i : Nat) (prev : Option Char)
    (st : scanState) (c : Char) (h0 : i = 0 → prev = none)
    (h1 : i ≠ 0 → ∃ p, prev = some p ∧ expression.get? (i - 1) = some p) :
    tokenizeStepChecked rt expression i st c = some (tokenizeStep rt prev st c) := by
  obtain ⟨hyes, hno⟩ := lookBackChecked_eq expression i prev c h0 h1
  unfold tokenizeStepChecked tokenizeStep
  by_cases g1 : unicodeIsDigit rt c = true
  · rw [if_pos g1, if_pos g1]
  · rw [if_neg g1, if_neg g1]
    by_cases g2 : c = '.'
    · rw [if_pos g2, if_pos g2]
      split_ifs <;> rfl
    · rw [if_neg g2, if_neg g2]
      by_cases g4 : isOperator c = true
      · rw [if_pos g4, if_pos g4]
        by_cases hu : c = '-' ∧ (prev = none ∨ (∃ p, prev = some p ∧ isOperator p = true)
            ∨ prev = some '(')
        · simp only [hyes hu]
          rw [if_pos hu]
        · simp only [hno hu]
          rw [if_neg hu]
      · rw [if_neg g4, if_neg g4]
        split_ifs <;> rfl

theorem tokenizeLoopChecked_eq (rt : Runtime) (expression : List Char) (rest : List Char) :
    ∀ (pre : List Char) (st : scanState), expression = pre ++ rest →
    tokenizeLoopChecked rt expression pre.length st rest
      = some (tokenizeLoop rt pre.getLast? st rest) := by
  induction rest with
  | nil => intro pre st _; rfl
  | cons c cs ih =>
    intro pre st hsplit
    have hstep := tokenizeStepChecked_eq rt expression pre.length pre.getLast? st c
      (by
        intro h
        rw [List.length_eq_zero] at h
        rw [h]
        rfl)
      (by
        intro h
        have hne : pre ≠ [] := fun hnil => h (by rw [hnil]; rfl)
        cases hl : pre.getLast? with
        | none => exact absurd (List.getLast?_eq_none_iff.mp hl) hne
        | some p =>
          refine ⟨p, rfl, ?_⟩
          rw [hsplit, get?_before_end _ hne, hl])
    simp only [tokenizeLoopChecked, tokenizeLoop, hstep]
    cases hs : tokenizeStep rt pre.getLast? st c with
    | error e => rfl
    | ok st1 =>
      have := ih (pre ++ [c]) st1 (by rw [hsplit]; simp)
      simp only [List.length_append, List.length_singleton, List.getLast?_concat] at this
      exact this

theorem tokenizeChecked_eq (expression : List Char) :
    tokenizeChecked rt expression = some (tokenize rt expression) := by
  have h := tokenizeLoopChecked_eq rt expression expression [] ⟨[], [], false⟩ rfl
  simp only [List.length_nil, List.getLast?_nil] at h
  simp only [tokenizeChecked, tokenize, h]
  cases tokenizeLoop rt none ⟨[], [], false⟩ expression <;> rfl

/-! ### A division by zero needs a division -/

/-- C4 (as amended): every input that contains a rune for which `tokenize` has no
case (not a decimal digit in the sense of `unicode.IsDigit`, not `.`, not an
operator, not a parenthesis, not a space) makes `Evaluate` fail with
`ErrInvalidToken`, whatever else the input contains and whatever digit table
the Go release ships. -/
theorem evaluate_unaccepted_rune (rt : Runtime) (s : List Char)
    (h : ∃ c ∈ s, accepted rt c = false) :
    Evaluate rt s = .error .ErrInvalidToken := by
  obtain ⟨c, hc, hacc⟩ := h
  have hsp : c ≠ ' ' := by
    intro hcs
    subst hcs
    simp [accepted] at hacc
  have hmem : c ∈ removeSpaces s := mem_removeSpaces.mpr ⟨hc, hsp⟩
  have hne : removeSpaces s ≠ [] := List.ne_nil_of_mem hmem
  exact Evaluate_of_scan_error hne (tokenizeLoop_unaccepted ⟨c, hmem, hacc⟩ _ _)

/-- C4, witness: the tab and the letter of the test `5+a`. -/
theorem evaluate_unaccepted_rune_witness :
    Evaluate go "5+a".toList = .error .ErrInvalidToken
      ∧ Evaluate go "(1/0\t".toList = .error .ErrInvalidToken :=
  ⟨evaluate_unaccepted_rune go _ ⟨'a', by decide, by decide⟩,
   evaluate_unaccepted_rune go _ ⟨'\t', by decide, by decide⟩⟩

/-- C4, counterexample: the input `5/0+` followed by U+0663 (ARABIC-INDIC DIGIT
THREE, code point 1635), a rune outside the alphabet of the claim;
`unicode.IsDigit` accepts it, so the scan succeeds and the division by zero is
met before the numeral is parsed. -/
theorem evaluate_foreign_digit_counterexample :
    (∃ c ∈ ['5', '/', '0', '+', Char.ofNat 1635], asciiAlphabet c = false)
      ∧ Evaluate go ['5', '/', '0', '+', Char.ofNat 1635] = .error .ErrDivisionByZero
      ∧ Evaluate go ['5', '/', '0', '+', Char.ofNat 1635] ≠ .error .ErrInvalidToken :=
  ⟨⟨Char.ofNat 1635, by decide, by decide⟩, by decide!, by decide!⟩

/-- C5: an input that is empty or consists only of space characters makes
`Evaluate` fail with `ErrInvalidExpression`. -/
theorem evaluate_blank (rt : Runtime) (s : List Char) (h : ∀ c ∈ s, c = ' ') :
    Evaluate rt s = .error .ErrInvalidExpression := by
  have hnil : removeSpaces s = [] := by
    simp only [removeSpaces, List.filter_eq_nil_iff]
    intro c hc
    simp [h c hc]
  simp [Evaluate, hnil]

/-- C5, witness: the empty input of the test suite and a run of three spaces. -/
theorem evaluate_blank_witness :
    Evaluate go "".toList = .error .ErrInvalidExpression
      ∧ Evaluate go "   ".toList = .error .ErrInvalidExpression :=
  ⟨evaluate_blank go _ (by decide), evaluate_blank go _ (by decide)⟩

/-- C6: two inputs that become equal once every space character is removed get
the same outcome from `Evaluate`, the same number or the same error. -/
theorem evaluate_ignores_spaces (rt : Runtime) (s t : List Char)
    (h : s.filter (fun c => c ≠ ' ') = t.filter (fun c => c ≠ ' ')) :
    Evaluate rt s = Evaluate rt t := by
  have h2 : removeSpaces s = removeSpaces t := h
  simp only [Evaluate, h2]

/-- C6, witness: `2 3` evaluates like `23`, and the padded input of the test suite
evaluates like `3+4*2`, to 11. -/
theorem evaluate_ignores_spaces_witness :
    Evaluate go "2 3".toList = Evaluate go "23".toList
      ∧ Evaluate go "23".toList = .ok (.finite 23)
      ∧ Evaluate go " 3 + 4 * 2 ".toList = Evaluate go "3+4*2".toList
      ∧ Evaluate go "3+4*2".toList = .ok (.finite 11) :=
  ⟨evaluate_ignores_spaces go _ _ (by decide), by decide!,
   evaluate_ignores_spaces go _ _ (by decide), by decide!⟩

/-- C7: an input with two `.` in one numeral run (no operator and no parenthesis
between them) makes `Evaluate` fail with `ErrInvalidToken`; and after the scan
of any prefix that ends in an operator or a parenthesis the decimal flag is
down, so that a `.` starting the next numeral is accepted. -/
theorem evaluate_second_point (rt : Runtime) :
    (∀ p m q : List Char, (∀ c ∈ m, isDelimiter c = false) →
        Evaluate rt (p ++ '.' :: (m ++ '.' :: q)) = .error .ErrInvalidToken)
      ∧ (∀ (p : List Char) (c : Char) (st : scanState), isDelimiter c = true →
          tokenizeLoop rt none ⟨[], [], false⟩ (p ++ [c]) = .ok st →
          st.hasDecimal = false ∧ ∃ st1, tokenizeStep rt (some c) st '.' = .ok st1) := by
  constructor
  · intro p m q hm
    have hsp : removeSpaces (p ++ '.' :: (m ++ '.' :: q))
        = removeSpaces p ++ '.' :: (removeSpaces m ++ '.' :: removeSpaces q) := by
      simp [removeSpaces]
    have hne : removeSpaces (p ++ '.' :: (m ++ '.' :: q)) ≠ [] := by
      rw [hsp]; simp
    refine Evaluate_of_scan_error hne ?_
    rw [hsp]
    refine tokenizeLoop_error_append _ (fun prev1 st1 => ?_)
    exact tokenizeLoop_two_points _ _ (fun c hc => hm c (mem_removeSpaces.mp hc).1) prev1 st1
  · intro p c st hc h
    rw [tokenizeLoop_append] at h
    have hinit : scanInv ⟨[], [], false⟩ := by intro hd; cases hd
    cases hp : tokenizeLoop rt none ⟨[], [], false⟩ p with
    | error e => rw [hp] at h; cases h
    | ok st0 =>
      rw [hp] at h
      have hinv0 := tokenizeLoop_inv hinit hp
      simp only [tokenizeLoop] at h
      cases hs : tokenizeStep rt (lastChar none p) st0 c with
      | error e => rw [hs] at h; cases h
      | ok st2 =>
        rw [hs] at h
        cases h
        have hd := tokenizeStep_delimiter_resets hinv0 hc hs
        refine ⟨hd, ?_⟩
        have h0 : unicodeIsDigit rt '.' = false := by rw [unicodeIsDigit_latin1 '.' (by decide)]; decide
        simp [tokenizeStep, h0, hd]

/-- C7, witness: `1.2.3` fails, also with spaces and digits around it, while in
`1.5+2.5` the second numeral may carry its own point. -/
theorem evaluate_second_point_witness :
    Evaluate go "1.2.3".toList = .error .ErrInvalidToken
      ∧ Evaluate go "(7+1. 2 5.3".toList = .error .ErrInvalidToken
      ∧ tokenize go "1.5+2.5".toList = .ok [⟨.numberToken, "1.5".toList⟩,
          ⟨.operatorToken, "+".toList⟩, ⟨.numberToken, "2.5".toList⟩]
      ∧ (∀ st, tokenizeLoop go none ⟨[], [], false⟩ "1.5+".toList = .ok st →
          st.hasDecimal = false ∧ ∃ st1, tokenizeStep go (some '+') st '.' = .ok st1) :=
  ⟨(evaluate_second_point go).1 "1".toList "2".toList "3".toList (by decide),
   (evaluate_second_point go).1 "(7+1".toList " 2 5".toList "3".toList (by decide),
   by decide,
   fun st h => (evaluate_second_point go).2 "1.5".toList '+' st (by decide) h⟩

/-- C8 (as amended): a minus sign in front of a parenthesis is not a negation: the
tokenizer flushes it as the Number token `-`, whose numeric parse fails.
`Evaluate` applied to `-(` followed by any text `E` and `)` fails with
`ErrInvalidToken`, and likewise when the `-(` follows a binary operator that
follows a well-formed expression `P` that evaluates: its numerals parse and no
division in it has a right operand that compares equal to zero, both in the
arithmetic of the runtime. -/
theorem evaluate_minus_paren (rt : Runtime) (P : Expr) (op : Char) (E : List Char)
    (hwf : P.wellFormed = true) (hpar : P.numeralsParse rt = true)
    (hz : P.zeroDivision rt = false) (hop : isOperator op = true) :
    Evaluate rt ('-' :: '(' :: (E ++ [')'])) = .error .ErrInvalidToken
      ∧ Evaluate rt (P.render ++ op :: '-' :: '(' :: (E ++ [')'])) = .error .ErrInvalidToken := by
  constructor
  · have hsp : removeSpaces ('-' :: '(' :: (E ++ [')']))
        = '-' :: '(' :: removeSpaces (E ++ [')']) := by
      simp [removeSpaces]
    have hne : removeSpaces ('-' :: '(' :: (E ++ [')'])) ≠ [] := by
      rw [hsp]; simp
    unfold Evaluate
    simp only [hne, if_false]
    unfold tokenize
    rw [hsp, tokenizeLoop_minus_paren [] none (Or.inl rfl)]
    cases hs : tokenizeLoop rt (some '(')
        ⟨[] ++ [⟨.numberToken, ['-']⟩, ⟨.leftParenToken, ['(']⟩], [], false⟩
        (removeSpaces (E ++ [')'])) with
    | error e =>
      have he := tokenizeLoop_error hs
      subst he
      rfl
    | ok st =>
      obtain ⟨l1, hl1⟩ := tokenizeLoop_tokens hs
      obtain ⟨l2, hl2⟩ := flushNumber_tokens st
      simp only [hl2, hl1, List.nil_append, List.cons_append, evaluateTokens,
        evalLoop_lone_minus]
  · obtain ⟨v, hv⟩ := value_some_of_no_zeroDivision P hwf hpar hz
    obtain ⟨_, _, _, _, hsp0⟩ := isOperator_chars hop
    have hsp : removeSpaces (P.render ++ op :: '-' :: '(' :: (E ++ [')']))
        = P.render ++ op :: '-' :: '(' :: removeSpaces (E ++ [')']) := by
      rw [removeSpaces_append, removeSpaces_render P hwf, removeSpaces_cons_of_ne hsp0,
        removeSpaces_cons_of_ne (by decide), removeSpaces_cons_of_ne (by decide)]
    have hne : removeSpaces (P.render ++ op :: '-' :: '(' :: (E ++ [')'])) ≠ [] := by
      rw [hsp]; simp
    obtain ⟨st1, hs1, hf1, hend1⟩ := tokenizeLoop_render rt P hwf none [] (Or.inl rfl)
    have hscan : tokenizeLoop rt none ⟨[], [], false⟩
        (P.render ++ op :: '-' :: '(' :: removeSpaces (E ++ [')']))
        = tokenizeLoop rt (some '(')
            ⟨P.toks ++ [⟨.operatorToken, [op]⟩]
              ++ [⟨.numberToken, ['-']⟩, ⟨.leftParenToken, ['(']⟩], [], false⟩
            (removeSpaces (E ++ [')'])) := by
      rw [tokenizeLoop_append, hs1]
      simp only [tokenizeLoop, tokenizeStep_binary st1 hop hend1, hf1, List.nil_append]
      exact tokenizeLoop_minus_paren _ (some op) (Or.inr (Or.inl ⟨op, rfl, hop⟩)) _
    unfold Evaluate
    simp only [hne, if_false]
    unfold tokenize
    rw [hsp, hscan]
    cases hs : tokenizeLoop rt (some '(')
        ⟨P.toks ++ [⟨.operatorToken, [op]⟩]
          ++ [⟨.numberToken, ['-']⟩, ⟨.leftParenToken, ['(']⟩], [], false⟩
        (removeSpaces (E ++ [')'])) with
    | error e =>
      have he := tokenizeLoop_error hs
      subst he
      rfl
    | ok st =>
      obtain ⟨l1, hl1⟩ := tokenizeLoop_tokens hs
      obtain ⟨l2, hl2⟩ := flushNumber_tokens st
      simp only [hl2, hl1, List.append_assoc, List.singleton_append, List.cons_append]
      exact evaluateTokens_lone_minus_after P hwf hv op _

/-- C8, witness: the two inputs of the claim, `-(2+3)` and `2*-(3)`. -/
theorem evaluate_minus_paren_witness :
    Evaluate go "-(2+3)".toList = .error .ErrInvalidToken
      ∧ Evaluate go "2*-(3)".toList = .error .ErrInvalidToken :=
  ⟨(evaluate_minus_paren go (.num false ['2']) '*' "2+3".toList
      (by decide) (by decide!) (by decide!) (by decide)).1,
   (evaluate_minus_paren go (.num false ['2']) '*' ['3']
      (by decide) (by decide!) (by decide!) (by decide)).2⟩

/-- C8, counterexample: `2+3` evaluates to 5, yet `-(2+3)` does not evaluate to -5
and `2*-(3)` does not evaluate to -6: both fail with `ErrInvalidToken`. -/
theorem evaluate_minus_paren_counterexample :
    Evaluate go "2+3".toList = .ok (.finite 5)
      ∧ Evaluate go "-(2+3)".toList = .error .ErrInvalidToken
      ∧ Evaluate go "2*-(3)".toList = .error .ErrInvalidToken := by
  decide!

/-- C1 (as amended): for every well-formed infix expression whose numerals
`strconv.ParseFloat` accepts and in which no division has a right operand that
evaluates, in the arithmetic of float64, to a number that compares equal to
zero, the reference evaluation (with `*` and `/` binding tighter than `+` and
`-`, equal precedence associating to the left and parentheses grouping, in
the arithmetic of float64) has a value, and `Evaluate` applied to the text of
the expression succeeds and returns that value. -/
theorem evaluate_wellformed (rt : Runtime) (e : Expr) (hwf : e.wellFormed = true)
    (hpar : e.numeralsParse rt = true) (hz : e.zeroDivision rt = false) :
    ∃ v, e.value rt = some v ∧ Evaluate rt e.render = .ok v := by
  obtain ⟨v, hv⟩ := value_some_of_no_zeroDivision e hwf hpar hz
  exact ⟨v, hv, by rw [Evaluate_render e hwf hpar, hv]⟩

/-- C1, witness: the three expressions of the claim, `3+4*2/(1-5)` gives 1,
`2+3*4-5` gives 9 and `((2+3)*4)-5` gives 15. -/
theorem evaluate_wellformed_witness :
    (∃ v, Expr.value go (.bin '+' (.num false ['3'])
          (.bin '/' (.bin '*' (.num false ['4']) (.num false ['2']))
            (.paren (.bin '-' (.num false ['1']) (.num false ['5']))))) = some v
        ∧ Evaluate go "3+4*2/(1-5)".toList = .ok v)
      ∧ (∃ v, Expr.value go (.bin '-' (.bin '+' (.num false ['2'])
          (.bin '*' (.num false ['3']) (.num false ['4']))) (.num false ['5'])) = some v
        ∧ Evaluate go "2+3*4-5".toList = .ok v)
      ∧ (∃ v, Expr.value go (.bin '-' (.paren (.bin '*'
          (.paren (.bin '+' (.num false ['2']) (.num false ['3'])))
          (.num false ['4']))) (.num false ['5'])) = some v
        ∧ Evaluate go "((2+3)*4)-5".toList = .ok v)
      ∧ Evaluate go "3+4*2/(1-5)".toList = .ok (.finite 1)
      ∧ Evaluate go "2+3*4-5".toList = .ok (.finite 9)
      ∧ Evaluate go "((2+3)*4)-5".toList = .ok (.finite 15) :=
  ⟨evaluate_wellformed go _ (by decide) (by decide!) (by decide!),
   evaluate_wellformed go _ (by decide) (by decide!) (by decide!),
   evaluate_wellformed go _ (by decide) (by decide!) (by decide!),
   by decide!, by decide!, by decide!⟩

set_option maxRecDepth 100000 in
/-- C1, counterexample: two well-formed expressions without a zero divisor on
which `Evaluate` fails.  The numeral `1` followed by 400 zeros is beyond the
range of float64: `strconv.ParseFloat` returns a range error and `Evaluate`
fails with `ErrInvalidToken`.  In `1/0.0...01`, with 400 zeros after the point,
the divisor is not zero, but it parses to the float64 zero and `Evaluate`
fails with `ErrDivisionByZero`. -/
theorem evaluate_wellformed_counterexample :
    Expr.wellFormed (.num false ('1' :: List.replicate 400 '0')) = true
      ∧ Evaluate go (Expr.render (.num false ('1' :: List.replicate 400 '0')))
          = .error .ErrInvalidToken
      ∧ Expr.wellFormed (.bin '/' (.num false ['1'])
          (.num false ('0' :: '.' :: (List.replicate 400 '0' ++ ['1'])))) = true
      ∧ Evaluate go (Expr.render (.bin '/' (.num false ['1'])
          (.num false ('0' :: '.' :: (List.replicate 400 '0' ++ ['1'])))))
          = .error .ErrDivisionByZero := by
  refine ⟨by decide!, by decide!, by decide!, by decide!⟩

/-- C2 (as amended): for every well-formed infix expression in which some division
has a right operand that evaluates, in the arithmetic of float64, to a number
that compares equal to zero, wherever that division sits, `Evaluate` fails and
returns no number.  It fails with `ErrDivisionByZero` when `strconv.ParseFloat`
accepts every numeral; when it rejects one, the failure is the first one that
the evaluation from left to right meets: `ErrDivisionByZero`, or the
`ErrInvalidToken` of a rejected numeral. -/
theorem evaluate_zero_division (rt : Runtime) (e : Expr) (hwf : e.wellFormed = true)
    (hz : e.zeroDivision rt = true) :
    (Evaluate rt e.render = .error .ErrDivisionByZero
        ∨ (Evaluate rt e.render = .error .ErrInvalidToken ∧ e.numeralsParse rt = false))
      ∧ (e.numeralsParse rt = true → Evaluate rt e.render = .error .ErrDivisionByZero)
      ∧ Evaluate rt e.render = e.outcome rt := by
  have hE : Evaluate rt e.render = e.outcome rt := Evaluate_outcome e hwf
  obtain ⟨err, herr⟩ := outcome_of_zeroDivision e hz
  refine ⟨?_, ?_, hE⟩
  · rw [hE, herr]
    rcases outcome_error e herr with h1 | ⟨h1, h2⟩
    · subst h1
      exact Or.inl rfl
    · subst h1
      exact Or.inr ⟨rfl, h2⟩
  · intro hpar
    rw [Evaluate_render e hwf hpar, value_none_of_zeroDivision e hz]

/-- C2, witness: `5/0` of the test suite, and a division by `(2-2)` nested under
other operators, `1+(3*(4/(2-2))-7)*2`. -/
theorem evaluate_zero_division_witness :
    Evaluate go "5/0".toList = .error .ErrDivisionByZero
      ∧ Evaluate go "1+(3*(4/(2-2))-7)*2".toList = .error .ErrDivisionByZero :=
  ⟨(evaluate_zero_division go (.bin '/' (.num false ['5']) (.num false ['0']))
      (by decide) (by decide!)).2.1 (by decide!),
   (evaluate_zero_division go
      (.bin '+' (.num false ['1'])
        (.bin '*'
          (.paren (.bin '-'
            (.bin '*' (.num false ['3'])
              (.paren (.bin '/' (.num false ['4'])
                (.paren (.bin '-' (.num false ['2']) (.num false ['2']))))))
            (.num false ['7'])))
          (.num false ['2'])))
      (by decide) (by decide!)).2.1 (by decide!)⟩

set_option maxRecDepth 100000 in
/-- C2, counterexample: in the well-formed expression `10...0+5/0`, whose first
numeral is `1` followed by 400 zeros, a division has the right operand `0`, yet
`Evaluate` fails with `ErrInvalidToken`: the first numeral is beyond the range
of float64 and its parse fails before the division is reached. -/
theorem evaluate_zero_division_counterexample :
    Expr.wellFormed (.bin '+' (.num false ('1' :: List.replicate 400 '0'))
        (.bin '/' (.num false ['5']) (.num false ['0']))) = true
      ∧ Expr.zeroDivision go (.bin '+' (.num false ('1' :: List.replicate 400 '0'))
        (.bin '/' (.num false ['5']) (.num false ['0']))) = true
      ∧ Evaluate go (Expr.render (.bin '+' (.num false ('1' :: List.replicate 400 '0'))
        (.bin '/' (.num false ['5']) (.num false ['0']))))
          = .error .ErrInvalidToken := by
  refine ⟨by decide!, by decide!, by decide!⟩

/-- C9 (as amended): for all unsigned numerals `a` and `b`, the input `a--b` is
tokenized as Number `a`, Operator `-`, Number `-b`: the first minus follows an
operand and is binary, the second follows an operator and is a sign.  `Evaluate`
therefore does not fail with `ErrInvalidExpression`: it returns `a - (-b)` when
`strconv.ParseFloat` accepts the two Number tokens, and fails with
`ErrInvalidToken` when it rejects one of them. -/
theorem evaluate_double_minus (rt : Runtime) (a b : List Char) (ha : validBody a = true)
    (hb : validBody b = true) :
    tokenize rt (a ++ '-' :: '-' :: b)
        = .ok [⟨.numberToken, a⟩, ⟨.operatorToken, ['-']⟩, ⟨.numberToken, '-' :: b⟩]
      ∧ (∀ x y, rt.parseFloat a = some x → rt.parseFloat ('-' :: b) = some y →
          Evaluate rt (a ++ '-' :: '-' :: b) = .ok (rt.sub x y))
      ∧ (rt.parseFloat a = none ∨ rt.parseFloat ('-' :: b) = none →
          Evaluate rt (a ++ '-' :: '-' :: b) = .error .ErrInvalidToken) := by
  have hwf : (Expr.bin '-' (.num false a) (.num true b)).wellFormed = true := by
    simp [Expr.wellFormed, Expr.rank, ha, hb, isOperator]
  have ht : tokenize rt (Expr.bin '-' (.num false a) (.num true b)).render = _ :=
    tokenize_render _ hwf
  have hsp := removeSpaces_render _ hwf
  have hne := render_ne_nil _ hwf
  simp only [Expr.render, Expr.toks, if_true, if_false,
    List.nil_append, List.singleton_append, List.cons_append, Bool.false_eq_true]
    at ht hsp hne
  refine ⟨ht, ?_, ?_⟩
  · intro x y hx hy
    unfold Evaluate
    simp only [hsp, hne, if_false, ht]
    simp [evaluateTokens, evalLoop, evalStep, reduceWhile, drainOperators, reduceTop,
      applyOperator, hx, hy]
  · intro h
    unfold Evaluate
    simp only [hsp, hne, if_false, ht]
    cases hx : rt.parseFloat a with
    | none => simp [evaluateTokens, evalLoop, evalStep, hx]
    | some x =>
      have hy : rt.parseFloat ('-' :: b) = none := by
        rcases h with h | h
        · rw [hx] at h; cases h
        · exact h
      simp [evaluateTokens, evalLoop, evalStep, reduceWhile, hx, hy]

/-- C9, witness: `3--2` is 3 - (-2) and `1.5--.25` is 1.5 - (-0.25). -/
theorem evaluate_double_minus_witness :
    tokenize go "3--2".toList
        = .ok [⟨.numberToken, ['3']⟩, ⟨.operatorToken, ['-']⟩, ⟨.numberToken, ['-', '2']⟩]
      ∧ Evaluate go "3--2".toList = .ok (go.sub (.finite 3) (.finite (-2)))
      ∧ tokenize go "1.5--.25".toList
        = .ok [⟨.numberToken, "1.5".toList⟩, ⟨.operatorToken, ['-']⟩,
            ⟨.numberToken, "-.25".toList⟩]
      ∧ Evaluate go "1.5--.25".toList = .ok (go.sub (.finite (3 / 2)) (.finite (-1 / 4))) :=
  ⟨(evaluate_double_minus go ['3'] ['2'] (by decide) (by decide)).1,
   (evaluate_double_minus go ['3'] ['2'] (by decide) (by decide)).2.1 _ _
      (by decide!) (by decide!),
   (evaluate_double_minus go "1.5".toList ".25".toList (by decide) (by decide)).1,
   (evaluate_double_minus go "1.5".toList ".25".toList (by decide) (by decide)).2.1 _ _
      (by decide!) (by decide!)⟩

/-- C9, counterexample: `3--2` has an Operator token between its two Number tokens
and evaluates to 5; it does not fail with `ErrInvalidExpression`. -/
theorem evaluate_double_minus_counterexample :
    tokenize go "3--2".toList
        = .ok [⟨.numberToken, ['3']⟩, ⟨.operatorToken, ['-']⟩, ⟨.numberToken, ['-', '2']⟩]
      ∧ Evaluate go "3--2".toList = .ok (.finite 5)
      ∧ Evaluate go "3--2".toList ≠ .error .ErrInvalidExpression := by
  decide!

/-- C14: `Evaluate` never returns `ErrInvalidOperator`, for any input string; and
after any number of tokens of a tokenization have been processed, the operator
stack holds only the symbols `+ - * /` and the marker `(`. -/
theorem evaluate_never_invalid_operator (rt : Runtime) :
    (∀ s : List Char, Evaluate rt s ≠ .error .ErrInvalidOperator)
      ∧ (∀ (s : List Char) (tokens pre post : List token) (r : List rt.F × List (List Char)),
          tokenize rt s = .ok tokens → tokens = pre ++ post → evalLoop rt [] [] pre = .ok r →
          stackOK r.2) := by
  constructor
  · intro s
    unfold Evaluate
    simp only []
    split_ifs with hnil
    · intro h; cases h
    · cases ht : tokenize rt (removeSpaces s) with
      | error e =>
        have he := tokenize_error ht
        subst he
        intro h; cases h
      | ok tokens =>
        simp only []
        intro hv
        rcases evaluateTokens_error (tokenize_tokenOK ht) hv with h1 | h1 | ⟨h1, _⟩ <;> cases h1
  · intro s tokens pre post r ht hsplit hl
    have hok := tokenize_tokenOK ht
    have hpre : ∀ t ∈ pre, tokenOK t := by
      intro t hm
      apply hok
      rw [hsplit]
      exact List.mem_append_left _ hm
    exact (evalLoop_ok pre hpre stackOK_nil hl).1

/-- C20 (as amended): `applyOperator(op, b, a)`, with its operand arguments in the
order of the source (first the right operand `b`, the most recently pushed one,
then the left operand `a`), returns `a+b`, `a-b`, `a*b` for `+`, `-`, `*`; for
`/` it returns `a/b` when `b` is not 0 and fails with `ErrDivisionByZero`
exactly when `b` is 0, in the sense of the comparison `b == 0`; it fails with
`ErrInvalidOperator` exactly when `op` is not one of `+ - * /`.  The sum, the
difference, the product and the quotient are those of float64. -/
theorem applyOperator_spec (rt : Runtime) (op : List Char) (b a : rt.F) :
    (op = ['+'] → applyOperator rt op b a = .ok (rt.add a b))
      ∧ (op = ['-'] → applyOperator rt op b a = .ok (rt.sub a b))
      ∧ (op = ['*'] → applyOperator rt op b a = .ok (rt.mul a b))
      ∧ (op = ['/'] → rt.isZero b = false → applyOperator rt op b a = .ok (rt.div a b))
      ∧ (applyOperator rt op b a = .error .ErrDivisionByZero ↔
          op = ['/'] ∧ rt.isZero b = true)
      ∧ (applyOperator rt op b a = .error .ErrInvalidOperator ↔
          op ≠ ['+'] ∧ op ≠ ['-'] ∧ op ≠ ['*'] ∧ op ≠ ['/']) := by
  refine ⟨?_, ?_, ?_, ?_, ?_, ?_⟩
  · intro h; subst h; simp [applyOperator]
  · intro h; subst h; simp [applyOperator]
  · intro h; subst h; simp [applyOperator]
  · intro h hb; subst h; simp [applyOperator, hb]
  · unfold applyOperator
    split_ifs with h1 h2 h3 h4 h5 <;> simp_all
  · unfold applyOperator
    split_ifs with h1 h2 h3 h4 h5 <;> simp_all

/-- C20, witness: with the operands in the order of the source,
`applyOperator("-", 3, 5)` is `5 - 3`, that is 2. -/
theorem applyOperator_spec_witness :
    applyOperator go "-".toList (.finite 3) (.finite 5)
        = .ok (go.sub (.finite 5) (.finite 3))
      ∧ go.sub (.finite 5) (.finite 3) = .finite 2
      ∧ applyOperator go "/".toList (.finite 0) (.finite 5) = .error .ErrDivisionByZero :=
  ⟨(applyOperator_spec go "-".toList (.finite 3) (.finite 5)).2.1 rfl, by decide!,
   (applyOperator_spec go "/".toList (.finite 0) (.finite 5)).2.2.2.2.1.mpr ⟨rfl, rfl⟩⟩

/-- C20, counterexample: `applyOperator("-", 5, 3)` is not 2 but -2, because the
first operand argument is the right operand; likewise `applyOperator("/", 0, 5)`
fails with `ErrDivisionByZero` and `applyOperator("/", 5, 0)` returns 0. -/
theorem applyOperator_order_counterexample :
    applyOperator go "-".toList (.finite 5) (.finite 3) = .ok (.finite (-2))
      ∧ applyOperator go "-".toList (.finite 5) (.finite 3) ≠ .ok (.finite 2)
      ∧ applyOperator go "/".toList (.finite 0) (.finite 5) = .error .ErrDivisionByZero
      ∧ applyOperator go "/".toList (.finite 5) (.finite 0) = .ok (.finite 0) := by
  decide!

/-- C13 (as amended): every Number token that `tokenize` emits is non-empty and
consists of an optional leading `-`, then digits in the sense of
`unicode.IsDigit` and at most one `.`.  It need not hold a digit, and its
numeric parse can fail. -/
theorem number_token_form (rt : Runtime) (s : List Char) (tokens : List token)
    (h : tokenize rt s = .ok tokens) :
    ∀ t ∈ tokens, t.tokenType = .numberToken →
      t.value ≠ [] ∧ ∃ body, numeralShape rt t.value body := by
  intro t ht hnum
  obtain ⟨body, hb⟩ := tokenize_shape h t ht hnum
  have hok := tokenize_tokenOK h t ht
  refine ⟨?_, body, hb⟩
  unfold tokenOK at hok
  rw [hnum] at hok
  exact hok

/-- C13, witness: the Number tokens `-3.5` and `.2` of the input `-3.5+.2*(7)`. -/
theorem number_token_form_witness :
    ("-3.5".toList ≠ [] ∧ ∃ body, numeralShape go "-3.5".toList body)
      ∧ (".2".toList ≠ [] ∧ ∃ body, numeralShape go ".2".toList body) :=
  ⟨number_token_form go "-3.5+.2*(7)".toList
      [⟨.numberToken, "-3.5".toList⟩, ⟨.operatorToken, ['+']⟩, ⟨.numberToken, ".2".toList⟩,
        ⟨.operatorToken, ['*']⟩, ⟨.leftParenToken, ['(']⟩, ⟨.numberToken, ['7']⟩,
        ⟨.rightParenToken, [')']⟩]
      (by decide) ⟨.numberToken, "-3.5".toList⟩ (by decide) rfl,
   number_token_form go "-3.5+.2*(7)".toList
      [⟨.numberToken, "-3.5".toList⟩, ⟨.operatorToken, ['+']⟩, ⟨.numberToken, ".2".toList⟩,
        ⟨.operatorToken, ['*']⟩, ⟨.leftParenToken, ['(']⟩, ⟨.numberToken, ['7']⟩,
        ⟨.rightParenToken, [')']⟩]
      (by decide) ⟨.numberToken, ".2".toList⟩ (by decide) rfl⟩

/-- C13, counterexample: the input `-` tokenizes into the single Number token `-`,
which holds no digit; its numeric parse fails and `Evaluate` returns
`ErrInvalidToken` from the Number case of `evaluateTokens`. -/
theorem number_token_counterexample :
    tokenize go "-".toList = .ok [⟨.numberToken, ['-']⟩]
      ∧ (∀ c ∈ ['-'], unicodeIsDigit go c = false)
      ∧ go.parseFloat ['-'] = none
      ∧ evaluateTokens go [⟨.numberToken, ['-']⟩] = .error .ErrInvalidToken
      ∧ Evaluate go "-".toList = .error .ErrInvalidToken := by
  decide!

/-- C15 (as amended): for every input on which `tokenize` succeeds, no Number
token is empty, every Operator token holds exactly one of `+ - * /`, every
parenthesis token holds the parenthesis of its type, and every character of
every token is one that `tokenize` has a case for: a decimal digit in the sense
of `unicode.IsDigit`, a `.`, an operator or a parenthesis. -/
theorem token_sequence_invariant (rt : Runtime) (s : List Char) (tokens : List token)
    (h : tokenize rt s = .ok tokens) :
    ∀ t ∈ tokens,
      (t.tokenType = .numberToken → t.value ≠ [])
        ∧ (t.tokenType = .operatorToken →
            t.value = ['+'] ∨ t.value = ['-'] ∨ t.value = ['*'] ∨ t.value = ['/'])
        ∧ (t.tokenType = .leftParenToken → t.value = ['('])
        ∧ (t.tokenType = .rightParenToken → t.value = [')'])
        ∧ ∀ c ∈ t.value, tokenizable rt c = true := by
  intro t ht
  have hok := tokenize_tokenOK h t ht
  have htext := tokenize_text h
  have hchars := tokenize_tokenizable h
  refine ⟨?_, ?_, ?_, ?_, ?_⟩
  · intro hty
    unfold tokenOK at hok
    rw [hty] at hok
    exact hok
  · intro hty
    unfold tokenOK at hok
    rw [hty] at hok
    obtain ⟨op, hop, hval⟩ := hok
    rw [hval]
    rcases isOperator_iff.mp hop with rfl | rfl | rfl | rfl <;> simp
  · intro hty
    unfold tokenOK at hok
    rw [hty] at hok
    exact hok
  · intro hty
    unfold tokenOK at hok
    rw [hty] at hok
    exact hok
  · intro c hc
    apply hchars
    rw [← htext]
    exact mem_tokenText ht hc

/-- C15, witness: the Number token `-3.5` and the Operator token `*` of the input
`-3.5+.2*(7)`. -/
theorem token_sequence_invariant_witness :
    ("-3.5".toList ≠ [] ∧ ∀ c ∈ "-3.5".toList, tokenizable go c = true)
      ∧ ((['*'] = ['+'] ∨ ['*'] = ['-'] ∨ ['*'] = ['*'] ∨ ['*'] = ['/'])
        ∧ ∀ c ∈ ['*'], tokenizable go c = true) :=
  ⟨⟨(token_sequence_invariant go "-3.5+.2*(7)".toList
        [⟨.numberToken, "-3.5".toList⟩, ⟨.operatorToken, ['+']⟩, ⟨.numberToken, ".2".toList⟩,
          ⟨.operatorToken, ['*']⟩, ⟨.leftParenToken, ['(']⟩, ⟨.numberToken, ['7']⟩,
          ⟨.rightParenToken, [')']⟩]
        (by decide) ⟨.numberToken, "-3.5".toList⟩ (by decide)).1 rfl,
     (token_sequence_invariant go "-3.5+.2*(7)".toList
        [⟨.numberToken, "-3.5".toList⟩, ⟨.operatorToken, ['+']⟩, ⟨.numberToken, ".2".toList⟩,
          ⟨.operatorToken, ['*']⟩, ⟨.leftParenToken, ['(']⟩, ⟨.numberToken, ['7']⟩,
          ⟨.rightParenToken, [')']⟩]
        (by decide) ⟨.numberToken, "-3.5".toList⟩ (by decide)).2.2.2.2⟩,
   ⟨(token_sequence_invariant go "-3.5+.2*(7)".toList
        [⟨.numberToken, "-3.5".toList⟩, ⟨.operatorToken, ['+']⟩, ⟨.numberToken, ".2".toList⟩,
          ⟨.operatorToken, ['*']⟩, ⟨.leftParenToken, ['(']⟩, ⟨.numberToken, ['7']⟩,
          ⟨.rightParenToken, [')']⟩]
        (by decide) ⟨.operatorToken, ['*']⟩ (by decide)).2.1 rfl,
     (token_sequence_invariant go "-3.5+.2*(7)".toList
        [⟨.numberToken, "-3.5".toList⟩, ⟨.operatorToken, ['+']⟩, ⟨.numberToken, ".2".toList⟩,
          ⟨.operatorToken, ['*']⟩, ⟨.leftParenToken, ['(']⟩, ⟨.numberToken, ['7']⟩,
          ⟨.rightParenToken, [')']⟩]
        (by decide) ⟨.operatorToken, ['*']⟩ (by decide)).2.2.2.2⟩⟩

/-- C15, counterexample: the input that consists of U+0663 (ARABIC-INDIC DIGIT
THREE, code point 1635) tokenizes into one Number token that holds this rune,
a character outside the alphabet of the claim (the digits 0-9, `.`, the
operators, the parentheses and the space). -/
theorem token_alphabet_counterexample :
    tokenize go [Char.ofNat 1635] = .ok [⟨.numberToken, [Char.ofNat 1635]⟩]
      ∧ asciiAlphabet (Char.ofNat 1635) = false := by
  decide

/-- C17: for every input on which `tokenize` succeeds, concatenating the value
fields of the emitted tokens in order yields exactly the input. -/
theorem tokenize_preserves_text (rt : Runtime) (s : List Char) (tokens : List token)
    (h : tokenize rt s = .ok tokens) : tokenText tokens = s :=
  tokenize_text h

/-- C17, witness: the tokens of `-3.5+.2*(7)` spell the input. -/
theorem tokenize_preserves_text_witness :
    tokenText [(⟨.numberToken, "-3.5".toList⟩ : token), ⟨.operatorToken, ['+']⟩,
        ⟨.numberToken, ".2".toList⟩, ⟨.operatorToken, ['*']⟩, ⟨.leftParenToken, ['(']⟩,
        ⟨.numberToken, ['7']⟩, ⟨.rightParenToken, [')']⟩] = "-3.5+.2*(7)".toList :=
  tokenize_preserves_text go "-3.5+.2*(7)".toList _ (by decide)

/-- C12: on every input on which `tokenize` succeeds, an operator character `c` at
a position `i` (after the prefix `p`, so that the character at `i-1` is the
last one of `p`) yields, right after the tokens of `p`, an Operator token,
unless `c` is `-` and `i` is 0 or the character at `i-1` is an operator or `(`;
in that case no Operator token is emitted for it and the `-` is the first
character of the next Number token. -/
theorem unary_minus_positional (rt : Runtime) (p q : List Char) (c : Char) (tokens : List token)
    (hc : isOperator c = true) (h : tokenize rt (p ++ c :: q) = .ok tokens) :
    ∃ before, tokenize rt p = .ok before
      ∧ ((c = '-' ∧ unaryPosition (lastChar none p)) →
          ∃ text rest, tokens = before ++ ⟨.numberToken, '-' :: text⟩ :: rest)
      ∧ (¬ (c = '-' ∧ unaryPosition (lastChar none p)) →
          ∃ rest, tokens = before ++ ⟨.operatorToken, [c]⟩ :: rest) := by
  obtain ⟨st, st1, st2, hp, hs, hq, htok⟩ := tokenize_split h
  obtain ⟨hun, hbin⟩ := tokenizeStep_operator hc hs
  refine ⟨(flushNumber st).tokens, tokenize_of_loop hp, ?_, ?_⟩
  · intro hu
    obtain ⟨ht, hcur⟩ := hun hu
    obtain ⟨text, rest, hres⟩ := tokenizeLoop_signed q (some c) st1 st2 [] hcur hq
    exact ⟨text, rest, by rw [htok, hres, ht]⟩
  · intro hn
    have ht := hbin hn
    obtain ⟨l1, hl1⟩ := tokenizeLoop_tokens hq
    obtain ⟨l2, hl2⟩ := flushNumber_tokens st2
    exact ⟨l1 ++ l2, by rw [htok, hl2, hl1, ht]; simp⟩

/-- C12, witness: `-3+4` tokenizes to Number `-3`, Operator `+`, Number `4`: the
`-` at position 0 opens the Number token, the `+` after `3` is an Operator
token, and in `2*-3` the `-` after `*` is a sign again. -/
theorem unary_minus_positional_witness :
    tokenize go "-3+4".toList
        = .ok [⟨.numberToken, "-3".toList⟩, ⟨.operatorToken, ['+']⟩, ⟨.numberToken, ['4']⟩]
      ∧ (∃ before, tokenize go "".toList = .ok before
        ∧ (('-' = '-' ∧ unaryPosition (lastChar none "".toList)) →
            ∃ text rest, [(⟨.numberToken, "-3".toList⟩ : token), ⟨.operatorToken, ['+']⟩,
              ⟨.numberToken, ['4']⟩] = before ++ ⟨.numberToken, '-' :: text⟩ :: rest)
        ∧ (¬ ('-' = '-' ∧ unaryPosition (lastChar none "".toList)) →
            ∃ rest, [(⟨.numberToken, "-3".toList⟩ : token), ⟨.operatorToken, ['+']⟩,
              ⟨.numberToken, ['4']⟩] = before ++ ⟨.operatorToken, ['-']⟩ :: rest))
      ∧ (∃ before, tokenize go "-3".toList = .ok before
        ∧ (('+' = '-' ∧ unaryPosition (lastChar none "-3".toList)) →
            ∃ text rest, [(⟨.numberToken, "-3".toList⟩ : token), ⟨.operatorToken, ['+']⟩,
              ⟨.numberToken, ['4']⟩] = before ++ ⟨.numberToken, '-' :: text⟩ :: rest)
        ∧ (¬ ('+' = '-' ∧ unaryPosition (lastChar none "-3".toList)) →
            ∃ rest, [(⟨.numberToken, "-3".toList⟩ : token), ⟨.operatorToken, ['+']⟩,
              ⟨.numberToken, ['4']⟩] = before ++ ⟨.operatorToken, ['+']⟩ :: rest)) :=
  ⟨by decide,
   unary_minus_positional go "".toList "3+4".toList '-' _ (by decide) (by decide),
   unary_minus_positional go "-3".toList "4".toList '+' _ (by decide) (by decide)⟩

/-- C11 (as amended): for every parenthesis-free token sequence `n0 op1 n1 ... opk nk` whose
operators are all among `+ -` or all among `* /`, and whose left fold
`(((n0 op1 n1) op2 n2) ... opk nk)` is defined (`strconv.ParseFloat` accepts
the numerals and no divisor compares equal to zero, in the arithmetic of
float64), `evaluateTokens` returns that left fold, each step computing `a op b`
with `b` the operand pushed last. -/
theorem evaluateTokens_left_fold (rt : Runtime) (n0 : List Char) (rest : List (Char × List Char))
    (x0 v : rt.F) (h0 : rt.parseFloat n0 = some x0)
    (hsame : (∀ p ∈ rest, p.1 = '+' ∨ p.1 = '-') ∨ (∀ p ∈ rest, p.1 = '*' ∨ p.1 = '/'))
    (hv : leftFold rt x0 rest = some v) :
    evaluateTokens rt (⟨.numberToken, n0⟩ :: chainTokens rest) = .ok v := by
  rw [evaluateTokens_eq_from, evaluateFrom_cons]
  have hstep0 : evalStep rt [] [] ⟨.numberToken, n0⟩ = .ok ([x0], []) := by
    simp [evalStep, h0]
  rw [hstep0]
  simp only []
  cases rest with
  | nil =>
    simp only [leftFold, Option.some.injEq] at hv
    subst hv
    simp [evaluateFrom, chainTokens, evalLoop, drainOperators]
  | cons p rest =>
    have hall : ∀ q ∈ p :: rest, isOperator q.1 = true ∧ precedence [q.1] = precedence [p.1] := by
      have hp := List.mem_cons_self p rest
      rcases hsame with hs | hs
      · intro q hq
        have h1 : precedence [p.1] = 1 := by
          rcases hs p hp with h | h <;> rw [h] <;> decide
        rcases hs q hq with h | h <;> rw [h1, h] <;> decide
      · intro q hq
        have h1 : precedence [p.1] = 2 := by
          rcases hs p hp with h | h <;> rw [h] <;> decide
        rcases hs q hq with h | h <;> rw [h1, h] <;> decide
    obtain ⟨hop, _⟩ := hall p (List.mem_cons_self _ _)
    simp only [leftFold] at hv
    cases hp : rt.parseFloat p.2 with
    | none => simp [hp] at hv
    | some b =>
      simp only [hp] at hv
      cases hb : binValue rt p.1 x0 b with
      | none => simp [hb] at hv
      | some r =>
        simp only [hb] at hv
        have hstep1 : evalStep rt [x0] [] ⟨.operatorToken, [p.1]⟩ = .ok ([x0], [[p.1]]) := by
          simp [evalStep, reduceWhile]
        have hstep2 : evalStep rt [x0] [[p.1]] ⟨.numberToken, p.2⟩ = .ok ([b, x0], [[p.1]]) := by
          simp [evalStep, hp]
        simp only [chainTokens]
        rw [evaluateFrom_cons, hstep1]
        simp only []
        rw [evaluateFrom_cons, hstep2]
        simp only []
        exact evaluateFrom_chain rest p.1 x0 b r v hop
          (fun q hq => hall q (List.mem_cons_of_mem _ hq)) hb hv

/-- C11, witness: `8-3-2` gives 3, `8/4/2` gives 1 and `5-3` gives 2. -/
theorem evaluateTokens_left_fold_witness :
    evaluateTokens go (⟨.numberToken, ['8']⟩ :: chainTokens [('-', ['3']), ('-', ['2'])])
        = .ok (.finite 3)
      ∧ evaluateTokens go (⟨.numberToken, ['8']⟩ :: chainTokens [('/', ['4']), ('/', ['2'])])
          = .ok (.finite 1)
      ∧ evaluateTokens go (⟨.numberToken, ['5']⟩ :: chainTokens [('-', ['3'])]) = .ok (.finite 2)
      ∧ tokenize go "8-3-2".toList
          = .ok (⟨.numberToken, ['8']⟩ :: chainTokens [('-', ['3']), ('-', ['2'])]) :=
  ⟨evaluateTokens_left_fold go ['8'] [('-', ['3']), ('-', ['2'])] (.finite 8) (.finite 3)
      (by decide!)
      (Or.inl (by decide)) (by decide!),
   evaluateTokens_left_fold go ['8'] [('/', ['4']), ('/', ['2'])] (.finite 8) (.finite 1)
      (by decide!)
      (Or.inr (by decide)) (by decide!),
   evaluateTokens_left_fold go ['5'] [('-', ['3'])] (.finite 5) (.finite 2) (by decide!)
      (Or.inl (by decide)) (by decide!),
   by decide⟩

set_option maxRecDepth 100000 in
/-- C11, counterexample: two parenthesis-free token sequences on which
`evaluateTokens` does not return the left fold.  The single Number token `1`
followed by 400 zeros is beyond the range of float64, its parse fails and the
result is `ErrInvalidToken`.  In Number `1`, Operator `/`, Number `0.0...01`
with 400 zeros after the point, the divisor is not zero, but it parses to the
float64 zero and the result is `ErrDivisionByZero`. -/
theorem evaluateTokens_left_fold_counterexample :
    evaluateTokens go (⟨.numberToken, '1' :: List.replicate 400 '0'⟩ :: chainTokens [])
        = .error .ErrInvalidToken
      ∧ evaluateTokens go (⟨.numberToken, ['1']⟩
          :: chainTokens [('/', '0' :: '.' :: (List.replicate 400 '0' ++ ['1']))])
        = .error .ErrDivisionByZero := by
  refine ⟨by decide!, by decide!⟩

/-- C16: a successful evaluation implies balanced parentheses.  For every token
sequence that `evaluateTokens` can receive, that is the tokens `tokenize`
emits for some text (the function is called by `Evaluate` only), and more
generally for every token sequence in which each Operator token holds one of
`+ - * /` and each parenthesis token its parenthesis: when `evaluateTokens`
returns a number, no prefix holds more right than left parenthesis tokens, the
whole sequence holds equally many, and the number of `(` markers on the
operator stack equals opens minus closes processed so far.  Hence the same
holds of the tokens of every input on which `Evaluate` returns a number. -/
theorem evaluation_implies_matched (rt : Runtime) :
    (∀ (s : List Char) (tokens : List token) (v : rt.F), tokenize rt s = .ok tokens →
        evaluateTokens rt tokens = .ok v → parensMatched rt tokens)
      ∧ (∀ (tokens : List token) (v : rt.F), (∀ t ∈ tokens, tokenOK t) →
        evaluateTokens rt tokens = .ok v → parensMatched rt tokens)
      ∧ (∀ (s : List Char) (v : rt.F), Evaluate rt s = .ok v →
          ∃ tokens, tokenize rt (removeSpaces s) = .ok tokens ∧ parensMatched rt tokens) := by
  refine ⟨?_, ?_, ?_⟩
  · intro s tokens v ht h
    exact parensMatched_of_ok (tokenize_tokenOK ht) h
  · intro tokens v hok h
    exact parensMatched_of_ok hok h
  · intro s v h
    unfold Evaluate at h
    simp only [] at h
    split_ifs at h with hnil
    cases ht : tokenize rt (removeSpaces s) with
    | error e => rw [ht] at h; cases h
    | ok tokens =>
      rw [ht] at h
      exact ⟨tokens, rfl, parensMatched_of_ok (tokenize_tokenOK ht) h⟩

/-- C16, witness: `((2+3)*4)-5` evaluates to 15 and its tokens have matching
parentheses. -/
theorem evaluation_implies_matched_witness :
    Evaluate go "((2+3)*4)-5".toList = .ok (.finite 15)
      ∧ ∃ tokens, tokenize go (removeSpaces "((2+3)*4)-5".toList) = .ok tokens
          ∧ parensMatched go tokens :=
  ⟨by decide!,
   (evaluation_implies_matched go).2.2 "((2+3)*4)-5".toList (.finite 15) (by decide!)⟩

/-- C18: evaluation always terminates.  Run with a budget on the iterations of each
of its three reduction loops, `evaluateTokens` returns its result, never
running out, as soon as the budget exceeds the number of tokens: an iteration
pops one entry of the operator stack, which receives at most one push per
token.  The scan of `tokenize` is one step per rune and ends in tokens or in
`ErrInvalidToken`. -/
theorem evaluation_terminates (rt : Runtime) :
    (∀ (tokens : List token) (fuel : Nat), tokens.length < fuel →
        evaluateTokensFuel rt fuel tokens = some (evaluateTokens rt tokens))
      ∧ (∀ (numbers : List rt.F) (operators : List (List Char)) (t : token)
          (r : List rt.F × List (List Char)),
          evalStep rt numbers operators t = .ok r → r.2.length ≤ operators.length + 1)
      ∧ (∀ s : List Char, (∃ tokens, tokenize rt s = .ok tokens)
          ∨ tokenize rt s = .error .ErrInvalidToken) := by
  refine ⟨fun tokens fuel h => evaluateTokensFuel_eq tokens h,
    fun numbers operators t r h => evalStep_length h, ?_⟩
  intro s
  cases h : tokenize rt s with
  | ok tokens => exact Or.inl ⟨tokens, rfl⟩
  | error e =>
    have he := tokenize_error h
    subst he
    exact Or.inr rfl

/-- C18, witness: the seven tokens of `2+3*4-5` evaluate within a budget of eight
iterations for each loop, and not within a budget of two. -/
theorem evaluation_terminates_witness :
    evaluateTokensFuel go 8 [⟨.numberToken, ['2']⟩, ⟨.operatorToken, ['+']⟩,
        ⟨.numberToken, ['3']⟩, ⟨.operatorToken, ['*']⟩, ⟨.numberToken, ['4']⟩,
        ⟨.operatorToken, ['-']⟩, ⟨.numberToken, ['5']⟩]
      = some (evaluateTokens go [⟨.numberToken, ['2']⟩, ⟨.operatorToken, ['+']⟩,
        ⟨.numberToken, ['3']⟩, ⟨.operatorToken, ['*']⟩, ⟨.numberToken, ['4']⟩,
        ⟨.operatorToken, ['-']⟩, ⟨.numberToken, ['5']⟩])
      ∧ evaluateTokens go [⟨.numberToken, ['2']⟩, ⟨.operatorToken, ['+']⟩,
        ⟨.numberToken, ['3']⟩, ⟨.operatorToken, ['*']⟩, ⟨.numberToken, ['4']⟩,
        ⟨.operatorToken, ['-']⟩, ⟨.numberToken, ['5']⟩] = .ok (.finite 9)
      ∧ evaluateTokensFuel go 2 [⟨.numberToken, ['2']⟩, ⟨.operatorToken, ['+']⟩,
        ⟨.numberToken, ['3']⟩, ⟨.operatorToken, ['*']⟩, ⟨.numberToken, ['4']⟩,
        ⟨.operatorToken, ['-']⟩, ⟨.numberToken, ['5']⟩] = none :=
  ⟨(evaluation_terminates go).1 _ 8 (by decide), by decide!, by decide!⟩

/-- C19: `Evaluate` never faults on a read out of range, for any input string.  In
the code with every index read made explicit (`none` being the fault), guarded
as in the source by the tests `len(numbers) < 2`, `len(operators) > 0`,
`len(operators) == 0`, `len(numbers) != 1` and `i == 0`, the result is never
the fault: it is the outcome of `Evaluate`. -/
theorem evaluate_never_faults (rt : Runtime) (s : List Char) :
    EvaluateChecked rt s = some (Evaluate rt s) := by
  unfold EvaluateChecked Evaluate
  simp only []
  split_ifs with hnil
  · rfl
  · simp only [tokenizeChecked_eq]
    cases tokenize rt (removeSpaces s) with
    | error e => rfl
    | ok tokens => exact evaluateTokensChecked_eq tokens

/-- C19, witness: the checked code on inputs of the test suite that drive every
guard: an operator lacking operands, unbalanced parentheses either way, a
leading sign and a sign after an operator. -/
theorem evaluate_never_faults_witness :
    EvaluateChecked go "5++3".toList = some (.error .ErrInvalidExpression)
      ∧ EvaluateChecked go "2+3)".toList = some (.error .ErrInvalidExpression)
      ∧ EvaluateChecked go "(2+3".toList = some (.error .ErrInvalidExpression)
      ∧ EvaluateChecked go "-3+4".toList = some (.ok (.finite 1))
      ∧ EvaluateChecked go "2*-3".toList = some (.ok (.finite (-6)))
      ∧ EvaluateChecked go "+".toList = some (Evaluate go "+".toList) :=
  ⟨by decide!, by decide!, by decide!, by decide!, by decide!,
   evaluate_never_faults go "+".toList⟩

end Calc
